import Mathlib

/-!
# proglog/internal/log: store, index, segment and Log

A shallow embedding of `store.go`, `index.go`, `segment.go` and `log.go`.

Conventions of the embedding:

* a byte is a natural number; the encoders only produce values below 256;
* `uint64` offsets (`baseOffset`, `nextOffset`, `InitialOffset`, the argument of
  `Truncate`) wrap modulo `2 ^ 64`, and the explicit conversions of the source
  (`uint32(..)`, `int64(..)`) are written out;
* file lengths and positions inside a file are not reduced modulo `2 ^ 64`:
  the operating system keeps every file shorter than `2 ^ 63` bytes;
* a `*segment` is an index into `Log.heap`, the list of all segment objects
  allocated so far, so that `activeSegment` and the elements of `segments`
  alias the same object exactly as the pointers of the source do;
* file system calls do not fail, except where the arguments alone make them
  fail (`Truncate` to a negative length, `mmap` of an empty file);
* the locks are not modelled: every operation runs alone.
-/

namespace Proglog

/-! ## Errors, bytes and the big-endian encoding -/

/-- Root causes of the errors the package returns; wrapping with `%w` keeps the cause. -/
inductive Error where
  /-- The sentinel `io.EOF`. -/
  | EOF
  /-- The sentinel `ErrOffsetOutOfRange` of `log.go`. -/
  | OffsetOutOfRange
  /-- The codec refused to marshal the record. -/
  | marshalFailed
  /-- The codec refused to unmarshal the bytes. -/
  | unmarshalFailed
  /-- A file system call rejected its arguments. -/
  | fileFailure
  /-- A run-time panic: nil dereference, slice or index out of range. -/
  | runtimePanic
  deriving DecidableEq, Repr

/-- A byte string: a `[]byte`, or the content of a file. -/
abbrev Bytes := List Nat

/-- The constant `lenWidth` of `store.go`. -/
def lenWidth : Nat := 8

/-- The constant `offWidth` of `index.go`. -/
def offWidth : Nat := 4

/-- The constant `posWidth` of `index.go`. -/
def posWidth : Nat := 8

/-- The constant `entWidth` of `index.go`. -/
def entWidth : Nat := offWidth + posWidth

/-- The bytes `enc.PutUint32` stores, most significant first. -/
def PutUint32 (v : Nat) : Bytes :=
  [v / 2 ^ 24 % 256, v / 2 ^ 16 % 256, v / 2 ^ 8 % 256, v % 256]

/-- The bytes `enc.PutUint64` stores, most significant first. -/
def PutUint64 (v : Nat) : Bytes :=
  [v / 2 ^ 56 % 256, v / 2 ^ 48 % 256, v / 2 ^ 40 % 256, v / 2 ^ 32 % 256,
   v / 2 ^ 24 % 256, v / 2 ^ 16 % 256, v / 2 ^ 8 % 256, v % 256]

/-- Big-endian value of a byte string, as `enc.Uint32` and `enc.Uint64` read it. -/
def beUint (bs : Bytes) : Nat :=
  bs.foldl (fun acc b => acc * 256 + b) 0

/-- The Go slice expression `m[lo:hi]`; `none` stands for the out-of-range panic. -/
def slice (m : Bytes) (lo hi : Nat) : Option Bytes :=
  if lo ≤ hi ∧ hi ≤ m.length then some ((m.drop lo).take (hi - lo)) else none

/-- Overwrite `m` from position `pos` on with `bs` (a `copy` into `m[pos:pos+len(bs)]`). -/
def writeAt (m : Bytes) (pos : Nat) (bs : Bytes) : Bytes :=
  m.take pos ++ bs ++ m.drop (pos + bs.length)

/-- The call `(*os.File).ReadAt(b, off)` with `len(b) = n`: the bytes read, and `io.EOF`
when fewer than `n` bytes were available. -/
def fileReadAt (f : Bytes) (n off : Nat) : Bytes × Option Error :=
  if n = 0 then ([], none)
  else
    let got := (f.drop off).take n
    if got.length < n then (got, some Error.EOF) else (got, none)

/-! ## Records, codec and configuration -/

/-- Modelled from the spec: the type `api.Record` (package `api/log/v1`), a byte payload
`Value` and the `Offset` assigned at append time. -/
structure Record where
  Value : Bytes
  Offset : Nat
  deriving DecidableEq, Repr

/-- Modelled from the spec: the injected serialisation pair, `proto.Marshal` and
`proto.Unmarshal` on `api.Record`; either direction may fail. -/
structure Codec where
  marshal : Record → Option Bytes
  unmarshal : Bytes → Option Record

/-- Modelled from the spec: the inner struct `Config.Segment` (file `config.go`). -/
structure SegmentConfig where
  MaxStoreBytes : Nat
  MaxIndexBytes : Nat
  InitialOffset : Nat
  deriving DecidableEq, Repr

/-- Modelled from the spec: the type `Config` (file `config.go`). -/
structure Config where
  Segment : SegmentConfig
  deriving DecidableEq, Repr

/-! ## store.go -/

/-- The type `store`: the file on disk, the bytes still held by the `bufio.Writer`,
and the running size. -/
structure store where
  file : Bytes
  buf : Bytes
  size : Nat
  deriving DecidableEq, Repr

/-- The function `newStore`: the size starts at the length of the file. -/
def newStore (f : Bytes) : store :=
  { file := f, buf := [], size := f.length }

/-- The call `s.buf.Flush()`: the file is opened with `O_APPEND`. -/
def store.Flush (s : store) : store :=
  { s with file := s.file ++ s.buf, buf := [] }

/-- The method `store.Append`: returns `(n, pos)` and the store afterwards. -/
def store.Append (s : store) (p : Bytes) : Except Error (Nat × Nat) × store :=
  let pos := s.size
  let buf1 := s.buf ++ PutUint64 p.length
  let w := p.length
  let buf2 := buf1 ++ p
  let w := w + lenWidth
  (.ok (w, pos), { s with buf := buf2, size := s.size + w })

/-- The method `store.Read`: flush, read the length, then the payload. A length that is
no `int` makes `make` panic. A position of `2 ^ 63` or more, which `int64(pos)` turns
negative and `ReadAt` rejects, lies past the end of every file: the read fails here too,
with the end-of-file error. -/
def store.Read (s : store) (pos : Nat) : Except Error Bytes × store :=
  let s1 := s.Flush
  match fileReadAt s1.file lenWidth pos with
  | (_, some e) => (.error e, s1)
  | (size, none) =>
    if 2 ^ 63 ≤ beUint size then (.error Error.runtimePanic, s1)
    else
      match fileReadAt s1.file (beUint size) (pos + lenWidth) with
      | (_, some e) => (.error e, s1)
      | (b, none) => (.ok b, s1)

/-- The method `store.ReadAt` with `len(p) = n`: flush, then a raw positioned read. -/
def store.ReadAt (s : store) (n off : Nat) : (Bytes × Option Error) × store :=
  let s1 := s.Flush
  (fileReadAt s1.file n off, s1)

/-- The method `store.Close`: flushes; the result is the content of the file on disk. -/
def store.Close (s : store) : Bytes :=
  s.Flush.file

/-! ## index.go -/

/-- The type `index`: the mapped region and the number of bytes written. -/
structure index where
  mmap : Bytes
  size : Nat
  deriving DecidableEq, Repr

/-- The call `os.Truncate(name, n)`: cut the file, or extend it with zero bytes. -/
def truncateFile (f : Bytes) (n : Nat) : Bytes :=
  f.take n ++ List.replicate (n - f.length) 0

/-- The function `newIndex` on a file with content `f`. -/
def newIndex (f : Bytes) (c : Config) : Except Error index :=
  let size := f.length
  if 2 ^ 63 ≤ c.Segment.MaxIndexBytes then .error Error.fileFailure
  else
    let grown := truncateFile f c.Segment.MaxIndexBytes
    if grown.length = 0 then .error Error.fileFailure
    else .ok { mmap := grown, size := size }

/-- The method `index.Close`: the content the index file is left with. -/
def index.Close (i : index) : Bytes :=
  truncateFile i.mmap i.size

/-- The conversion `uint32(x)` of an `int64`. -/
def toUint32 (x : Int) : Nat :=
  (x % 2 ^ 32).toNat

/-- The conversion `int64(x)` of a `uint64`. -/
def toInt64 (x : Nat) : Int :=
  if x % 2 ^ 64 < 2 ^ 63 then (x % 2 ^ 64 : Nat) else ((x % 2 ^ 64 : Nat) : Int) - 2 ^ 64

/-- The method `index.Read`. For `in == -1` the entry number is
`uint32((i.size / entWidth) - 1)`, a `uint64` subtraction that wraps when the quotient is 0;
its low 32 bits are `(i.size / entWidth + 2 ^ 32 - 1) % 2 ^ 32`. -/
def index.Read (i : index) (n : Int) : Except Error (Nat × Nat) :=
  if i.size = 0 then .error Error.EOF
  else
    let out := if n = -1 then (i.size / entWidth + (2 ^ 32 - 1)) % 2 ^ 32 else toUint32 n
    let pos := out * entWidth
    if i.size < pos + entWidth then .error Error.EOF
    else
      match slice i.mmap pos (pos + offWidth), slice i.mmap (pos + offWidth) (pos + entWidth) with
      | some o, some p => .ok (beUint o, beUint p)
      | _, _ => .error Error.runtimePanic

/-- The method `index.Write`. -/
def index.Write (i : index) (off pos : Nat) : Except Error Unit × index :=
  if i.mmap.length < i.size + entWidth then (.error Error.EOF, i)
  else
    let m1 := writeAt i.mmap i.size (PutUint32 off)
    let m2 := writeAt m1 (i.size + offWidth) (PutUint64 pos)
    (.ok (), { mmap := m2, size := i.size + entWidth })

/-! ## File names and the directory -/

/-- The name of a file of the log directory. -/
abbrev FileName := List Char

/-- The log directory: the files it holds, by name. -/
abbrev Directory := List (FileName × Bytes)

/-- The decimal digits of `n`, most significant first; `fuel` bounds their number. -/
def formatDigits : Nat → Nat → List Char
  | 0, n => [Nat.digitChar (n % 10)]
  | fuel + 1, n =>
    if n < 10 then [Nat.digitChar n]
    else formatDigits fuel (n / 10) ++ [Nat.digitChar (n % 10)]

/-- The decimal digits `fmt.Sprintf("%d", n)` prints. -/
def formatUint (n : Nat) : List Char :=
  formatDigits n n

/-- The name `fmt.Sprintf("%d%s", baseOffset, ext)` of a segment file. -/
def segmentFileName (baseOffset : Nat) (ext : List Char) : FileName :=
  formatUint baseOffset ++ ext

/-- The extension of store files. -/
def storeExt : List Char := ['.', 's', 't', 'o', 'r', 'e']

/-- The extension of index files. -/
def indexExt : List Char := ['.', 'i', 'n', 'd', 'e', 'x']

/-- The content found when the file is opened with `O_CREATE`: empty when it is new. -/
def openFile (dir : Directory) (name : FileName) : Bytes :=
  (dir.lookup name).getD []

/-- The part of a file name before its last dot:
`strings.TrimSuffix(name, path.Ext(name))`. -/
def trimExt (name : FileName) : List Char :=
  if name.contains '.' then (name.reverse.dropWhile (fun ch => ch != '.')).drop 1 |>.reverse
  else name

/-- The value of `off` after `off, _ := strconv.ParseUint(s, 10, 0)`: zero on a syntax
error, the largest `uint64` on a range error. -/
def parseUintOrZero (s : List Char) : Nat :=
  if s.isEmpty then 0
  else if s.all (fun ch => decide ('0' ≤ ch ∧ ch ≤ '9')) then
    let v := s.foldl (fun acc ch => acc * 10 + (ch.toNat - 48)) 0
    if v < 2 ^ 64 then v else 2 ^ 64 - 1
  else 0

/-! ## segment.go -/

/-- The type `segment`. -/
structure segment where
  store : store
  index : index
  baseOffset : Nat
  nextOffset : Nat
  config : Config
  deriving DecidableEq, Repr

/-- The function `newSegment`. An error returned by `s.index.Read(-1)` leaves `nextOffset` at
the base offset; a panic inside that call is no returned error and ends `newSegment`. -/
def newSegment (dir : Directory) (baseOffset : Nat) (c : Config) : Except Error segment :=
  let st := newStore (openFile dir (segmentFileName baseOffset storeExt))
  match newIndex (openFile dir (segmentFileName baseOffset indexExt)) c with
  | .error e => .error e
  | .ok idx =>
    match idx.Read (-1) with
    | .error Error.runtimePanic => .error Error.runtimePanic
    | .error _ =>
      .ok { store := st, index := idx, baseOffset := baseOffset, nextOffset := baseOffset,
            config := c }
    | .ok (off, _) =>
      .ok { store := st, index := idx, baseOffset := baseOffset,
            nextOffset := (baseOffset + off + 1) % 2 ^ 64, config := c }

/-- The method `segment.Append`: the result, the record as the caller sees it afterwards
(its `Offset` is overwritten first), and the segment afterwards. -/
def segment.Append (cd : Codec) (s : segment) (record : Record) :
    Except Error Nat × Record × segment :=
  let cur := s.nextOffset
  let record := { record with Offset := cur }
  match cd.marshal record with
  | none => (.error Error.marshalFailed, record, s)
  | some p =>
    match s.store.Append p with
    | (.error e, st) => (.error e, record, { s with store := st })
    | (.ok (_, pos), st) =>
      let s1 := { s with store := st }
      let rel := (s1.nextOffset + 2 ^ 64 - s1.baseOffset) % 2 ^ 64 % 2 ^ 32
      match s1.index.Write rel pos with
      | (.error e, idx) => (.error e, record, { s1 with index := idx })
      | (.ok _, idx) =>
        (.ok cur, record, { s1 with index := idx, nextOffset := (s1.nextOffset + 1) % 2 ^ 64 })

/-- The method `segment.Read`. -/
def segment.Read (cd : Codec) (s : segment) (off : Nat) : Except Error Record × segment :=
  match s.index.Read (toInt64 ((off + 2 ^ 64 - s.baseOffset) % 2 ^ 64)) with
  | .error e => (.error e, s)
  | .ok (_, pos) =>
    match s.store.Read pos with
    | (.error e, st) => (.error e, { s with store := st })
    | (.ok p, st) =>
      match cd.unmarshal p with
      | none => (.error Error.unmarshalFailed, { s with store := st })
      | some record => (.ok record, { s with store := st })

/-- The method `segment.IsMaxed`. -/
def segment.IsMaxed (s : segment) : Bool :=
  decide (s.store.size ≥ s.config.Segment.MaxStoreBytes) ||
    decide (s.index.size ≥ s.config.Segment.MaxIndexBytes)

/-- The method `segment.Close`: the two files as they are left on disk. -/
def segment.Close (s : segment) : Directory :=
  [(segmentFileName s.baseOffset indexExt, s.index.Close),
   (segmentFileName s.baseOffset storeExt, s.store.Close)]

/-! ## log.go -/

/-- The type `Log`. A `*segment` is an index into `heap`. -/
structure Log where
  Dir : Directory
  Config : Config
  heap : List segment
  activeSegment : Option Nat
  segments : List Nat
  deriving DecidableEq, Repr

/-- The segment objects the slice `l.segments` points to, in order. -/
def Log.segs (l : Log) : List segment :=
  l.segments.filterMap (fun p => l.heap[p]?)

/-- The method `Log.newSegment`: allocate the segment, append the pointer, make it active. -/
def Log.newSegment (l : Log) (off : Nat) : Except Error Unit × Log :=
  match Proglog.newSegment l.Dir off l.Config with
  | .error e => (.error e, l)
  | .ok s =>
    (.ok (), { l with heap := l.heap ++ [s],
                      segments := l.segments ++ [l.heap.length],
                      activeSegment := some l.heap.length })

/-- The base offsets `Log.setup` collects from the directory listing, before sorting; the
order of the listing does not matter, since the offsets are sorted next. -/
def scanBaseOffsets (dir : Directory) : List Nat :=
  dir.map (fun entry => parseUintOrZero (trimExt entry.1))

/-- The loop `for i := 0; i < len(baseOffsets); i++ { ...; i++ }` of `Log.setup`:
a segment for every second element. -/
def Log.setupLoop (l : Log) : List Nat → Except Error Unit × Log
  | [] => (.ok (), l)
  | [b] => l.newSegment b
  | b :: _ :: rest =>
    match l.newSegment b with
    | (.error e, l1) => (.error e, l1)
    | (.ok _, l1) => Log.setupLoop l1 rest

/-- The method `Log.setup`; `sort.Slice` with `<` leaves the offsets in ascending order. -/
def Log.setup (l : Log) : Except Error Unit × Log :=
  let baseOffsets := (scanBaseOffsets l.Dir).insertionSort (fun a b => a ≤ b)
  match l.setupLoop baseOffsets with
  | (.error e, l1) => (.error e, l1)
  | (.ok _, l1) =>
    if l1.segments.isEmpty then l1.newSegment l1.Config.Segment.InitialOffset
    else (.ok (), l1)

/-- The function `NewLog`. -/
def NewLog (dir : Directory) (c : Config) : Except Error Log :=
  let c := if c.Segment.MaxStoreBytes = 0
    then { c with Segment := { c.Segment with MaxStoreBytes := 1024 } } else c
  let c := if c.Segment.MaxIndexBytes = 0
    then { c with Segment := { c.Segment with MaxIndexBytes := 1024 } } else c
  let l : Log := { Dir := dir, Config := c, heap := [], activeSegment := none, segments := [] }
  match l.setup with
  | (.error e, _) => .error e
  | (.ok _, l1) => .ok l1

/-- The method `Log.Append`: the result, the caller's record afterwards, the log afterwards.
A nil `activeSegment` is a panic; when the rotation fails the call returns that error. -/
def Log.Append (cd : Codec) (l : Log) (record : Record) : Except Error Nat × Record × Log :=
  match l.activeSegment with
  | none => (.error Error.runtimePanic, record, l)
  | some a =>
    match l.heap[a]? with
    | none => (.error Error.runtimePanic, record, l)
    | some s =>
      match s.Append cd record with
      | (.error e, record1, s1) => (.error e, record1, { l with heap := l.heap.set a s1 })
      | (.ok off, record1, s1) =>
        let l1 := { l with heap := l.heap.set a s1 }
        if s1.IsMaxed then
          match l1.newSegment ((off + 1) % 2 ^ 64) with
          | (.error e, l2) => (.error e, record1, l2)
          | (.ok _, l2) => (.ok off, record1, l2)
        else (.ok off, record1, l1)

/-- The search loop of `Log.Read`: the first pointer whose segment covers `off`. -/
def Log.findSegment (l : Log) (off : Nat) : Option (Nat × segment) :=
  l.segments.findSome? (fun p =>
    (l.heap[p]?).bind (fun s =>
      if s.baseOffset ≤ off ∧ off < s.nextOffset then some (p, s) else none))

/-- The method `Log.Read`. -/
def Log.Read (cd : Codec) (l : Log) (off : Nat) : Except Error Record × Log :=
  match l.findSegment off with
  | none => (.error Error.OffsetOutOfRange, l)
  | some (p, s) =>
    if s.nextOffset ≤ off then (.error Error.OffsetOutOfRange, l)
    else
      match s.Read cd off with
      | (r, s1) => (r, { l with heap := l.heap.set p s1 })

/-- The method `Log.LowestOffset`. -/
def Log.LowestOffset (l : Log) : Except Error Nat :=
  match l.segs with
  | [] => .error Error.runtimePanic
  | s :: _ => .ok s.baseOffset

/-- The method `Log.HighestOffset`. -/
def Log.HighestOffset (l : Log) : Except Error Nat :=
  match l.segs.getLast? with
  | none => .error Error.runtimePanic
  | some s =>
    let off := s.nextOffset
    if off = 0 then .ok 0 else .ok (off - 1)

/-- The method `Log.Truncate`: the segments it removes are closed and their files
deleted; their objects stay on the heap, no longer referenced by `segments`. -/
def Log.Truncate (l : Log) (lowest : Nat) : Except Error Unit × Log :=
  let removed := fun (p : Nat) =>
    match l.heap[p]? with
    | some s => decide (s.nextOffset ≤ (lowest + 1) % 2 ^ 64)
    | none => false
  let gone := (l.segments.filter removed).filterMap (fun p => l.heap[p]?)
  let names := gone.flatMap (fun s => (s.Close).map Prod.fst)
  (.ok (), { l with segments := l.segments.filter (fun p => !removed p),
                    Dir := l.Dir.filter (fun entry => !names.contains entry.1) })

/-- The method `Log.Close`: the files of the directory after every segment was closed. -/
def Log.Close (l : Log) : Directory :=
  let written := l.segs.flatMap segment.Close
  written ++ l.Dir.filter (fun entry => !(written.map Prod.fst).contains entry.1)

/-! ## A concrete codec -/

/-- The groups of a base-128 varint, least significant first; `fuel` bounds their number. -/
def putVarintAux : Nat → Nat → Bytes
  | 0, n => [n % 128]
  | fuel + 1, n => if n < 128 then [n] else (128 + n % 128) :: putVarintAux fuel (n / 128)

/-- Base-128 varint of the protobuf wire format, least significant group first. -/
def putVarint (n : Nat) : Bytes :=
  putVarintAux n n

/-- Read a varint: its value and the bytes after it. -/
def getVarint : Bytes → Option (Nat × Bytes)
  | [] => none
  | b :: rest =>
    if b < 128 then some (b, rest)
    else
      match getVarint rest with
      | none => none
      | some (v, rest1) => some (b % 128 + 128 * v, rest1)

/-- The wire format of `api.Record`: field 1 `value` (bytes) and field 2 `offset` (varint),
each left out when it has its zero value. -/
def protoMarshal (r : Record) : Bytes :=
  (if r.Value = [] then [] else 10 :: (putVarint r.Value.length ++ r.Value)) ++
    (if r.Offset = 0 then [] else 16 :: putVarint r.Offset)

/-- Parse the two fields of `api.Record`; `fuel` bounds the number of fields. -/
def protoFields : Nat → Bytes → Record → Option Record
  | _, [], r => some r
  | 0, _ :: _, _ => none
  | fuel + 1, tag :: rest, r =>
    if tag = 10 then
      match getVarint rest with
      | none => none
      | some (n, rest1) =>
        if rest1.length < n then none
        else protoFields fuel (rest1.drop n) { r with Value := rest1.take n }
    else if tag = 16 then
      match getVarint rest with
      | none => none
      | some (v, rest1) => protoFields fuel rest1 { r with Offset := v % 2 ^ 64 }
    else none

/-- A codec for `api.Record` in the protobuf wire format; like `proto.Marshal` it refuses
messages of 2 GiB or more. -/
def protoCodec : Codec where
  marshal := fun r => if (protoMarshal r).length < 2 ^ 31 then some (protoMarshal r) else none
  unmarshal := fun p => protoFields p.length p { Value := [], Offset := 0 }

/-- The payload of the tests: the bytes of `"hello world"`. -/
def helloWorld : Bytes := [104, 101, 108, 108, 111, 32, 119, 111, 114, 108, 100]

/-- Append the records in turn, each to the log the previous call left; the results of
the calls, oldest first. -/
def Log.AppendAll (cd : Codec) (l : Log) : List Record → List (Except Error Nat) × Log
  | [] => ([], l)
  | r :: rs =>
    match l.Append cd r with
    | (res, _, l1) =>
      match Log.AppendAll cd l1 rs with
      | (ress, l2) => (res :: ress, l2)

/-- Append the payloads in turn; the results of the calls, oldest first. -/
def store.AppendAll (s : store) : List Bytes → List (Except Error (Nat × Nat)) × store
  | [] => ([], s)
  | p :: ps =>
    match s.Append p with
    | (res, s1) =>
      match store.AppendAll s1 ps with
      | (ress, s2) => (res :: ress, s2)

/-! ## The abstract content of a log

What a log built by `Append` calls on an empty directory holds, segment by segment: the
payloads the index references, and the bytes a failed index write left behind in the
store. `canonLog` is the `Log` value such a content stands for. -/

/-- One framed record of a store file: the 8-byte length, then the payload. -/
def frame (p : Bytes) : Bytes :=
  PutUint64 p.length ++ p

/-- The store bytes of a sequence of records. -/
def frames : List Bytes → Bytes
  | [] => []
  | p :: ps => frame p ++ frames ps

/-- The index bytes of a sequence of records, the first of them being entry `j` and
starting at store position `pos`. -/
def entries : Nat → Nat → List Bytes → Bytes
  | _, _, [] => []
  | j, pos, p :: ps => PutUint32 j ++ PutUint64 pos ++ entries (j + 1) (pos + (frame p).length) ps

/-- The content of one segment: the payloads of the indexed records, oldest first, and
the store bytes after them that no index entry references. -/
structure SegContent where
  ps : List Bytes
  junk : Bytes
  deriving DecidableEq, Repr

/-- The store bytes of a segment content. -/
def SegContent.bytes (g : SegContent) : Bytes :=
  frames g.ps ++ g.junk

/-- The segment with base offset `base` holding `g`, nothing flushed yet. -/
def canonSeg (c : Config) (base : Nat) (g : SegContent) : segment :=
  { store := { file := [], buf := g.bytes, size := g.bytes.length }
    index := { mmap := entries 0 0 g.ps ++
                 List.replicate (c.Segment.MaxIndexBytes - entWidth * g.ps.length) 0
               size := entWidth * g.ps.length }
    baseOffset := base
    nextOffset := (base + g.ps.length) % 2 ^ 64
    config := c }

/-- The segments holding the contents `G`, the first one at base offset `base`, each
next one at the `nextOffset` of the one before. -/
def canonHeap (c : Config) : Nat → List SegContent → List segment
  | _, [] => []
  | base, g :: G => canonSeg c base g :: canonHeap c ((base + g.ps.length) % 2 ^ 64) G

/-- The log over an initially empty directory holding the contents `G`. -/
def canonLog (c : Config) (G : List SegContent) : Log :=
  { Dir := []
    Config := c
    heap := canonHeap c c.Segment.InitialOffset G
    activeSegment := some (G.length - 1)
    segments := List.range G.length }

/-- The number of indexed records of a log content. -/
def totalRecords (G : List SegContent) : Nat :=
  (G.map (fun g => g.ps.length)).sum

/-- The configuration `NewLog` stores: zero limits replaced by 1024. -/
def Config.withDefaults (c : Config) : Config :=
  let c := if c.Segment.MaxStoreBytes = 0
    then { c with Segment := { c.Segment with MaxStoreBytes := 1024 } } else c
  if c.Segment.MaxIndexBytes = 0
    then { c with Segment := { c.Segment with MaxIndexBytes := 1024 } } else c

/-- The fields of a configuration are `uint64` values, and the index size is one
`newIndex` accepts. -/
def Config.valid (c : Config) : Prop :=
  c.Segment.MaxStoreBytes < 2 ^ 64 ∧ c.Segment.MaxIndexBytes < 2 ^ 63 ∧
    c.Segment.InitialOffset < 2 ^ 64

instance (c : Config) : Decidable c.valid := by
  unfold Config.valid; infer_instance

/-- The active segment of a log content is in one of the two states `Log.Append` leaves
it in: not maxed and without unreferenced bytes, or with an index that has no room. -/
def SegContent.activeOK (c : Config) (g : SegContent) : Prop :=
  (g.junk = [] ∧ (frames g.ps).length < c.Segment.MaxStoreBytes ∧
      entWidth * g.ps.length < c.Segment.MaxIndexBytes) ∨
    c.Segment.MaxIndexBytes < entWidth * g.ps.length + entWidth

/-- Every record of the segment content was written while the segment had room. -/
def SegContent.fits (c : Config) (g : SegContent) : Prop :=
  entWidth * g.ps.length ≤ c.Segment.MaxIndexBytes ∧
    (∀ p ∈ g.ps, p.length < 2 ^ 63) ∧
    ∀ j, j < g.ps.length → (frames (g.ps.take j)).length < c.Segment.MaxStoreBytes

/-- The content of a log: the rotated segments, oldest first, and the active one. -/
structure LogContent where
  older : List SegContent
  active : SegContent
  deriving DecidableEq, Repr

/-- All segment contents of a log, in segment order. -/
def LogContent.all (L : LogContent) : List SegContent :=
  L.older ++ [L.active]

/-- The contents `Log.Append` can produce from an empty directory. -/
structure LogContent.OK (c : Config) (L : LogContent) : Prop where
  fitsOlder : ∀ h ∈ L.older, h.fits c ∧ h.ps ≠ [] ∧ h.junk = []
  fitsActive : L.active.fits c
  active : L.active.activeOK c

/-- The effect of `Log.Append` on the content of a log. -/
def LogContent.Append (cd : Codec) (c : Config) (L : LogContent) (r : Record) :
    Except Error Nat × Record × LogContent :=
  let cur := (c.Segment.InitialOffset + totalRecords L.all) % 2 ^ 64
  let r1 := { r with Offset := cur }
  match cd.marshal r1 with
  | none => (.error Error.marshalFailed, r1, L)
  | some p =>
    if c.Segment.MaxIndexBytes < entWidth * L.active.ps.length + entWidth then
      (.error Error.EOF, r1, { L with active := { L.active with junk := L.active.junk ++ frame p } })
    else
      let g1 : SegContent := { L.active with ps := L.active.ps ++ [p] }
      if g1.bytes.length ≥ c.Segment.MaxStoreBytes ∨
          entWidth * g1.ps.length ≥ c.Segment.MaxIndexBytes then
        (.ok cur, r1, { older := L.older ++ [g1], active := ⟨[], []⟩ })
      else (.ok cur, r1, { L with active := g1 })

/-- The effect of `Log.AppendAll` on the content of a log. -/
def LogContent.AppendAll (cd : Codec) (c : Config) (L : LogContent) :
    List Record → List (Except Error Nat) × LogContent
  | [] => ([], L)
  | r :: rs =>
    match L.Append cd c r with
    | (res, _, L1) =>
      match LogContent.AppendAll cd c L1 rs with
      | (ress, L2) => (res :: ress, L2)

/-- The content of a fresh log: one empty segment. -/
def LogContent.fresh : LogContent :=
  { older := [], active := ⟨[], []⟩ }

/-- The number of calls that returned without error. -/
def okCount (rs : List (Except Error Nat)) : Nat :=
  (rs.filter (fun x => match x with | .ok _ => true | .error _ => false)).length

/-- The fields of a configuration are `uint64` values. -/
def Config.isUint64 (c : Config) : Prop :=
  c.Segment.MaxStoreBytes < 2 ^ 64 ∧ c.Segment.MaxIndexBytes < 2 ^ 64 ∧
    c.Segment.InitialOffset < 2 ^ 64

instance (c : Config) : Decidable c.isUint64 := by
  unfold Config.isUint64; infer_instance

/-- The payloads a codec produces are Go slices: shorter than `2 ^ 63` bytes. -/
def Codec.sliceSized (cd : Codec) : Prop :=
  ∀ r p, cd.marshal r = some p → p.length < 2 ^ 63

deriving instance DecidableEq for Except

/-- The record of the tests: `Value` is `"hello world"`. -/
def helloRecord : Record :=
  { Value := helloWorld, Offset := 0 }

/-- The configuration of `TestLog`: `MaxStoreBytes = 32`, the rest left to the defaults. -/
def testConfig : Config :=
  { Segment := { MaxStoreBytes := 32, MaxIndexBytes := 0, InitialOffset := 0 } }

/-- A configuration whose first offset is the largest `uint64`. -/
def lastOffsetConfig : Config :=
  { Segment := { MaxStoreBytes := 1024, MaxIndexBytes := 1024, InitialOffset := 2 ^ 64 - 1 } }

/-- A configuration whose first offset is the largest `uint64` and whose store limit
makes every append rotate. -/
def wrapRotateConfig : Config :=
  { Segment := { MaxStoreBytes := 1, MaxIndexBytes := 1024, InitialOffset := 2 ^ 64 - 1 } }

/-- Whether `Log.Append` rotates: the append to the active segment succeeds and leaves
it maxed, so that `l.newSegment` is called. -/
def Log.rotates (cd : Codec) (l : Log) (record : Record) : Bool :=
  match l.activeSegment with
  | none => false
  | some a =>
    match l.heap[a]? with
    | none => false
    | some s =>
      match s.Append cd record with
      | (.error _, _, _) => false
      | (.ok _, _, s1) => s1.IsMaxed

/-- The number of rotations while the records are appended in turn. -/
def Log.rotations (cd : Codec) (l : Log) : List Record → Nat
  | [] => 0
  | r :: rs => (if l.rotates cd r then 1 else 0) + Log.rotations cd (l.Append cd r).2.2 rs

/-- The zero `Config`: `NewLog` replaces both limits by 1024. -/
def defaultConfig : Config :=
  { Segment := { MaxStoreBytes := 0, MaxIndexBytes := 0, InitialOffset := 0 } }

/-- A configuration with a large store limit and an index limit of 100 bytes, room for
eight entries. -/
def largeStoreConfig : Config :=
  { Segment := { MaxStoreBytes := 2 ^ 20, MaxIndexBytes := 100, InitialOffset := 0 } }

/-- The zero `api.Record`: no payload. -/
def emptyRecord : Record :=
  { Value := [], Offset := 0 }

/-! ## Log.Reader -/

/-- The type `originReader`: a store and the read cursor. The reader is modelled on the
store as it is when `Reader` is called. -/
structure originReader where
  store : store
  off : Nat
  deriving DecidableEq, Repr

/-- The method `originReader.Read` with `len(p) = n`. -/
def originReader.Read (o : originReader) (n : Nat) : (Bytes × Option Error) × originReader :=
  match o.store.ReadAt n o.off with
  | ((bs, err), st) => ((bs, err), { store := st, off := o.off + bs.length })

/-- The method `Log.Reader`: one `originReader` per segment, in segment order; the
result is the list `io.MultiReader` is built from. -/
def Log.Reader (l : Log) : List originReader :=
  l.segs.map (fun s => { store := s.store, off := 0 })

/-- The method `Read` of `io.MultiReader` with `len(p) = n`: the readers that are left
come back with the result. A reader that reports `io.EOF` is dropped; the call returns
as soon as bytes were read or an error other than `io.EOF` occurred, and `io.EOF` is only
reported once no reader is left. -/
def multiRead : List originReader → Nat → (Bytes × Option Error) × List originReader
  | [], _ => (([], some Error.EOF), [])
  | r :: rest, n =>
    match r.Read n with
    | ((bs, err), r1) =>
      if err = some Error.EOF then
        if 0 < bs.length then
          (if rest.isEmpty then ((bs, some Error.EOF), rest) else ((bs, none), rest))
        else multiRead rest n
      else ((bs, err), r1 :: rest)

/-- The function `io.ReadAll` on a multi-reader: `sizes i` is the length of the buffer it
hands to the `i`-th call of `Read`, `fuel` bounds the number of calls; `none` when the
fuel runs out. -/
def readAll (sizes : Nat → Nat) : Nat → Nat → List originReader → Bytes →
    Option (Except Error Bytes)
  | 0, _, _, _ => none
  | fuel + 1, i, rs, acc =>
    match multiRead rs (sizes i) with
    | ((bs, none), rs1) => readAll sizes fuel (i + 1) rs1 (acc ++ bs)
    | ((bs, some Error.EOF), _) => some (.ok (acc ++ bs))
    | ((_, some e), _) => some (.error e)

/-- Split a byte string into `[8-byte big-endian length][payload]` frames; `fuel`
bounds the number of frames; `none` when the bytes are not a sequence of whole frames. -/
def parseFramesAux : Nat → Bytes → Option (List Bytes)
  | _, [] => some []
  | 0, _ :: _ => none
  | fuel + 1, b :: bs =>
    if (b :: bs).length < lenWidth then none
    else
      let n := beUint ((b :: bs).take lenWidth)
      let rest := (b :: bs).drop lenWidth
      if rest.length < n then none
      else
        match parseFramesAux fuel (rest.drop n) with
        | none => none
        | some ps => some (rest.take n :: ps)

/-- Split a byte string into length-prefixed frames. -/
def parseFrames (bs : Bytes) : Option (List Bytes) :=
  parseFramesAux bs.length bs

/-- The segment with the buffer of its store written to the file. -/
def segment.flushed (s : segment) : segment :=
  { s with store := s.store.Flush }

/-- The log with every store flushed, over the directory `Log.Close` leaves. -/
def Log.reopened (l : Log) : Log :=
  { l with Dir := l.Close, heap := l.heap.map segment.flushed }

/-! ## Invariants of stores, indexes and segments -/

/-- The running size of a store counts the bytes on disk and the bytes still buffered:
what `newStore` establishes and `Append`, `Read` and `ReadAt` keep. -/
def store.consistent (s : store) : Prop :=
  s.size = s.file.length + s.buf.length

/-- An index with one entry `(0, 0)` in a region of 24 bytes. -/
def oneEntryIndex : index :=
  { mmap := List.replicate 24 0, size := 12 }

/-- An index whose size 5 is no multiple of the entry width, in a region of 24 bytes. -/
def misalignedIndex : index :=
  { mmap := List.replicate 24 0, size := 5 }

/-! ## Sequences of appends to one segment -/

/-- Append the records in turn to the segment, each to the segment the previous call
left; the results of the calls, oldest first. -/
def segment.AppendAll (cd : Codec) (s : segment) : List Record → List (Except Error Nat) × segment
  | [] => ([], s)
  | r :: rs =>
    match s.Append cd r with
    | (res, _, s1) =>
      match segment.AppendAll cd s1 rs with
      | (ress, s2) => (res :: ress, s2)

/-- What `proto.Marshal` returns for each of the records when they are assigned the
offsets `n`, `n + 1`, ... in turn. -/
def marshalFrom (cd : Codec) : Nat → List Record → List (Option Bytes)
  | _, [] => []
  | n, r :: rs => cd.marshal { r with Offset := n } :: marshalFrom cd ((n + 1) % 2 ^ 64) rs

/-- The configuration of `TestSegment`: a store limit of 1024 bytes and an index of three
entries. -/
def segmentTestConfig : Config :=
  { Segment := { MaxStoreBytes := 1024, MaxIndexBytes := entWidth * 3, InitialOffset := 0 } }

/-- A directory holding one index file, for base offset 0, whose only entry has the
largest relative offset, `2 ^ 32 - 1`. -/
def lastRelativeDir : Directory :=
  [(segmentFileName 0 indexExt, PutUint32 (2 ^ 32 - 1) ++ PutUint64 0)]

/-- A directory holding one index file, for the base offset `b`, whose only entry is
`(r, 0)`. -/
def oneEntryDir (b r : Nat) : Directory :=
  [(segmentFileName b indexExt, PutUint32 r ++ PutUint64 0)]

/-- A directory with the two files of the segment at base offset 0 and one more file,
`notes.txt`. -/
def strayFileDir : Directory :=
  [(segmentFileName 0 indexExt, []), (segmentFileName 0 storeExt, []),
    (['n', 'o', 't', 'e', 's', '.', 't', 'x', 't'], [])]

/-- A directory with two store files and no index file. -/
def loneStoreDir : Directory :=
  [(segmentFileName 0 storeExt, []), (segmentFileName 1 storeExt, [])]

/-- The `Log` value `NewLog` hands to `setup`. -/
def Log.blank (dir : Directory) (c : Proglog.Config) : Log :=
  { Dir := dir, Config := c, heap := [], activeSegment := none, segments := [] }

/-- A directory with the two files of a segment at base offset 0 and of one at base
offset 3, the second with one entry in its index. -/
def pairedDir : Directory :=
  [(segmentFileName 0 indexExt, []), (segmentFileName 0 storeExt, []),
    (segmentFileName 3 indexExt, PutUint32 0 ++ PutUint64 0),
    (segmentFileName 3 storeExt, frame [7])]

/-- A codec whose `marshal` refuses every record. -/
def failingCodec : Codec where
  marshal := fun _ => none
  unmarshal := fun _ => none

/-- A configuration whose index has room for one entry. -/
def smallIndexConfig : Config :=
  { Segment := { MaxStoreBytes := 1024, MaxIndexBytes := 12, InitialOffset := 0 } }

/-- An index file with the two entries `(0, 0)` and `(1, 19)`. -/
def twoEntryFile : Bytes :=
  PutUint32 0 ++ PutUint64 0 ++ (PutUint32 1 ++ PutUint64 19)

/-- A directory with the files of the segment at base offset 0: an index file of two
entries and its store file. -/
def twoEntryDir : Directory :=
  [(segmentFileName 0 indexExt, twoEntryFile),
    (segmentFileName 0 storeExt, frame [7] ++ frame [8])]

/-! ## Logs whose segments are in order -/

/-- The segment list of a log is in order: no segment ends before it starts, every
segment ends where a later one starts or before, the list is not empty and
`activeSegment` points to its last element. -/
def Log.Ordered (l : Log) : Prop :=
  (∀ s ∈ l.segs, s.baseOffset ≤ s.nextOffset) ∧
    l.segs.Pairwise (fun s t => s.nextOffset ≤ t.baseOffset) ∧
    l.segs ≠ [] ∧
    l.activeSegment.bind (fun a => l.heap[a]?) = l.segs.getLast?

instance (l : Log) : Decidable l.Ordered := by
  unfold Log.Ordered; infer_instance

/-! ## Invariants of a log -/

/-- What holds of a segment whose offsets have not wrapped: `nextOffset` is the base
offset plus the number of index entries and is a `uint64`, the index holds whole entries
inside a mapped region of `MaxIndexBytes` bytes, the last entry carries its own number as
relative offset, and the store size counts the bytes written. -/
structure segment.WF (c : Config) (s : segment) : Prop where
  config : s.config = c
  next : s.nextOffset = s.baseOffset + s.index.size / entWidth
  nowrap : s.nextOffset < 2 ^ 64
  aligned : s.index.size % entWidth = 0
  mapped : s.index.mmap.length = c.Segment.MaxIndexBytes
  room : s.index.size ≤ c.Segment.MaxIndexBytes
  last : ∀ n, s.index.size = entWidth * (n + 1) →
    beUint ((s.index.mmap.drop (entWidth * n)).take offWidth) = n
  store : s.store.consistent

/-- The shape of a log whose offsets have not wrapped: the limits are those `NewLog`
accepts, with relative offsets that fit 32 bits; `activeSegment` is the last pointer of
`segments` and occurs once; every pointer is allocated; every segment is well formed;
each segment ends where a later one starts or before, with base offsets strictly
ascending; and every file of the directory belongs to a segment of the list. -/
structure Log.Shape (l : Log) : Prop where
  cfg : l.Config.valid ∧ 0 < l.Config.Segment.MaxStoreBytes ∧
    0 < l.Config.Segment.MaxIndexBytes ∧ l.Config.Segment.MaxIndexBytes ≤ 12 * 2 ^ 32
  active : ∃ a init, l.activeSegment = some a ∧ l.segments = init ++ [a] ∧ a ∉ init
  alloc : ∀ p ∈ l.segments, p < l.heap.length
  each : ∀ p ∈ l.segments, ∀ s, l.heap[p]? = some s → s.WF l.Config
  sorted : l.segments.Pairwise (fun p q => ∀ s t, l.heap[p]? = some s → l.heap[q]? = some t →
    s.nextOffset ≤ t.baseOffset ∧ s.baseOffset < t.baseOffset)
  files : ∀ e ∈ l.Dir, ∃ p ∈ l.segments, ∃ s, l.heap[p]? = some s ∧
    (e.1 = segmentFileName s.baseOffset indexExt ∨ e.1 = segmentFileName s.baseOffset storeExt)

/-- The invariant of a log whose offsets have not wrapped: its shape, and an active
segment that is either not maxed or has an index without room for another entry (the two
states `Log.Append` leaves it in). -/
structure Log.WF (l : Log) : Prop where
  shape : l.Shape
  head : ∀ a s, l.activeSegment = some a → l.heap[a]? = some s →
    s.IsMaxed = false ∨ s.index.mmap.length < s.index.size + entWidth

/-- The logs the package reaches from an empty directory with configuration `c`, while no
offset wraps: `NewLog` on the empty directory; `Append`, as long as the offset it assigns
is not the largest `uint64`; `Read`; `Truncate(k)` with `k` below `HighestOffset()`, which
keeps the active segment; and `Close` followed by `NewLog` on the same directory with the
same configuration. -/
inductive Log.Reachable (cd : Codec) (c : Proglog.Config) : Log → Prop where
  | fresh (l : Log) : NewLog [] c = .ok l → Log.Reachable cd c l
  | append (l : Log) (r : Record) : Log.Reachable cd c l →
      (∀ a s, l.activeSegment = some a → l.heap[a]? = some s → s.nextOffset + 1 < 2 ^ 64) →
      Log.Reachable cd c (l.Append cd r).2.2
  | read (l : Log) (off : Nat) : Log.Reachable cd c l → Log.Reachable cd c (l.Read cd off).2
  | truncate (l : Log) (k h : Nat) : Log.Reachable cd c l → l.HighestOffset = .ok h → k < h →
      Log.Reachable cd c (l.Truncate k).2
  | restart (l l1 : Log) : Log.Reachable cd c l → NewLog l.Close c = .ok l1 →
      Log.Reachable cd c l1

/-- The segment `newSegment` builds from the two files a segment leaves on disk when its
index holds whole entries: the store and the index are read back from the files, the
offsets are those the segment had. -/
def segment.reopen (s : segment) : segment :=
  { store := newStore s.store.Close
    index := { mmap := truncateFile s.index.Close s.config.Segment.MaxIndexBytes
               size := s.index.Close.length }
    baseOffset := s.baseOffset
    nextOffset := s.nextOffset
    config := s.config }

/-- A log with a history: under the configuration of `TestLog` four records are
appended, which fills two segments and leaves a third one active, and `Truncate(1)`
removes the first segment. -/
def truncatedLog : Log :=
  ((((((canonLog testConfig.withDefaults LogContent.fresh.all).Append protoCodec
  helloRecord).2.2.Append protoCodec helloRecord).2.2.Append protoCodec
  helloRecord).2.2.Append protoCodec helloRecord).2.2.Truncate 1).2

/-- The log `NewLog` builds over the directory `truncatedLog` leaves when it is closed. -/
def reopenedLog : Log :=
  Log.mk truncatedLog.Close truncatedLog.Config (truncatedLog.segs.map segment.reopen)
    (some (truncatedLog.segs.length - 1)) (List.range truncatedLog.segs.length)

/-! # Theorems -/

/-! ## store.go: appending -/

theorem store_Append_eq (s : store) (p : Bytes) :
    s.Append p = (.ok (p.length + lenWidth, s.size),
      { s with buf := s.buf ++ PutUint64 p.length ++ p, size := s.size + (p.length + lenWidth) }) :=
  rfl

theorem store_AppendAll_get (ps : List Bytes) (k : Nat) (hlen : ∀ q ∈ ps, q.length = k) :
    ∀ (s : store) (i : Nat), i < ps.length →
      (s.AppendAll ps).1[i]? = some (.ok (k + lenWidth, s.size + i * (k + lenWidth))) := by
  induction ps with
  | nil => intro s i hi; simp at hi
  | cons p ps ih =>
    intro s i hi
    have hp : p.length = k := hlen p (List.mem_cons_self _ _)
    have ih1 := ih (fun q hq => hlen q (List.mem_cons_of_mem _ hq))
    cases i with
    | zero => simp [store.AppendAll, store_Append_eq, hp]
    | succ j =>
      have hj : j < ps.length := by simpa using hi
      have := ih1 (s.Append p).2 j hj
      simp only [store.AppendAll, List.getElem?_cons_succ]
      rw [this]
      simp [store_Append_eq, hp]
      ring

/-- C10: `store.Append(p)` on a store of size `s` returns `n = 8 + len(p)` and `pos = s`
and leaves the size at `s + n`; on a fresh store the `i`-th append (counted from 1) of
payloads of one length satisfies `pos + n = i * (8 + len(p))`. -/
theorem store_Append_result (s : store) (p : Bytes) (ps : List Bytes) (i : Nat)
    (hlen : ∀ q ∈ ps, q.length = p.length) (hi : i < ps.length) :
    (∃ n pos s1, s.Append p = (.ok (n, pos), s1) ∧ n = 8 + p.length ∧ pos = s.size ∧
        s1.size = s.size + n) ∧
      (∃ n pos, ((newStore []).AppendAll ps).1[i]? = some (.ok (n, pos)) ∧
        pos + n = (i + 1) * (8 + p.length)) := by
  refine ⟨⟨p.length + lenWidth, s.size, _, store_Append_eq s p, ?_, rfl, rfl⟩, ?_⟩
  · simp [lenWidth]; omega
  · refine ⟨_, _, store_AppendAll_get ps p.length hlen (newStore []) i hi, ?_⟩
    simp [newStore, lenWidth]
    ring

theorem store_Append_result_witness :
    (∃ n pos s1, (newStore [1, 2, 3]).Append helloWorld = (.ok (n, pos), s1) ∧
        n = 8 + helloWorld.length ∧ pos = (newStore [1, 2, 3]).size ∧
        s1.size = (newStore [1, 2, 3]).size + n) ∧
      (∃ n pos, ((newStore []).AppendAll [helloWorld, helloWorld, helloWorld]).1[2]? =
          some (.ok (n, pos)) ∧ pos + n = (2 + 1) * (8 + helloWorld.length)) :=
  store_Append_result (newStore [1, 2, 3]) helloWorld [helloWorld, helloWorld, helloWorld] 2
    (by decide) (by decide)

/-! ## Bytes -/

@[simp] theorem PutUint32_length (v : Nat) : (PutUint32 v).length = 4 := rfl

@[simp] theorem PutUint64_length (v : Nat) : (PutUint64 v).length = 8 := rfl

theorem beUint_PutUint32 (v : Nat) : beUint (PutUint32 v) = v % 2 ^ 32 := by
  simp only [beUint, PutUint32, List.foldl_cons, List.foldl_nil]
  omega

theorem beUint_PutUint64 (v : Nat) : beUint (PutUint64 v) = v % 2 ^ 64 := by
  simp only [beUint, PutUint64, List.foldl_cons, List.foldl_nil]
  omega

@[simp] theorem frame_length (p : Bytes) : (frame p).length = p.length + 8 := by
  simp [frame]; omega

theorem frames_append (a b : List Bytes) : frames (a ++ b) = frames a ++ frames b := by
  induction a with
  | nil => rfl
  | cons p a ih => simp [frames, ih]

@[simp] theorem entries_length (j pos : Nat) (ps : List Bytes) :
    (entries j pos ps).length = entWidth * ps.length := by
  induction ps generalizing j pos with
  | nil => rfl
  | cons p ps ih => simp [entries, ih, entWidth, offWidth, posWidth]; omega

theorem entries_append (j pos : Nat) (a b : List Bytes) :
    entries j pos (a ++ b) =
      entries j pos a ++ entries (j + a.length) (pos + (frames a).length) b := by
  induction a generalizing j pos with
  | nil => simp [entries, frames]
  | cons p a ih =>
    have e1 : j + 1 + a.length = j + (a.length + 1) := by omega
    have e2 : pos + (frame p).length + (frames a).length =
        pos + ((frame p).length + (frames a).length) := by omega
    have h := ih (j + 1) (pos + (frame p).length)
    rw [e1, e2] at h
    simp only [List.cons_append, entries, frames, List.length_cons, List.length_append,
      List.append_assoc, List.append_eq, h]

theorem writeAt_append (a bs z : Bytes) :
    writeAt (a ++ z) a.length bs = a ++ bs ++ z.drop bs.length := by
  simp [writeAt, List.drop_append_eq_append_drop, List.take_append_eq_append_take]


/-! ## index.go on an index of entries followed by zero bytes -/

theorem index_Write_full (E : Bytes) (k off pos : Nat) (hk : k < entWidth) :
    index.Write { mmap := E ++ List.replicate k 0, size := E.length } off pos =
      (.error Error.EOF, { mmap := E ++ List.replicate k 0, size := E.length }) := by
  simpa [index.Write] using hk

theorem index_Write_room (E : Bytes) (k off pos : Nat) (hk : entWidth ≤ k) :
    index.Write { mmap := E ++ List.replicate k 0, size := E.length } off pos =
      (.ok (), { mmap := E ++ (PutUint32 off ++ PutUint64 pos) ++ List.replicate (k - entWidth) 0,
                 size := E.length + entWidth }) := by
  have hlt : ¬ (E ++ List.replicate k 0).length < E.length + entWidth := by
    simp; omega
  have hk12 : 12 ≤ k := hk
  have e1 : writeAt (E ++ List.replicate k 0) E.length (PutUint32 off) =
      (E ++ PutUint32 off) ++ List.replicate (k - 4) 0 := by
    rw [writeAt_append]; simp [List.drop_replicate]
  have e2 : writeAt ((E ++ PutUint32 off) ++ List.replicate (k - 4) 0) (E.length + offWidth)
      (PutUint64 pos) =
      E ++ (PutUint32 off ++ PutUint64 pos) ++ List.replicate (k - entWidth) 0 := by
    have h4 : E.length + offWidth = (E ++ PutUint32 off).length := by simp [offWidth]
    have h12 : k - 4 - 8 = k - entWidth := by simp [entWidth, offWidth, posWidth]; omega
    rw [h4, writeAt_append]; simp [List.drop_replicate, h12]
  simp only [index.Write, hlt, if_false, e1, e2]


/-! ## segment.go on a canonical segment -/

theorem entWidth_eq : entWidth = 12 := rfl

theorem PutUint32_mod (v : Nat) : PutUint32 (v % 2 ^ 32) = PutUint32 v := by
  simp only [PutUint32, List.cons.injEq, and_true]
  omega

theorem relOffset_eq (base n : Nat) (hb : base < 2 ^ 64) (hn : n < 2 ^ 64) :
    ((base + n) % 2 ^ 64 + 2 ^ 64 - base) % 2 ^ 64 = n := by
  omega

theorem canonSeg_index (c : Config) (base : Nat) (g : SegContent) :
    (canonSeg c base g).index =
      { mmap := entries 0 0 g.ps ++
          List.replicate (c.Segment.MaxIndexBytes - entWidth * g.ps.length) 0,
        size := (entries 0 0 g.ps).length } := by
  simp [canonSeg]

theorem segment_Append_marshalFailed (cd : Codec) (s : segment) (r : Record)
    (hm : cd.marshal { r with Offset := s.nextOffset } = none) :
    s.Append cd r = (.error Error.marshalFailed, { r with Offset := s.nextOffset }, s) := by
  simp [segment.Append, hm]

theorem segment_Append_full (cd : Codec) (c : Config) (base : Nat) (g : SegContent) (r : Record)
    (p : Bytes) (hm : cd.marshal { r with Offset := (base + g.ps.length) % 2 ^ 64 } = some p)
    (hfull : c.Segment.MaxIndexBytes < entWidth * g.ps.length + entWidth) :
    (canonSeg c base g).Append cd r =
      (.error Error.EOF, { r with Offset := (base + g.ps.length) % 2 ^ 64 },
        canonSeg c base { g with junk := g.junk ++ frame p }) := by
  have hk : c.Segment.MaxIndexBytes - entWidth * g.ps.length < entWidth := by
    rw [entWidth_eq] at hfull ⊢; omega
  have hw := index_Write_full (entries 0 0 g.ps) _
    ((((canonSeg c base g).nextOffset + 2 ^ 64 - base) % 2 ^ 64) % 2 ^ 32)
    (canonSeg c base g).store.size hk
  have hm1 : cd.marshal { r with Offset := (canonSeg c base g).nextOffset } = some p := hm
  simp only [segment.Append, hm1, store_Append_eq]
  rw [canonSeg_index]
  simp only [canonSeg] at hw ⊢
  rw [hw]
  simp [canonSeg, SegContent.bytes, frame, lenWidth]
  omega

theorem segment_Append_ok (cd : Codec) (c : Config) (base : Nat) (g : SegContent) (r : Record)
    (p : Bytes) (hm : cd.marshal { r with Offset := (base + g.ps.length) % 2 ^ 64 } = some p)
    (hb : base < 2 ^ 64) (hn : g.ps.length < 2 ^ 64) (hj : g.junk = [])
    (hroom : entWidth * g.ps.length + entWidth ≤ c.Segment.MaxIndexBytes) :
    (canonSeg c base g).Append cd r =
      (.ok ((base + g.ps.length) % 2 ^ 64), { r with Offset := (base + g.ps.length) % 2 ^ 64 },
        canonSeg c base { g with ps := g.ps ++ [p] }) := by
  have hk : entWidth ≤ c.Segment.MaxIndexBytes - entWidth * g.ps.length := by
    rw [entWidth_eq] at hroom ⊢; omega
  have hw := index_Write_room (entries 0 0 g.ps) _
    ((((canonSeg c base g).nextOffset + 2 ^ 64 - base) % 2 ^ 64) % 2 ^ 32)
    (canonSeg c base g).store.size hk
  have hm1 : cd.marshal { r with Offset := (canonSeg c base g).nextOffset } = some p := hm
  simp only [segment.Append, hm1, store_Append_eq]
  rw [canonSeg_index]
  simp only [canonSeg] at hw ⊢
  rw [hw]
  have hrel := relOffset_eq base g.ps.length hb hn
  simp only [hrel, PutUint32_mod]
  simp [canonSeg, SegContent.bytes, frame, lenWidth, hj, entries_append, frames_append, frames,
    entries, Nat.mul_add]
  clear hw hrel hk hroom
  exact ⟨by omega, by omega, by omega⟩


theorem newSegment_empty (c : Config) (base : Nat) (hb : base < 2 ^ 64)
    (h63 : c.Segment.MaxIndexBytes < 2 ^ 63) (hpos : 0 < c.Segment.MaxIndexBytes) :
    newSegment [] base c = .ok (canonSeg c base ⟨[], []⟩) := by
  have h1 : ¬ (2 ^ 63 ≤ c.Segment.MaxIndexBytes) := by omega
  have h2 : ¬ (c.Segment.MaxIndexBytes = 0) := by omega
  have hi : newIndex [] c = .ok { mmap := List.replicate c.Segment.MaxIndexBytes 0, size := 0 } := by
    simp only [newIndex, h1, if_false, truncateFile, List.take_nil, List.nil_append,
      List.length_replicate, List.length_nil, Nat.sub_zero, h2]
  have hr : index.Read { mmap := List.replicate c.Segment.MaxIndexBytes 0, size := 0 } (-1) =
      .error Error.EOF := if_pos rfl
  simp only [newSegment, openFile, List.lookup_nil, Option.getD_none, hi, hr, newStore,
    List.length_nil, canonSeg, SegContent.bytes, frames, entries, List.nil_append, Nat.add_zero,
    Nat.mul_zero, Nat.sub_zero, Nat.mod_eq_of_lt hb]

/-! ## The heap of a canonical log -/

@[simp] theorem canonHeap_length (c : Config) (b : Nat) (G : List SegContent) :
    (canonHeap c b G).length = G.length := by
  induction G generalizing b with
  | nil => rfl
  | cons g G ih => simp [canonHeap, ih]

theorem totalRecords_cons (g : SegContent) (G : List SegContent) :
    totalRecords (g :: G) = g.ps.length + totalRecords G := by
  simp [totalRecords]

theorem totalRecords_append (G H : List SegContent) :
    totalRecords (G ++ H) = totalRecords G + totalRecords H := by
  simp [totalRecords]

theorem canonHeap_snoc (c : Config) (b : Nat) (hb : b < 2 ^ 64) (G : List SegContent)
    (g : SegContent) :
    canonHeap c b (G ++ [g]) =
      canonHeap c b G ++ [canonSeg c ((b + totalRecords G) % 2 ^ 64) g] := by
  induction G generalizing b with
  | nil =>
    have e : (b + totalRecords []) % 2 ^ 64 = b := by
      simp only [totalRecords, List.map_nil, List.sum_nil, Nat.add_zero, Nat.mod_eq_of_lt hb]
    simp only [List.nil_append, canonHeap, e]
  | cons h G ih =>
    have hlt : (b + h.ps.length) % 2 ^ 64 < 2 ^ 64 := Nat.mod_lt _ (by norm_num)
    have e : ((b + h.ps.length) % 2 ^ 64 + totalRecords G) % 2 ^ 64 =
        (b + totalRecords (h :: G)) % 2 ^ 64 := by
      rw [totalRecords_cons]; omega
    simp only [List.cons_append, canonHeap, List.append_eq, ih _ hlt, e]

theorem set_snoc {α : Type} (xs : List α) (a b : α) :
    (xs ++ [a]).set xs.length b = xs ++ [b] := by
  induction xs with
  | nil => rfl
  | cons x xs ih => simp [ih]

theorem getElem?_snoc {α : Type} (xs : List α) (a : α) :
    (xs ++ [a])[xs.length]? = some a := by
  simp

theorem totalRecords_all (L : LogContent) :
    totalRecords L.all = totalRecords L.older + L.active.ps.length := by
  simp [LogContent.all, totalRecords]

/-- The offset the active segment assigns next. -/
theorem cur_eq (c : Config) (L : LogContent) :
    ((c.Segment.InitialOffset + totalRecords L.older) % 2 ^ 64 + L.active.ps.length) % 2 ^ 64 =
      (c.Segment.InitialOffset + totalRecords L.all) % 2 ^ 64 := by
  rw [totalRecords_all]; omega

theorem canonLog_all (c : Config) (L : LogContent) (hI : c.Segment.InitialOffset < 2 ^ 64) :
    canonLog c L.all =
      { Dir := [], Config := c,
        heap := canonHeap c c.Segment.InitialOffset L.older ++
          [canonSeg c ((c.Segment.InitialOffset + totalRecords L.older) % 2 ^ 64) L.active],
        activeSegment := some (canonHeap c c.Segment.InitialOffset L.older).length,
        segments := List.range ((canonHeap c c.Segment.InitialOffset L.older).length + 1) } := by
  simp [canonLog, LogContent.all, canonHeap_snoc c _ hI]

theorem fits_length {c : Config} {g : SegContent} (h : g.fits c)
    (h63 : c.Segment.MaxIndexBytes < 2 ^ 63) : g.ps.length < 2 ^ 64 := by
  have := h.1
  rw [entWidth_eq] at this
  omega


theorem canonSeg_IsMaxed (c : Config) (base : Nat) (g : SegContent) :
    (canonSeg c base g).IsMaxed =
      decide (g.bytes.length ≥ c.Segment.MaxStoreBytes ∨
        entWidth * g.ps.length ≥ c.Segment.MaxIndexBytes) := by
  simp [segment.IsMaxed, canonSeg, Bool.decide_or]

/-- `Log.Append` on the log of a content is `LogContent.Append` on the content. -/
theorem Log_Append_canon (cd : Codec) (c : Config) (L : LogContent) (r : Record)
    (hc : c.valid) (hpos : 0 < c.Segment.MaxIndexBytes) (hL : L.OK c) :
    Log.Append cd (canonLog c L.all) r =
      ((L.Append cd c r).1, (L.Append cd c r).2.1, canonLog c (L.Append cd c r).2.2.all) := by
  obtain ⟨_, h63, hI⟩ := hc
  have hn := fits_length hL.fitsActive h63
  have hbase : (c.Segment.InitialOffset + totalRecords L.older) % 2 ^ 64 < 2 ^ 64 :=
    Nat.mod_lt _ (by norm_num)
  rw [canonLog_all c L hI]
  simp only [Log.Append, getElem?_snoc, LogContent.Append]
  rw [← cur_eq]
  cases hm : cd.marshal { r with Offset :=
      ((c.Segment.InitialOffset + totalRecords L.older) % 2 ^ 64 + L.active.ps.length) % 2 ^ 64 } with
  | none =>
    rw [segment_Append_marshalFailed cd _ r hm]
    simp only [set_snoc]
    rw [canonLog_all c L hI]
    rfl
  | some p =>
    by_cases hfull : c.Segment.MaxIndexBytes < entWidth * L.active.ps.length + entWidth
    · rw [segment_Append_full cd c _ _ r p hm hfull]
      simp only [set_snoc, hfull, if_true]
      rw [canonLog_all c _ hI]
    · have hj : L.active.junk = [] := by
        rcases hL.active with h | h
        · exact h.1
        · exact absurd h hfull
      rw [segment_Append_ok cd c _ _ r p hm hbase hn hj (by omega)]
      simp only [set_snoc, hfull, if_false, canonSeg_IsMaxed]
      by_cases hmax : (frames (L.active.ps ++ [p]) ++ L.active.junk).length ≥ c.Segment.MaxStoreBytes ∨
          entWidth * (L.active.ps ++ [p]).length ≥ c.Segment.MaxIndexBytes
      · have hb1 : (((c.Segment.InitialOffset + totalRecords L.older) % 2 ^ 64 +
            L.active.ps.length) % 2 ^ 64 + 1) % 2 ^ 64 < 2 ^ 64 := Nat.mod_lt _ (by norm_num)
        have hbe : (((c.Segment.InitialOffset + totalRecords L.older) % 2 ^ 64 +
            L.active.ps.length) % 2 ^ 64 + 1) % 2 ^ 64 =
            (c.Segment.InitialOffset +
              totalRecords (L.older ++ [{ L.active with ps := L.active.ps ++ [p] }])) % 2 ^ 64 := by
          rw [totalRecords_append]
          simp only [totalRecords, List.map_cons, List.map_nil, List.sum_cons, List.sum_nil,
            List.length_append, List.length_singleton]
          omega
        simp only [SegContent.bytes, hmax, decide_True, if_true, Log.newSegment,
          newSegment_empty c _ hb1 h63 hpos]
        rw [canonLog_all c _ hI]
        simp only [canonHeap_snoc c _ hI, hbe, List.length_append, List.length_singleton,
          List.range_succ, canonHeap_length]
      · simp only [SegContent.bytes, hmax, decide_False, if_false, Bool.false_eq_true]
        rw [canonLog_all c _ hI]


theorem fresh_OK (c : Config) (hS : 0 < c.Segment.MaxStoreBytes)
    (hpos : 0 < c.Segment.MaxIndexBytes) : LogContent.fresh.OK c := by
  refine ⟨?_, ?_, ?_⟩
  · intro h hh; simp [LogContent.fresh] at hh
  · simp [LogContent.fresh, SegContent.fits]
  · left; simpa [LogContent.fresh, frames] using ⟨hS, hpos⟩

theorem fits_snoc {c : Config} {g : SegContent} {p : Bytes} (hf : g.fits c)
    (hp : p.length < 2 ^ 63) (hroom : entWidth * g.ps.length + entWidth ≤ c.Segment.MaxIndexBytes)
    (hsize : (frames g.ps).length < c.Segment.MaxStoreBytes) :
    SegContent.fits c { g with ps := g.ps ++ [p] } := by
  obtain ⟨_, h2, h3⟩ := hf
  refine ⟨?_, ?_, ?_⟩
  · simp only [List.length_append, List.length_singleton]
    rw [entWidth_eq] at hroom ⊢; omega
  · intro q hq
    rcases List.mem_append.1 hq with h | h
    · exact h2 q h
    · simp at h; rw [h]; exact hp
  · intro j hj
    simp only [List.length_append, List.length_singleton] at hj
    by_cases hjl : j < g.ps.length
    · rw [List.take_append_of_le_length (by omega)]; exact h3 j hjl
    · have : j = g.ps.length := by omega
      rw [this, List.take_left']; exact hsize
      rfl

theorem LogContent_Append_OK (cd : Codec) (c : Config) (L : LogContent) (r : Record)
    (hlen : ∀ r p, cd.marshal r = some p → p.length < 2 ^ 63)
    (hS : 0 < c.Segment.MaxStoreBytes) (hpos : 0 < c.Segment.MaxIndexBytes) (hL : L.OK c) :
    (L.Append cd c r).2.2.OK c := by
  simp only [LogContent.Append]
  cases hm : cd.marshal { r with Offset := (c.Segment.InitialOffset + totalRecords L.all) % 2 ^ 64 } with
  | none => exact hL
  | some p =>
    have hp := hlen _ _ hm
    by_cases hfull : c.Segment.MaxIndexBytes < entWidth * L.active.ps.length + entWidth
    · simp only [hfull, if_true]
      exact ⟨hL.fitsOlder, hL.fitsActive, Or.inr hfull⟩
    · simp only [hfull, if_false]
      have hact : L.active.junk = [] ∧ (frames L.active.ps).length < c.Segment.MaxStoreBytes := by
        rcases hL.active with h | h
        · exact ⟨h.1, h.2.1⟩
        · exact absurd h hfull
      have hf1 := fits_snoc hL.fitsActive hp (by omega) hact.2
      split
      · refine ⟨?_, ?_, ?_⟩
        · intro h hh
          rcases List.mem_append.1 hh with h1 | h1
          · exact hL.fitsOlder h h1
          · simp at h1; subst h1
            exact ⟨hf1, by simp, hact.1⟩
        · simp [SegContent.fits]
        · left; simpa [frames] using ⟨hS, hpos⟩
      · rename_i hmax
        refine ⟨hL.fitsOlder, hf1, Or.inl ⟨hact.1, ?_, ?_⟩⟩
        · show (frames (L.active.ps ++ [p])).length < _
          simp only [SegContent.bytes, hact.1, List.append_nil] at hmax
          omega
        · show entWidth * (L.active.ps ++ [p]).length < _
          omega


/-! ## Fresh logs and sequences of appends -/

theorem withDefaults_fields (c : Config) :
    0 < c.withDefaults.Segment.MaxStoreBytes ∧ 0 < c.withDefaults.Segment.MaxIndexBytes ∧
      (c.isUint64 → c.withDefaults.isUint64) ∧
      c.withDefaults.Segment.InitialOffset = c.Segment.InitialOffset := by
  unfold Config.withDefaults Config.isUint64
  by_cases h1 : c.Segment.MaxStoreBytes = 0 <;> by_cases h2 : c.Segment.MaxIndexBytes = 0 <;>
    simp [h1, h2] <;> omega

theorem NewLog_eq (dir : Directory) (c : Config) :
    NewLog dir c =
      match Log.setup (Log.mk dir c.withDefaults [] none []) with
      | (.error e, _) => .error e
      | (.ok _, l1) => .ok l1 := rfl

theorem NewLog_empty (c : Config) (hc : c.withDefaults.valid) :
    NewLog [] c = .ok (canonLog c.withDefaults LogContent.fresh.all) := by
  obtain ⟨_, hpos, _, _⟩ := withDefaults_fields c
  rw [NewLog_eq]
  simp only [Log.setup, scanBaseOffsets, List.map_nil, List.insertionSort, Log.setupLoop,
    List.isEmpty_nil, if_true, Log.newSegment, newSegment_empty _ _ hc.2.2 hc.2.1 hpos]
  rfl

theorem NewLog_empty_ok (c : Config) (l0 : Log) (hu : c.isUint64) (h0 : NewLog [] c = .ok l0) :
    c.withDefaults.valid ∧ l0 = canonLog c.withDefaults LogContent.fresh.all := by
  obtain ⟨_, hpos, huw, _⟩ := withDefaults_fields c
  have hw := huw hu
  by_cases h63 : c.withDefaults.Segment.MaxIndexBytes < 2 ^ 63
  · have hv : c.withDefaults.valid := ⟨hw.1, h63, hw.2.2⟩
    rw [NewLog_empty c hv] at h0
    exact ⟨hv, (Except.ok.inj h0).symm⟩
  · exfalso
    have h1 : 2 ^ 63 ≤ c.withDefaults.Segment.MaxIndexBytes := by omega
    rw [NewLog_eq] at h0
    simp only [Log.setup, scanBaseOffsets, List.map_nil, List.insertionSort, Log.setupLoop,
      List.isEmpty_nil, if_true, Log.newSegment, newSegment, newIndex, h1] at h0
    exact Except.noConfusion h0

theorem Log_AppendAll_canon (cd : Codec) (c : Config) (hc : c.valid)
    (hS : 0 < c.Segment.MaxStoreBytes) (hpos : 0 < c.Segment.MaxIndexBytes)
    (hlen : cd.sliceSized) (rs : List Record) :
    ∀ L : LogContent, L.OK c →
      Log.AppendAll cd (canonLog c L.all) rs =
          ((L.AppendAll cd c rs).1, canonLog c (L.AppendAll cd c rs).2.all) ∧
        (L.AppendAll cd c rs).2.OK c := by
  induction rs with
  | nil => intro L hL; exact ⟨rfl, hL⟩
  | cons r rs ih =>
    intro L hL
    have h1 := Log_Append_canon cd c L r hc hpos hL
    have h2 := LogContent_Append_OK cd c L r hlen hS hpos hL
    obtain ⟨h3, h4⟩ := ih _ h2
    simp only [Log.AppendAll, LogContent.AppendAll, h1, h3]
    exact ⟨trivial, h4⟩

/-! ## Reading from a canonical segment -/

theorem fileReadAt_mid (a x b : Bytes) :
    fileReadAt (a ++ x ++ b) x.length a.length = (x, none) := by
  unfold fileReadAt
  by_cases hx : x.length = 0
  · simp [hx, List.length_eq_zero.1 hx]
  · simp [hx]

theorem slice_mid (a x b : Bytes) :
    slice (a ++ x ++ b) a.length (a.length + x.length) = some x := by
  simp [slice]

theorem store_Read_frame (s : store) (a b p : Bytes) (hp : p.length < 2 ^ 63)
    (hs : s.file ++ s.buf = a ++ frame p ++ b) :
    s.Read a.length = (.ok p, s.Flush) := by
  have h8 : fileReadAt (a ++ PutUint64 p.length ++ (p ++ b)) lenWidth a.length =
      (PutUint64 p.length, none) := fileReadAt_mid a (PutUint64 p.length) (p ++ b)
  have hp2 : fileReadAt ((a ++ PutUint64 p.length) ++ p ++ b) p.length (a.length + lenWidth) =
      (p, none) := by
    have := fileReadAt_mid (a ++ PutUint64 p.length) p b
    simpa [lenWidth] using this
  have hv : beUint (PutUint64 p.length) = p.length := by
    rw [beUint_PutUint64]; omega
  have hnp : ¬ (2 ^ 63 ≤ p.length) := by omega
  have hf : s.Flush.file = a ++ PutUint64 p.length ++ (p ++ b) := by
    simp [store.Flush, hs, frame]
  unfold store.Read
  simp only [hf, h8, hv, hnp, if_false]
  have e : a ++ PutUint64 p.length ++ (p ++ b) = (a ++ PutUint64 p.length) ++ p ++ b := by simp
  rw [e, hp2]

theorem frames_split (ps : List Bytes) (j : Nat) (hj : j < ps.length) :
    frames ps = frames (ps.take j) ++ frame ps[j] ++ frames (ps.drop (j + 1)) := by
  have e : ps = ps.take j ++ ps[j] :: ps.drop (j + 1) := by
    rw [← List.drop_eq_getElem_cons hj, List.take_append_drop]
  calc frames ps = frames (ps.take j ++ ps[j] :: ps.drop (j + 1)) := congrArg frames e
    _ = _ := by simp only [frames_append, frames, List.append_assoc]

theorem entries_split (ps : List Bytes) (j : Nat) (hj : j < ps.length) :
    entries 0 0 ps = entries 0 0 (ps.take j) ++
      (PutUint32 j ++ PutUint64 (frames (ps.take j)).length) ++
      entries (j + 1) ((frames (ps.take j)).length + (frame ps[j]).length) (ps.drop (j + 1)) := by
  have e : ps = ps.take j ++ ps[j] :: ps.drop (j + 1) := by
    rw [← List.drop_eq_getElem_cons hj, List.take_append_drop]
  have hl : (ps.take j).length = j := by simp; omega
  calc entries 0 0 ps = entries 0 0 (ps.take j ++ ps[j] :: ps.drop (j + 1)) :=
        congrArg (entries 0 0) e
    _ = _ := by simp only [entries_append, entries, hl, List.append_assoc, Nat.zero_add]


theorem toUint32_natCast (k : Nat) (hk : k < 2 ^ 32) : toUint32 (k : Int) = k := by
  unfold toUint32
  omega

theorem toInt64_small (k : Nat) (hk : k < 2 ^ 63) : toInt64 k = (k : Int) := by
  unfold toInt64
  have h1 : k % 2 ^ 64 = k := Nat.mod_eq_of_lt (by omega)
  simp only [h1, hk, if_true]

theorem index_Read_at (m : Bytes) (size k rel pos : Nat) (A B : Bytes)
    (hm : m = A ++ (PutUint32 rel ++ PutUint64 pos) ++ B) (hA : A.length = entWidth * k)
    (hs : entWidth * k + entWidth ≤ size) (hk : k < 2 ^ 32) :
    index.Read { mmap := m, size := size } (k : Int) = .ok (rel % 2 ^ 32, pos % 2 ^ 64) := by
  rw [entWidth_eq] at hA hs
  have h0 : ¬ (size = 0) := by omega
  have hn : ¬ ((k : Int) = -1) := by omega
  have hpos : k * entWidth = A.length := by rw [entWidth_eq]; omega
  have hlt : ¬ (size < A.length + entWidth) := by rw [entWidth_eq]; omega
  have s1 : slice m (A.length) (A.length + offWidth) = some (PutUint32 rel) := by
    have := slice_mid A (PutUint32 rel) (PutUint64 pos ++ B)
    simpa [hm, offWidth] using this
  have s2 : slice m (A.length + offWidth) (A.length + entWidth) = some (PutUint64 pos) := by
    have := slice_mid (A ++ PutUint32 rel) (PutUint64 pos) B
    simpa [hm, offWidth, entWidth, posWidth, Nat.add_assoc] using this
  simp only [index.Read, h0, hn, if_false, toUint32_natCast k hk, hlt, hpos, s1, s2,
    beUint_PutUint32, beUint_PutUint64]

theorem index_Read_canon (c : Config) (base : Nat) (g : SegContent) (j : Nat)
    (hj : j < g.ps.length) (hj32 : j < 2 ^ 32) (hpos : (frames (g.ps.take j)).length < 2 ^ 64) :
    (canonSeg c base g).index.Read (j : Int) = .ok (j, (frames (g.ps.take j)).length) := by
  have hl : (entries 0 0 (g.ps.take j)).length = entWidth * j := by
    simp; left; omega
  have h := index_Read_at
    (entries 0 0 g.ps ++ List.replicate (c.Segment.MaxIndexBytes - entWidth * g.ps.length) 0)
    (entWidth * g.ps.length) j j (frames (g.ps.take j)).length (entries 0 0 (g.ps.take j))
    (entries (j + 1) ((frames (g.ps.take j)).length + (frame g.ps[j]).length) (g.ps.drop (j + 1)) ++
      List.replicate (c.Segment.MaxIndexBytes - entWidth * g.ps.length) 0)
    (by rw [entries_split g.ps j hj]; simp) hl (by rw [entWidth_eq]; omega) hj32
  rw [Nat.mod_eq_of_lt hj32, Nat.mod_eq_of_lt hpos] at h
  exact h

theorem segment_Read_canon (cd : Codec) (c : Config) (base : Nat) (g : SegContent) (j : Nat)
    (hj : j < g.ps.length) (hj32 : j < 2 ^ 32) (hf : g.fits c)
    (hS : c.Segment.MaxStoreBytes < 2 ^ 64) :
    (canonSeg c base g).Read cd (base + j) =
      (match cd.unmarshal g.ps[j] with
        | none => .error Error.unmarshalFailed
        | some record => .ok record,
       { canonSeg c base g with store := (canonSeg c base g).store.Flush }) := by
  have hpos : (frames (g.ps.take j)).length < 2 ^ 64 := lt_trans (hf.2.2 j hj) hS
  have hrel : (base + j + 2 ^ 64 - (canonSeg c base g).baseOffset) % 2 ^ 64 = j := by
    simp only [canonSeg]; omega
  have hi := index_Read_canon c base g j hj hj32 hpos
  have hst := store_Read_frame (canonSeg c base g).store (frames (g.ps.take j))
    (frames (g.ps.drop (j + 1)) ++ g.junk) g.ps[j] (hf.2.1 _ (List.getElem_mem _))
    (by simp [canonSeg, SegContent.bytes, frames_split g.ps j hj])
  simp only [segment.Read, hrel, toInt64_small j (by omega), hi, hst]
  cases cd.unmarshal g.ps[j] <;> rfl

/-! ## Finding the segment of an offset -/

theorem findSome_range_some {α β : Type} (xs : List α) (F : Nat → α → Option β) (a : Nat)
    (s : α) (v : β) (ha : xs[a]? = some s) (hv : F a s = some v)
    (hbefore : ∀ i, i < a → ∀ t, xs[i]? = some t → F i t = none) :
    (List.range xs.length).findSome?
      (fun p => (xs[p]?).bind (F p)) = some v := by
  have hlt : a < xs.length := by
    rcases Nat.lt_or_ge a xs.length with h | h
    · exact h
    · rw [List.getElem?_eq_none h] at ha; cases ha
  have e : xs.length = (a + 1) + (xs.length - (a + 1)) := by omega
  rw [e, List.range_add, List.range_succ, List.findSome?_append, List.findSome?_append]
  have h1 : (List.range a).findSome? (fun p => (xs[p]?).bind (F p)) = none := by
    rw [List.findSome?_eq_none_iff]
    intro i hi
    have hi' : i < a := List.mem_range.1 hi
    cases ht : xs[i]? with
    | none => rfl
    | some t => exact hbefore i hi' t ht
  rw [h1]
  simp [ha, hv]

theorem findSome_range_none {α β : Type} (xs : List α) (F : Nat → α → Option β)
    (hall : ∀ i t, xs[i]? = some t → F i t = none) :
    (List.range xs.length).findSome?
      (fun p => (xs[p]?).bind (F p)) = none := by
  rw [List.findSome?_eq_none_iff]
  intro i _
  cases ht : xs[i]? with
  | none => rfl
  | some t => exact hall i t ht

theorem canonHeap_getElem? (c : Config) (G : List SegContent) :
    ∀ (b i : Nat), b < 2 ^ 64 →
      (canonHeap c b G)[i]? =
        (G[i]?).map (canonSeg c ((b + totalRecords (G.take i)) % 2 ^ 64)) := by
  induction G with
  | nil => intro b i _; simp [canonHeap]
  | cons g G ih =>
    intro b i hb
    cases i with
    | zero =>
      have e : (b + totalRecords (List.take 0 (g :: G))) % 2 ^ 64 = b := by
        simp only [List.take_zero, totalRecords, List.map_nil, List.sum_nil, Nat.add_zero,
          Nat.mod_eq_of_lt hb]
      simp only [canonHeap, List.getElem?_cons_zero, Option.map_some', e]
    | succ i =>
      have hlt : (b + g.ps.length) % 2 ^ 64 < 2 ^ 64 := Nat.mod_lt _ (by norm_num)
      have e : ((b + g.ps.length) % 2 ^ 64 + totalRecords (G.take i)) % 2 ^ 64 =
          (b + totalRecords (g :: G.take i)) % 2 ^ 64 := by
        rw [totalRecords_cons]; omega
      simp only [canonHeap, List.getElem?_cons_succ, ih _ i hlt, e, List.take_succ_cons]

theorem totalRecords_take_le (G : List SegContent) (i : Nat) :
    totalRecords (G.take i) ≤ totalRecords G := by
  conv_rhs => rw [← List.take_append_drop i G, totalRecords_append]
  omega

theorem totalRecords_take_succ (G : List SegContent) (i : Nat) (g : SegContent)
    (hg : G[i]? = some g) :
    totalRecords (G.take (i + 1)) = totalRecords (G.take i) + g.ps.length := by
  rw [List.take_succ, totalRecords_append, hg]
  simp [totalRecords]

theorem totalRecords_take_mono (G : List SegContent) (i k : Nat) (h : i ≤ k) :
    totalRecords (G.take i) ≤ totalRecords (G.take k) := by
  have e : G.take i = (G.take k).take i := by
    rw [List.take_take, Nat.min_eq_left h]
  rw [e]
  exact totalRecords_take_le _ _


theorem canonLog_findSegment_eq (c : Config) (G : List SegContent) (off : Nat) :
    (canonLog c G).findSegment off =
      (List.range (canonHeap c c.Segment.InitialOffset G).length).findSome?
        (fun p => ((canonHeap c c.Segment.InitialOffset G)[p]?).bind (fun s =>
          if s.baseOffset ≤ off ∧ off < s.nextOffset then some (p, s) else none)) := by
  rw [canonHeap_length]
  rfl

/-- In a log whose offsets have not wrapped, segment `i` starts at the initial offset plus
the number of records before it. -/
theorem canonHeap_get_nowrap (c : Config) (G : List SegContent) (i : Nat) (t : segment)
    (hI : c.Segment.InitialOffset < 2 ^ 64)
    (hnw : c.Segment.InitialOffset + totalRecords G < 2 ^ 64)
    (ht : (canonHeap c c.Segment.InitialOffset G)[i]? = some t) :
    ∃ g, G[i]? = some g ∧
      t = canonSeg c (c.Segment.InitialOffset + totalRecords (G.take i)) g ∧
      t.baseOffset = c.Segment.InitialOffset + totalRecords (G.take i) ∧
      t.nextOffset = c.Segment.InitialOffset + totalRecords (G.take (i + 1)) := by
  rw [canonHeap_getElem? c G _ i hI] at ht
  cases hg : G[i]? with
  | none => rw [hg] at ht; cases ht
  | some g =>
    rw [hg] at ht
    have hle := totalRecords_take_le G i
    have hle1 := totalRecords_take_le G (i + 1)
    have hs := totalRecords_take_succ G i g hg
    have e : (c.Segment.InitialOffset + totalRecords (G.take i)) % 2 ^ 64 =
        c.Segment.InitialOffset + totalRecords (G.take i) := Nat.mod_eq_of_lt (by omega)
    simp only [Option.map_some', Option.some.injEq, e] at ht
    refine ⟨g, rfl, ht.symm, ?_, ?_⟩
    · rw [← ht]; rfl
    · rw [← ht]
      show (c.Segment.InitialOffset + totalRecords (G.take i) + g.ps.length) % 2 ^ 64 = _
      rw [Nat.mod_eq_of_lt (by omega)]
      omega

theorem findSegment_canon_some (c : Config) (G : List SegContent) (a : Nat) (g : SegContent)
    (off : Nat) (hI : c.Segment.InitialOffset < 2 ^ 64)
    (hnw : c.Segment.InitialOffset + totalRecords G < 2 ^ 64) (hg : G[a]? = some g)
    (h1 : c.Segment.InitialOffset + totalRecords (G.take a) ≤ off)
    (h2 : off < c.Segment.InitialOffset + totalRecords (G.take a) + g.ps.length) :
    (canonLog c G).findSegment off =
      some (a, canonSeg c (c.Segment.InitialOffset + totalRecords (G.take a)) g) := by
  rw [canonLog_findSegment_eq]
  have hs := totalRecords_take_succ G a g hg
  have hle1 := totalRecords_take_le G (a + 1)
  have hget : (canonHeap c c.Segment.InitialOffset G)[a]? =
      some (canonSeg c (c.Segment.InitialOffset + totalRecords (G.take a)) g) := by
    rw [canonHeap_getElem? c G _ a hI, hg, Option.map_some', Nat.mod_eq_of_lt (by omega)]
  refine findSome_range_some (canonHeap c c.Segment.InitialOffset G)
    (fun p s => if s.baseOffset ≤ off ∧ off < s.nextOffset then some (p, s) else none)
    a _ _ hget ?_ ?_
  · have hn : (canonSeg c (c.Segment.InitialOffset + totalRecords (G.take a)) g).nextOffset =
        c.Segment.InitialOffset + totalRecords (G.take a) + g.ps.length := by
      show (_ + g.ps.length) % 2 ^ 64 = _
      exact Nat.mod_eq_of_lt (by omega)
    have hb : (canonSeg c (c.Segment.InitialOffset + totalRecords (G.take a)) g).baseOffset =
        c.Segment.InitialOffset + totalRecords (G.take a) := rfl
    simp only [hn, hb]
    rw [if_pos ⟨h1, h2⟩]
  · intro i hi t ht
    obtain ⟨_, _, _, _, hnext⟩ := canonHeap_get_nowrap c G i t hI hnw ht
    have hm := totalRecords_take_mono G (i + 1) a hi
    simp only
    rw [if_neg]
    intro h
    omega

theorem findSegment_canon_none (c : Config) (G : List SegContent) (off : Nat)
    (hI : c.Segment.InitialOffset < 2 ^ 64)
    (hnw : c.Segment.InitialOffset + totalRecords G < 2 ^ 64)
    (h : off < c.Segment.InitialOffset ∨ c.Segment.InitialOffset + totalRecords G ≤ off) :
    (canonLog c G).findSegment off = none := by
  rw [canonLog_findSegment_eq]
  refine findSome_range_none (canonHeap c c.Segment.InitialOffset G)
    (fun p s => if s.baseOffset ≤ off ∧ off < s.nextOffset then some (p, s) else none) ?_
  intro i t ht
  obtain ⟨_, _, _, hbase, hnext⟩ := canonHeap_get_nowrap c G i t hI hnw ht
  have hle1 := totalRecords_take_le G (i + 1)
  simp only
  rw [if_neg]
  intro h'
  omega

/-! ## `Log.Read` on a canonical log -/

theorem Log_Read_canon_none (cd : Codec) (c : Config) (G : List SegContent) (off : Nat)
    (hI : c.Segment.InitialOffset < 2 ^ 64)
    (hnw : c.Segment.InitialOffset + totalRecords G < 2 ^ 64)
    (h : off < c.Segment.InitialOffset ∨ c.Segment.InitialOffset + totalRecords G ≤ off) :
    Log.Read cd (canonLog c G) off = (.error Error.OffsetOutOfRange, canonLog c G) := by
  simp only [Log.Read, findSegment_canon_none c G off hI hnw h]

theorem Log_Read_canon_some (cd : Codec) (c : Config) (G : List SegContent) (a j : Nat)
    (g : SegContent) (hc : c.valid)
    (hnw : c.Segment.InitialOffset + totalRecords G < 2 ^ 64) (hg : G[a]? = some g)
    (hj : j < g.ps.length) (hj32 : j < 2 ^ 32) (hf : g.fits c) :
    (Log.Read cd (canonLog c G) (c.Segment.InitialOffset + totalRecords (G.take a) + j)).1 =
      match cd.unmarshal g.ps[j] with
      | none => .error Error.unmarshalFailed
      | some record => .ok record := by
  have hs := totalRecords_take_succ G a g hg
  have hle1 := totalRecords_take_le G (a + 1)
  have hfind := findSegment_canon_some c G a g
    (c.Segment.InitialOffset + totalRecords (G.take a) + j) hc.2.2 hnw hg (by omega) (by omega)
  have hn : (canonSeg c (c.Segment.InitialOffset + totalRecords (G.take a)) g).nextOffset =
      c.Segment.InitialOffset + totalRecords (G.take a) + g.ps.length := by
    show (_ + g.ps.length) % 2 ^ 64 = _
    exact Nat.mod_eq_of_lt (by omega)
  have hno : ¬ ((canonSeg c (c.Segment.InitialOffset + totalRecords (G.take a)) g).nextOffset ≤
      c.Segment.InitialOffset + totalRecords (G.take a) + j) := by
    rw [hn]; omega
  simp only [Log.Read, hfind, hno, if_false,
    segment_Read_canon cd c _ g j hj hj32 hf hc.1]

/-! ## What an append does to the content -/
theorem LogContent_Append_none (cd : Codec) (c : Config) (L : LogContent) (r : Record)
    (hm : cd.marshal { r with Offset := (c.Segment.InitialOffset + totalRecords L.all) % 2 ^ 64 } = none) :
    L.Append cd c r = (.error Error.marshalFailed,
      { r with Offset := (c.Segment.InitialOffset + totalRecords L.all) % 2 ^ 64 }, L) := by
  unfold LogContent.Append
  simp only [hm]

theorem LogContent_Append_some (cd : Codec) (c : Config) (L : LogContent) (r : Record) (p : Bytes)
    (hm : cd.marshal { r with Offset := (c.Segment.InitialOffset + totalRecords L.all) % 2 ^ 64 } = some p) :
    L.Append cd c r =
      if c.Segment.MaxIndexBytes < entWidth * L.active.ps.length + entWidth then
        (.error Error.EOF, { r with Offset := (c.Segment.InitialOffset + totalRecords L.all) % 2 ^ 64 },
          { L with active := { L.active with junk := L.active.junk ++ frame p } })
      else if (frames (L.active.ps ++ [p]) ++ L.active.junk).length ≥ c.Segment.MaxStoreBytes ∨
          entWidth * (L.active.ps ++ [p]).length ≥ c.Segment.MaxIndexBytes then
        (.ok ((c.Segment.InitialOffset + totalRecords L.all) % 2 ^ 64),
          { r with Offset := (c.Segment.InitialOffset + totalRecords L.all) % 2 ^ 64 },
          { older := L.older ++ [{ L.active with ps := L.active.ps ++ [p] }], active := ⟨[], []⟩ })
      else
        (.ok ((c.Segment.InitialOffset + totalRecords L.all) % 2 ^ 64),
          { r with Offset := (c.Segment.InitialOffset + totalRecords L.all) % 2 ^ 64 },
          { L with active := { L.active with ps := L.active.ps ++ [p] } }) := by
  unfold LogContent.Append
  simp only [hm]
  rfl

theorem LogContent_Append_ok_inv (cd : Codec) (c : Config) (L : LogContent) (r : Record) (o : Nat)
    (h : (L.Append cd c r).1 = .ok o) :
    ∃ p tail, cd.marshal { r with Offset := o } = some p ∧
      o = (c.Segment.InitialOffset + totalRecords L.all) % 2 ^ 64 ∧
      (L.Append cd c r).2.2.all =
        L.older ++ [{ L.active with ps := L.active.ps ++ [p] }] ++ tail ∧
      (tail = [] ∨ tail = [⟨[], []⟩]) ∧
      entWidth * L.active.ps.length + entWidth ≤ c.Segment.MaxIndexBytes := by
  cases hm : cd.marshal { r with Offset := (c.Segment.InitialOffset + totalRecords L.all) % 2 ^ 64 } with
  | none =>
    rw [LogContent_Append_none cd c L r hm] at h
    cases h
  | some p =>
    rw [LogContent_Append_some cd c L r p hm] at h ⊢
    by_cases hfull : c.Segment.MaxIndexBytes < entWidth * L.active.ps.length + entWidth
    · rw [if_pos hfull] at h; cases h
    · rw [if_neg hfull] at h ⊢
      by_cases hmax : (frames (L.active.ps ++ [p]) ++ L.active.junk).length ≥ c.Segment.MaxStoreBytes ∨
          entWidth * (L.active.ps ++ [p]).length ≥ c.Segment.MaxIndexBytes
      · rw [if_pos hmax] at h ⊢
        have ho : (c.Segment.InitialOffset + totalRecords L.all) % 2 ^ 64 = o := Except.ok.inj h
        subst ho
        exact ⟨p, [⟨[], []⟩], hm, rfl, rfl, Or.inr rfl, by omega⟩
      · rw [if_neg hmax] at h ⊢
        have ho : (c.Segment.InitialOffset + totalRecords L.all) % 2 ^ 64 = o := Except.ok.inj h
        subst ho
        exact ⟨p, [], hm, rfl, by simp [LogContent.all], Or.inl rfl, by omega⟩

theorem okCount_cons (x : Except Error Nat) (xs : List (Except Error Nat)) :
    okCount (x :: xs) = (match x with | .ok _ => 1 | .error _ => 0) + okCount xs := by
  cases x <;> simp [okCount]; omega

theorem LogContent_Append_total (cd : Codec) (c : Config) (L : LogContent) (r : Record) :
    totalRecords (L.Append cd c r).2.2.all =
      totalRecords L.all + (match (L.Append cd c r).1 with | .ok _ => 1 | .error _ => 0) := by
  cases hm : cd.marshal { r with Offset := (c.Segment.InitialOffset + totalRecords L.all) % 2 ^ 64 } with
  | none => rw [LogContent_Append_none cd c L r hm]; rfl
  | some p =>
    rw [LogContent_Append_some cd c L r p hm]
    by_cases hfull : c.Segment.MaxIndexBytes < entWidth * L.active.ps.length + entWidth
    · rw [if_pos hfull]; simp [totalRecords_all]
    · rw [if_neg hfull]
      split
      · simp only [totalRecords_all, totalRecords_append]
        simp [totalRecords]; omega
      · simp only [totalRecords_all]
        simp; omega

theorem LogContent_AppendAll_total (cd : Codec) (c : Config) (rs : List Record) :
    ∀ L : LogContent,
      totalRecords (L.AppendAll cd c rs).2.all =
        totalRecords L.all + okCount (L.AppendAll cd c rs).1 := by
  induction rs with
  | nil => intro L; simp [LogContent.AppendAll, okCount]
  | cons r rs ih =>
    intro L
    simp only [LogContent.AppendAll, okCount_cons]
    rw [ih, LogContent_Append_total]
    omega

/-! ## Logs built by appends on a fresh log -/

/-- A log built from a fresh log over an empty directory by `Append` calls is the canonical
log of the content the same calls build. -/
theorem reach_canon (cd : Codec) (c : Config) (l0 : Log) (rs : List Record)
    (hu : c.isUint64) (hlen : cd.sliceSized) (h0 : NewLog [] c = .ok l0) :
    c.withDefaults.valid ∧
      l0.AppendAll cd rs =
        ((LogContent.fresh.AppendAll cd c.withDefaults rs).1,
          canonLog c.withDefaults (LogContent.fresh.AppendAll cd c.withDefaults rs).2.all) ∧
      (LogContent.fresh.AppendAll cd c.withDefaults rs).2.OK c.withDefaults := by
  obtain ⟨hv, hl0⟩ := NewLog_empty_ok c l0 hu h0
  obtain ⟨hS, hpos, _, _⟩ := withDefaults_fields c
  obtain ⟨h1, h2⟩ := Log_AppendAll_canon cd c.withDefaults hv hS hpos hlen rs LogContent.fresh
    (fresh_OK _ hS hpos)
  exact ⟨hv, by rw [hl0]; exact h1, h2⟩

theorem withDefaults_index_le (c : Config) (n : Nat) (hn : 1024 ≤ n)
    (h : c.Segment.MaxIndexBytes ≤ n) : c.withDefaults.Segment.MaxIndexBytes ≤ n := by
  unfold Config.withDefaults
  by_cases h1 : c.Segment.MaxStoreBytes = 0 <;> by_cases h2 : c.Segment.MaxIndexBytes = 0 <;>
    simp [h1, h2] <;> omega

theorem fits_lt_pow32 {c : Config} {g : SegContent} (hf : g.fits c)
    (hidx : c.Segment.MaxIndexBytes ≤ 12 * 2 ^ 32) : g.ps.length ≤ 2 ^ 32 := by
  have := hf.1
  rw [entWidth_eq] at this
  omega

theorem getElem?_mid {α : Type} (A : List α) (x : α) (tail : List α) :
    (A ++ [x] ++ tail)[A.length]? = some x := by
  induction A with
  | nil => simp
  | cons a A ih => simpa using ih

theorem OK_fits_all {c : Config} {L : LogContent} (hL : L.OK c) :
    ∀ g ∈ L.all, g.fits c := by
  intro g hg
  rcases List.mem_append.1 hg with h | h
  · exact (hL.fitsOlder g h).1
  · simp at h; rw [h]; exact hL.fitsActive

theorem protoCodec_sliceSized : protoCodec.sliceSized := by
  intro r p h
  simp only [protoCodec] at h
  split at h
  · cases h; omega
  · cases h

set_option maxRecDepth 100000 in
/-- C1 fails when the offset wraps: on a fresh log whose `InitialOffset` is `2 ^ 64 - 1`,
`Append` succeeds and returns `2 ^ 64 - 1`, the codec reads the record back, and yet
`Read(2 ^ 64 - 1)` fails with `ErrOffsetOutOfRange`, because `nextOffset` wrapped to 0. -/
theorem Log_Append_then_Read_wraps :
    NewLog [] lastOffsetConfig =
        .ok (canonLog lastOffsetConfig.withDefaults LogContent.fresh.all) ∧
      ((canonLog lastOffsetConfig.withDefaults LogContent.fresh.all).Append protoCodec
        helloRecord).1 = .ok (2 ^ 64 - 1) ∧
      (protoCodec.marshal { helloRecord with Offset := 2 ^ 64 - 1 }).bind protoCodec.unmarshal =
        some { helloRecord with Offset := 2 ^ 64 - 1 } ∧
      (Log.Read protoCodec
        ((canonLog lastOffsetConfig.withDefaults LogContent.fresh.all).Append protoCodec
          helloRecord).2.2 (2 ^ 64 - 1)).1 = .error Error.OffsetOutOfRange :=
  ⟨NewLog_empty lastOffsetConfig (by decide), by decide, by decide, by decide⟩

/-! ## The ends of a canonical log -/

theorem filterMap_range_getElem? {α : Type} (xs : List α) :
    (List.range xs.length).filterMap (fun p => xs[p]?) = xs := by
  induction xs using List.reverseRecOn with
  | nil => rfl
  | append_singleton xs a ih =>
    rw [List.length_append, List.length_singleton, List.range_succ, List.filterMap_append]
    have h1 : (List.range xs.length).filterMap (fun p => (xs ++ [a])[p]?) =
        (List.range xs.length).filterMap (fun p => xs[p]?) := by
      apply List.filterMap_congr
      intro p hp
      rw [List.getElem?_append_left (List.mem_range.1 hp)]
    rw [h1, ih]
    simp

theorem canonLog_segs (c : Config) (G : List SegContent) :
    (canonLog c G).segs = canonHeap c c.Segment.InitialOffset G := by
  have h := filterMap_range_getElem? (canonHeap c c.Segment.InitialOffset G)
  rw [canonHeap_length] at h
  exact h

theorem canonLog_LowestOffset (c : Config) (L : LogContent) :
    (canonLog c L.all).LowestOffset = .ok c.Segment.InitialOffset := by
  unfold Log.LowestOffset
  rw [canonLog_segs]
  cases h : L.older with
  | nil => simp [LogContent.all, h, canonHeap, canonSeg]
  | cons g G => simp [LogContent.all, h, canonHeap, canonSeg]

theorem canonLog_active (c : Config) (L : LogContent) (hI : c.Segment.InitialOffset < 2 ^ 64) :
    ∃ a, (canonLog c L.all).activeSegment = some a ∧
      (canonLog c L.all).heap[a]? =
        some (canonSeg c ((c.Segment.InitialOffset + totalRecords L.older) % 2 ^ 64) L.active) ∧
      (canonLog c L.all).segs.getLast? =
        some (canonSeg c ((c.Segment.InitialOffset + totalRecords L.older) % 2 ^ 64) L.active) := by
  refine ⟨(canonHeap c c.Segment.InitialOffset L.older).length, ?_, ?_, ?_⟩
  · rw [canonLog_all c L hI]
  · rw [canonLog_all c L hI]; exact getElem?_snoc _ _
  · rw [canonLog_segs, LogContent.all, canonHeap_snoc c _ hI]; simp

theorem canonLog_active_next (c : Config) (L : LogContent) :
    (canonSeg c ((c.Segment.InitialOffset + totalRecords L.older) % 2 ^ 64) L.active).nextOffset =
      (c.Segment.InitialOffset + totalRecords L.all) % 2 ^ 64 :=
  cur_eq c L


set_option maxRecDepth 100000 in
/-- C2 fails when offsets wrap: with `InitialOffset = 2 ^ 64 - 1` and a rotation after
every append, two appends return `2 ^ 64 - 1` and `0`; then `LowestOffset()` is
`2 ^ 64 - 1`, offset `0` is below it, and `Read(0)` returns the second record. -/
theorem Log_Read_below_lowest_wraps :
    NewLog [] wrapRotateConfig =
        .ok (canonLog wrapRotateConfig.withDefaults LogContent.fresh.all) ∧
      ((canonLog wrapRotateConfig.withDefaults LogContent.fresh.all).AppendAll protoCodec
        [helloRecord, helloRecord]).1 = [.ok (2 ^ 64 - 1), .ok 0] ∧
      ((canonLog wrapRotateConfig.withDefaults LogContent.fresh.all).AppendAll protoCodec
        [helloRecord, helloRecord]).2.LowestOffset = .ok (2 ^ 64 - 1) ∧
      (Log.Read protoCodec
        ((canonLog wrapRotateConfig.withDefaults LogContent.fresh.all).AppendAll protoCodec
          [helloRecord, helloRecord]).2 0).1 = .ok { Value := helloWorld, Offset := 0 } :=
  ⟨NewLog_empty wrapRotateConfig (by decide), by decide, by decide, by decide⟩

/-! ## Offsets and rotations of a sequence of appends -/

theorem Log_rotates_canon (cd : Codec) (c : Config) (L : LogContent) (r : Record)
    (hc : c.valid) (hL : L.OK c) :
    (if Log.rotates cd (canonLog c L.all) r then 1 else 0) + L.older.length =
      (L.Append cd c r).2.2.older.length := by
  obtain ⟨_, h63, hI⟩ := hc
  have hn := fits_length hL.fitsActive h63
  have hbase : (c.Segment.InitialOffset + totalRecords L.older) % 2 ^ 64 < 2 ^ 64 :=
    Nat.mod_lt _ (by norm_num)
  rw [canonLog_all c L hI]
  simp only [Log.rotates, getElem?_snoc]
  cases hm : cd.marshal { r with Offset :=
      (c.Segment.InitialOffset + totalRecords L.all) % 2 ^ 64 } with
  | none =>
    rw [LogContent_Append_none cd c L r hm,
      segment_Append_marshalFailed cd _ r (by rw [canonLog_active_next]; exact hm)]
    simp
  | some p =>
    have hm' := hm
    rw [← cur_eq] at hm'
    rw [LogContent_Append_some cd c L r p hm]
    by_cases hfull : c.Segment.MaxIndexBytes < entWidth * L.active.ps.length + entWidth
    · rw [segment_Append_full cd c _ _ r p hm' hfull, if_pos hfull]
      simp
    · have hj : L.active.junk = [] := by
        rcases hL.active with h | h
        · exact h.1
        · exact absurd h hfull
      rw [segment_Append_ok cd c _ _ r p hm' hbase hn hj (by omega), if_neg hfull]
      simp only [canonSeg_IsMaxed, SegContent.bytes]
      by_cases hmax : (frames (L.active.ps ++ [p]) ++ L.active.junk).length ≥ c.Segment.MaxStoreBytes ∨
          entWidth * (L.active.ps ++ [p]).length ≥ c.Segment.MaxIndexBytes
      · rw [if_pos hmax, if_pos (decide_eq_true hmax)]
        simp only [List.length_append, List.length_singleton]
        omega
      · rw [if_neg hmax, if_neg (by rw [decide_eq_true_iff]; exact hmax)]
        simp only [Nat.zero_add]

theorem Log_rotations_canon (cd : Codec) (c : Config) (hc : c.valid)
    (hS : 0 < c.Segment.MaxStoreBytes) (hpos : 0 < c.Segment.MaxIndexBytes)
    (hlen : cd.sliceSized) (rs : List Record) :
    ∀ L : LogContent, L.OK c →
      Log.rotations cd (canonLog c L.all) rs + L.older.length =
        (L.AppendAll cd c rs).2.older.length := by
  induction rs with
  | nil => intro L _; simp [Log.rotations, LogContent.AppendAll]
  | cons r rs ih =>
    intro L hL
    have h1 := Log_Append_canon cd c L r hc hpos hL
    have h2 := LogContent_Append_OK cd c L r hlen hS hpos hL
    have h3 := Log_rotates_canon cd c L r hc hL
    have h4 := ih _ h2
    have e1 : Log.rotations cd (canonLog c L.all) (r :: rs) =
        (if Log.rotates cd (canonLog c L.all) r then 1 else 0) +
          Log.rotations cd (canonLog c (L.Append cd c r).2.2.all) rs := by
      simp only [Log.rotations, h1]
    have e2 : (L.AppendAll cd c (r :: rs)).2 = ((L.Append cd c r).2.2.AppendAll cd c rs).2 := rfl
    rw [e1, e2]
    omega

theorem LogContent_AppendAll_results (cd : Codec) (c : Config) (rs : List Record) :
    ∀ L : LogContent, (∀ x ∈ (L.AppendAll cd c rs).1, ∃ o, x = .ok o) →
      (L.AppendAll cd c rs).1 =
        (List.range rs.length).map
          (fun i => .ok ((c.Segment.InitialOffset + totalRecords L.all + i) % 2 ^ 64)) := by
  induction rs with
  | nil => intro L _; rfl
  | cons r rs ih =>
    intro L hok
    simp only [LogContent.AppendAll] at hok ⊢
    obtain ⟨o, ho⟩ := hok _ (List.mem_cons_self _ _)
    obtain ⟨_, _, _, ho2, _⟩ := LogContent_Append_ok_inv cd c L r o ho
    have htot := LogContent_Append_total cd c L r
    rw [ho] at htot
    simp only at htot
    have ih1 := ih (L.Append cd c r).2.2 (fun x hx => hok x (List.mem_cons_of_mem _ hx))
    rw [ih1, ho, ho2, List.length_cons, List.range_succ_eq_map, List.map_cons, List.map_map, htot]
    simp only [Nat.add_zero, List.cons.injEq, true_and]
    apply List.map_congr_left
    intro i _
    simp only [Function.comp, Nat.succ_eq_add_one]
    congr 2
    omega

theorem okCount_all_ok (xs : List (Except Error Nat)) (h : ∀ x ∈ xs, ∃ o, x = .ok o) :
    okCount xs = xs.length := by
  induction xs with
  | nil => rfl
  | cons x xs ih =>
    obtain ⟨o, ho⟩ := h x (List.mem_cons_self _ _)
    rw [okCount_cons, ih (fun y hy => h y (List.mem_cons_of_mem _ hy)), ho]
    simp; omega

theorem LogContent_AppendAll_length (cd : Codec) (c : Config) (rs : List Record) :
    ∀ L : LogContent, (L.AppendAll cd c rs).1.length = rs.length := by
  induction rs with
  | nil => intro L; rfl
  | cons r rs ih => intro L; simp [LogContent.AppendAll, ih]


theorem canonLog_HighestOffset (c : Config) (L : LogContent)
    (hI : c.Segment.InitialOffset < 2 ^ 64) :
    (canonLog c L.all).HighestOffset =
      .ok ((c.Segment.InitialOffset + totalRecords L.all) % 2 ^ 64 - 1) := by
  obtain ⟨_, _, _, h⟩ := canonLog_active c L hI
  unfold Log.HighestOffset
  rw [h]
  simp only [canonLog_active_next]
  split
  · rename_i h0; rw [h0]
  · rfl

/-- C4: on a fresh log over an empty directory with `InitialOffset = 0`, `N` successful
`Append` calls (`1 ≤ N < 2 ^ 64`, so that the offsets are `uint64` values) return the
offsets `0, 1, ..., N - 1` in that order; afterwards `LowestOffset()` is 0,
`HighestOffset()` is `N - 1`, and the number of segments is the number of rotations plus
one. -/
theorem Log_offsets_consecutive (cd : Codec) (c : Config) (l0 : Log) (rs : List Record)
    (hu : c.isUint64) (hlen : cd.sliceSized) (h0 : NewLog [] c = .ok l0)
    (hI : c.Segment.InitialOffset = 0) (hN : 1 ≤ rs.length) (hN64 : rs.length < 2 ^ 64)
    (hok : ∀ x ∈ (l0.AppendAll cd rs).1, ∃ o, x = .ok o) :
    (l0.AppendAll cd rs).1 = (List.range rs.length).map .ok ∧
      (l0.AppendAll cd rs).2.LowestOffset = .ok 0 ∧
      (l0.AppendAll cd rs).2.HighestOffset = .ok (rs.length - 1) ∧
      (l0.AppendAll cd rs).2.segments.length = Log.rotations cd l0 rs + 1 := by
  obtain ⟨hv, hall, _⟩ := reach_canon cd c l0 rs hu hlen h0
  obtain ⟨hS, hpos, _, hI'⟩ := withDefaults_fields c
  obtain ⟨_, hl0⟩ := NewLog_empty_ok c l0 hu h0
  have hI0 : c.withDefaults.Segment.InitialOffset = 0 := by rw [hI', hI]
  have htot := LogContent_AppendAll_total cd c.withDefaults rs LogContent.fresh
  have hfr : totalRecords LogContent.fresh.all = 0 := rfl
  have hrot := Log_rotations_canon cd c.withDefaults hv hS hpos hlen rs LogContent.fresh
    (fresh_OK _ hS hpos)
  rw [← hl0] at hrot
  have hlen' := LogContent_AppendAll_length cd c.withDefaults rs LogContent.fresh
  rw [hall] at hok ⊢
  simp only at hok ⊢
  have hres := LogContent_AppendAll_results cd c.withDefaults rs LogContent.fresh hok
  have hcount := okCount_all_ok _ hok
  rw [hlen'] at hcount
  rw [hcount, hfr] at htot
  refine ⟨?_, ?_, ?_, ?_⟩
  · rw [hres]
    apply List.map_congr_left
    intro i hi
    have hi' := List.mem_range.1 hi
    simp only [hI0, hfr, Nat.zero_add]
    rw [Nat.mod_eq_of_lt (by omega)]
  · rw [canonLog_LowestOffset, hI0]
  · rw [canonLog_HighestOffset _ _ hv.2.2, hI0, htot, Nat.zero_add, Nat.zero_add,
      Nat.mod_eq_of_lt hN64]
  · simp only [canonLog, List.length_range, LogContent.all, List.length_append,
      List.length_singleton]
    have : LogContent.fresh.older.length = 0 := rfl
    omega

set_option maxRecDepth 100000 in
theorem Log_offsets_consecutive_witness :
    ((canonLog testConfig.withDefaults LogContent.fresh.all).AppendAll protoCodec
        [helloRecord, helloRecord, helloRecord]).1 = (List.range 3).map .ok ∧
      ((canonLog testConfig.withDefaults LogContent.fresh.all).AppendAll protoCodec
        [helloRecord, helloRecord, helloRecord]).2.LowestOffset = .ok 0 ∧
      ((canonLog testConfig.withDefaults LogContent.fresh.all).AppendAll protoCodec
        [helloRecord, helloRecord, helloRecord]).2.HighestOffset = .ok (3 - 1) ∧
      ((canonLog testConfig.withDefaults LogContent.fresh.all).AppendAll protoCodec
        [helloRecord, helloRecord, helloRecord]).2.segments.length =
        Log.rotations protoCodec (canonLog testConfig.withDefaults LogContent.fresh.all)
          [helloRecord, helloRecord, helloRecord] + 1 :=
  Log_offsets_consecutive protoCodec testConfig
    (canonLog testConfig.withDefaults LogContent.fresh.all)
    [helloRecord, helloRecord, helloRecord]
    (by decide) protoCodec_sliceSized (NewLog_empty testConfig (by decide)) rfl (by decide)
    (by decide)
    (by
      have h : ((canonLog testConfig.withDefaults LogContent.fresh.all).AppendAll protoCodec
          [helloRecord, helloRecord, helloRecord]).1 = [.ok 0, .ok 1, .ok 2] := by decide
      intro x hx
      rw [h] at hx
      simp only [List.mem_cons, List.mem_singleton, List.not_mem_nil, or_false] at hx
      rcases hx with rfl | rfl | rfl <;> exact ⟨_, rfl⟩)

/-! ## C3: the index of the active segment can fill up without a rotation -/

set_option maxRecDepth 100000 in
/-- C3 fails on the code: with the default limits (1024 and 1024) 85 appends of the empty
record succeed and the 86th fails with `io.EOF`: an index of 1024 bytes holds 85 entries,
1020 bytes; `IsMaxed` compares the index size with 1024, so the log does not rotate, and
`index.Write` has no room for entry 86. With a store limit of 1 MiB and an index limit of
100 bytes the ninth append of `"hello world"` fails in the same way. -/
theorem Log_Append_fails_without_rotation :
    (NewLog [] defaultConfig =
        .ok (canonLog defaultConfig.withDefaults LogContent.fresh.all) ∧
      ((canonLog defaultConfig.withDefaults LogContent.fresh.all).AppendAll protoCodec
        (List.replicate 86 emptyRecord)).1 =
        (List.range 85).map .ok ++ [.error Error.EOF]) ∧
    (NewLog [] largeStoreConfig =
        .ok (canonLog largeStoreConfig.withDefaults LogContent.fresh.all) ∧
      ((canonLog largeStoreConfig.withDefaults LogContent.fresh.all).AppendAll protoCodec
        (List.replicate 9 helloRecord)).1 =
        (List.range 8).map .ok ++ [.error Error.EOF]) := by
  have h1 := NewLog_empty defaultConfig (by decide)
  have h2 := NewLog_empty largeStoreConfig (by decide)
  refine ⟨⟨h1, ?_⟩, ⟨h2, ?_⟩⟩
  · rw [(reach_canon protoCodec defaultConfig _ (List.replicate 86 emptyRecord) (by decide)
      protoCodec_sliceSized h1).2.1]
    decide
  · decide

/-! ## Log.Truncate -/

theorem findSome?_filter_of_none {α β : Type} (f : α → Option β) (q : α → Bool) (xs : List α)
    (h : ∀ x ∈ xs, q x = false → f x = none) :
    (xs.filter q).findSome? f = xs.findSome? f := by
  induction xs with
  | nil => rfl
  | cons x xs ih =>
    have ih1 := ih (fun y hy => h y (List.mem_cons_of_mem _ hy))
    cases hq : q x with
    | true =>
      rw [List.filter_cons_of_pos (by rw [hq]), List.findSome?_cons, List.findSome?_cons, ih1]
    | false =>
      rw [List.filter_cons_of_neg (by rw [hq]; simp), List.findSome?_cons,
        h x (List.mem_cons_self _ _) hq, ih1]

theorem Log_Truncate_eq (l : Log) (lowest : Nat) :
    ∃ dir, l.Truncate lowest =
      (.ok (), { l with
        segments := l.segments.filter (fun p =>
          !(match l.heap[p]? with
            | some s => decide (s.nextOffset ≤ (lowest + 1) % 2 ^ 64)
            | none => false)),
        Dir := dir }) :=
  ⟨_, rfl⟩

/-- After `Truncate(k)` the search of `Log.Read` finds what it found before, for every
offset above `k`. -/
theorem Log_Truncate_findSegment (l : Log) (k o : Nat) (ho : o < 2 ^ 64) (hk : k < o) :
    (l.Truncate k).2.findSegment o = l.findSegment o := by
  obtain ⟨dir, h⟩ := Log_Truncate_eq l k
  rw [h]
  simp only [Log.findSegment]
  apply findSome?_filter_of_none
  intro p _ hq
  cases hp : l.heap[p]? with
  | none => rfl
  | some s =>
    rw [hp] at hq
    simp only [Bool.not_eq_false', decide_eq_true_eq] at hq
    have hk1 : (k + 1) % 2 ^ 64 = k + 1 := Nat.mod_eq_of_lt (by omega)
    rw [hk1] at hq
    simp only [Option.bind]
    rw [if_neg]
    intro h'
    omega


/-- The result of `Log.Read` is determined by the segment found. -/
theorem Log_Read_fst (cd : Codec) (l : Log) (o : Nat) :
    (l.Read cd o).1 =
      match l.findSegment o with
      | none => .error Error.OffsetOutOfRange
      | some (_, s) =>
        if s.nextOffset ≤ o then .error Error.OffsetOutOfRange else (s.Read cd o).1 := by
  unfold Log.Read
  cases l.findSegment o with
  | none => rfl
  | some ps =>
    obtain ⟨p, s⟩ := ps
    simp only
    split <;> rfl

theorem Log_Truncate_segs (l : Log) (k : Nat) :
    (l.Truncate k).2.segs =
      l.segs.filter (fun s => !decide (s.nextOffset ≤ (k + 1) % 2 ^ 64)) := by
  obtain ⟨dir, h⟩ := Log_Truncate_eq l k
  rw [h]
  generalize (k + 1) % 2 ^ 64 = m
  simp only [Log.segs, List.filterMap_filter, List.filter_filterMap]
  apply List.filterMap_congr
  intro p _
  cases hp : l.heap[p]? with
  | none => simp
  | some s =>
    by_cases hs : s.nextOffset ≤ m
    · have h1 : ¬ m < s.nextOffset := by omega
      simp [hs, h1, Option.filter]
    · have h1 : m < s.nextOffset := by omega
      simp [hs, h1, Option.filter]

/-- After `Truncate(k)`, `Read(o)` is out of range when every segment covering `o` was one
of those removed. -/
theorem Log_Truncate_Read_removed (cd : Codec) (l : Log) (k o : Nat)
    (hcov : ∀ p s, p ∈ l.segments → l.heap[p]? = some s → s.baseOffset ≤ o →
      o < s.nextOffset → s.nextOffset ≤ (k + 1) % 2 ^ 64) :
    (l.Truncate k).2.Read cd o = (.error Error.OffsetOutOfRange, (l.Truncate k).2) := by
  have hfind : (l.Truncate k).2.findSegment o = none := by
    obtain ⟨dir, h⟩ := Log_Truncate_eq l k
    rw [h]
    simp only [Log.findSegment, List.findSome?_eq_none_iff]
    intro p hp
    obtain ⟨hmem, hkeep⟩ := List.mem_filter.1 hp
    cases hs : l.heap[p]? with
    | none => rfl
    | some s =>
      rw [hs] at hkeep
      simp only [Bool.not_eq_true', decide_eq_false_iff_not] at hkeep
      simp only [Option.bind]
      rw [if_neg]
      intro h'
      exact hkeep (hcov p s hmem hs h'.1 h'.2)
  simp only [Log.Read, hfind]

set_option maxRecDepth 100000 in
/-- C6 fails when `k` falls inside a segment: with the default limits two appends of
`"hello world"` share the segment of offsets 0 and 1; `Truncate(0)` keeps that segment
(its `nextOffset` 2 exceeds `0 + 1`), and `Read(0)` still returns the first record. -/
theorem Log_Truncate_keeps_segment_of_k :
    NewLog [] defaultConfig =
        .ok (canonLog defaultConfig.withDefaults LogContent.fresh.all) ∧
      ((canonLog defaultConfig.withDefaults LogContent.fresh.all).AppendAll protoCodec
        [helloRecord, helloRecord]).1 = [.ok 0, .ok 1] ∧
      (((canonLog defaultConfig.withDefaults LogContent.fresh.all).AppendAll protoCodec
        [helloRecord, helloRecord]).2.Truncate 0).1 = .ok () ∧
      ((((canonLog defaultConfig.withDefaults LogContent.fresh.all).AppendAll protoCodec
        [helloRecord, helloRecord]).2.Truncate 0).2.Read protoCodec 0).1 =
        .ok { Value := helloWorld, Offset := 0 } :=
  ⟨NewLog_empty defaultConfig (by decide), by decide, by decide, by decide⟩

set_option maxRecDepth 100000 in
/-- C8 fails on the code: on a fresh log with one record appended, `HighestOffset()` is 0
and `Truncate(0)` removes the only segment, the active one, because its `nextOffset` 1 is
`≤ 0 + 1`; the segment list is left empty while `activeSegment` still points to the
removed segment, and `LowestOffset()` and `HighestOffset()` index an empty slice. -/
theorem Log_Truncate_removes_active_segment :
    NewLog [] defaultConfig =
        .ok (canonLog defaultConfig.withDefaults LogContent.fresh.all) ∧
      ((canonLog defaultConfig.withDefaults LogContent.fresh.all).Append protoCodec
        helloRecord).1 = .ok 0 ∧
      ((canonLog defaultConfig.withDefaults LogContent.fresh.all).Append protoCodec
        helloRecord).2.2.HighestOffset = .ok 0 ∧
      (((canonLog defaultConfig.withDefaults LogContent.fresh.all).Append protoCodec
        helloRecord).2.2.Truncate 0).1 = .ok () ∧
      (((canonLog defaultConfig.withDefaults LogContent.fresh.all).Append protoCodec
        helloRecord).2.2.Truncate 0).2.segments = [] ∧
      (((canonLog defaultConfig.withDefaults LogContent.fresh.all).Append protoCodec
        helloRecord).2.2.Truncate 0).2.activeSegment = some 0 ∧
      (((canonLog defaultConfig.withDefaults LogContent.fresh.all).Append protoCodec
        helloRecord).2.2.Truncate 0).2.LowestOffset = .error Error.runtimePanic ∧
      (((canonLog defaultConfig.withDefaults LogContent.fresh.all).Append protoCodec
        helloRecord).2.2.Truncate 0).2.HighestOffset = .error Error.runtimePanic :=
  ⟨NewLog_empty defaultConfig (by decide), by decide, by decide, by decide, by decide,
    by decide, by decide, by decide⟩

/-! ## Reading a log to its end -/

/-- The bytes a reader has not delivered yet. -/
theorem originReader_Read_eq (o : originReader) (n : Nat) :
    o.Read n =
      (fileReadAt (o.store.file ++ o.store.buf) n o.off,
        { store := o.store.Flush,
          off := o.off + (fileReadAt (o.store.file ++ o.store.buf) n o.off).1.length }) := by
  simp [originReader.Read, store.ReadAt, store.Flush]

theorem fileReadAt_cases (f : Bytes) (n off : Nat) (hn : 0 < n) :
    (fileReadAt f n off = (f.drop off, some Error.EOF) ∧ (f.drop off).length < n) ∨
      (fileReadAt f n off = ((f.drop off).take n, none) ∧ ((f.drop off).take n).length = n) := by
  have hn0 : ¬ (n = 0) := by omega
  unfold fileReadAt
  simp only [hn0, if_false]
  by_cases h : ((f.drop off).take n).length < n
  · left
    have hl : (f.drop off).length < n := by
      rw [List.length_take] at h; omega
    rw [List.take_of_length_le (Nat.le_of_lt hl)]
    exact ⟨if_pos hl, hl⟩
  · right
    simp only [h, if_false, true_and]
    have := List.length_take_le n (f.drop off)
    omega


/-- The bytes the readers have not delivered yet. -/
theorem multiRead_spec (n : Nat) (hn : 0 < n) (rs : List originReader) :
    (∃ bs rs1, multiRead rs n = ((bs, none), rs1) ∧
        rs.flatMap (fun r => (r.store.file ++ r.store.buf).drop r.off) =
          bs ++ rs1.flatMap (fun r => (r.store.file ++ r.store.buf).drop r.off) ∧
        (rs1.map (fun r => ((r.store.file ++ r.store.buf).drop r.off).length + 1)).sum <
          (rs.map (fun r => ((r.store.file ++ r.store.buf).drop r.off).length + 1)).sum) ∨
      (∃ bs rs1, multiRead rs n = ((bs, some Error.EOF), rs1) ∧
        rs.flatMap (fun r => (r.store.file ++ r.store.buf).drop r.off) = bs) := by
  induction rs with
  | nil => right; exact ⟨[], [], rfl, rfl⟩
  | cons r rest ih =>
    simp only [multiRead, originReader_Read_eq]
    rcases fileReadAt_cases (r.store.file ++ r.store.buf) n r.off hn with ⟨he, hl⟩ | ⟨he, hl⟩
    · simp only [he, if_true]
      by_cases hpos : 0 < ((r.store.file ++ r.store.buf).drop r.off).length
      · simp only [hpos, if_true]
        cases rest with
        | nil => right; exact ⟨_, _, rfl, by simp⟩
        | cons r2 rest2 =>
          left
          refine ⟨_, _, rfl, by simp, ?_⟩
          simp only [List.map_cons, List.sum_cons]
          omega
      · simp only [hpos, if_false]
        have hnil : (r.store.file ++ r.store.buf).drop r.off = [] :=
          List.length_eq_zero.1 (by omega)
        rcases ih with ⟨bs, rs1, h1, h2, h3⟩ | ⟨bs, rs1, h1, h2⟩
        · left
          refine ⟨bs, rs1, h1, ?_, ?_⟩
          · simp only [List.flatMap_cons, hnil, List.nil_append, h2]
          · simp only [List.map_cons, List.sum_cons]; omega
        · right
          refine ⟨bs, rs1, h1, ?_⟩
          simp only [List.flatMap_cons, hnil, List.nil_append, h2]
    · left
      have hne : ¬ ((none : Option Error) = some Error.EOF) := by simp
      simp only [he, hne, if_false]
      refine ⟨_, _, rfl, ?_, ?_⟩
      · simp only [List.flatMap_cons, store.Flush, List.append_nil, hl, ← List.drop_drop,
          List.append_assoc]
        rw [← List.append_assoc, List.take_append_drop]
      · simp only [List.map_cons, List.sum_cons, store.Flush, List.append_nil, hl,
          ← List.drop_drop, List.length_drop]
        have : ((r.store.file ++ r.store.buf).drop r.off).length ≥ n := by
          rw [← hl]; exact List.length_take_le' _ _
        simp only [List.length_drop] at this
        omega

theorem readAll_spec (sizes : Nat → Nat) (hs : ∀ i, 0 < sizes i) :
    ∀ (fuel i : Nat) (rs : List originReader) (acc : Bytes),
      (rs.map (fun r => ((r.store.file ++ r.store.buf).drop r.off).length + 1)).sum < fuel →
      readAll sizes fuel i rs acc =
        some (.ok (acc ++ rs.flatMap (fun r => (r.store.file ++ r.store.buf).drop r.off))) := by
  intro fuel
  induction fuel with
  | zero => intro i rs acc h; omega
  | succ fuel ih =>
    intro i rs acc h
    rcases multiRead_spec (sizes i) (hs i) rs with ⟨bs, rs1, h1, h2, h3⟩ | ⟨bs, rs1, h1, h2⟩
    · simp only [readAll, h1]
      rw [ih (i + 1) rs1 (acc ++ bs) (by omega), h2, List.append_assoc]
    · simp only [readAll, h1, h2]


/-! ## Parsing the stream back into frames -/

theorem parseFramesAux_succ (fuel : Nat) (bs : Bytes) (hne : bs ≠ []) :
    parseFramesAux (fuel + 1) bs =
      if bs.length < lenWidth then none
      else if (bs.drop lenWidth).length < beUint (bs.take lenWidth) then none
      else
        match parseFramesAux fuel ((bs.drop lenWidth).drop (beUint (bs.take lenWidth))) with
        | none => none
        | some ps => some ((bs.drop lenWidth).take (beUint (bs.take lenWidth)) :: ps) := by
  cases bs with
  | nil => exact absurd rfl hne
  | cons b bs => rfl

theorem parseFramesAux_frame (fuel : Nat) (p tail : Bytes) (hp : p.length < 2 ^ 64) :
    parseFramesAux (fuel + 1) (frame p ++ tail) =
      match parseFramesAux fuel tail with
      | none => none
      | some ps => some (p :: ps) := by
  have hb := beUint_PutUint64 p.length
  rw [Nat.mod_eq_of_lt hp] at hb
  have hne : frame p ++ tail ≠ [] := by
    intro h
    have := congrArg List.length h
    simp at this
  have e : frame p ++ tail = PutUint64 p.length ++ (p ++ tail) := by simp [frame]
  have ht : (PutUint64 p.length ++ (p ++ tail)).take lenWidth = PutUint64 p.length :=
    List.take_left' rfl
  have hd : (PutUint64 p.length ++ (p ++ tail)).drop lenWidth = p ++ tail :=
    List.drop_left' rfl
  have h1 : ¬ ((PutUint64 p.length ++ (p ++ tail)).length < lenWidth) := by
    simp [lenWidth]
  have h2 : ¬ ((p ++ tail).length < p.length) := by simp
  rw [parseFramesAux_succ fuel _ hne, e]
  simp only [ht, hd, hb, h1, h2, if_false, List.drop_left, List.take_left]

theorem parseFramesAux_frames (ps : List Bytes) (hp : ∀ p ∈ ps, p.length < 2 ^ 64) :
    ∀ fuel, ps.length ≤ fuel → parseFramesAux fuel (frames ps) = some ps := by
  induction ps with
  | nil => intro fuel _; cases fuel <;> rfl
  | cons p ps ih =>
    intro fuel hf
    cases fuel with
    | zero => simp at hf
    | succ fuel =>
      simp only [frames]
      rw [parseFramesAux_frame fuel p _ (hp p (List.mem_cons_self _ _)),
        ih (fun q hq => hp q (List.mem_cons_of_mem _ hq)) fuel (by simpa using hf)]

theorem frames_length_ge (ps : List Bytes) : ps.length ≤ (frames ps).length := by
  induction ps with
  | nil => simp [frames]
  | cons p ps ih => simp [frames]; omega

theorem parseFrames_frames (ps : List Bytes) (hp : ∀ p ∈ ps, p.length < 2 ^ 64) :
    parseFrames (frames ps) = some ps :=
  parseFramesAux_frames ps hp _ (frames_length_ge ps)


/-! ## The payloads of a sequence of successful appends -/

theorem LogContent_AppendAll_payloads (cd : Codec) (c : Config) (rs : List Record) :
    ∀ L : LogContent, (∀ g ∈ L.all, g.junk = []) →
      (∀ x ∈ (L.AppendAll cd c rs).1, ∃ o, x = .ok o) →
      (∀ g ∈ (L.AppendAll cd c rs).2.all, g.junk = []) ∧
      ∃ ps, (L.AppendAll cd c rs).2.all.flatMap (fun g => g.ps) =
          L.all.flatMap (fun g => g.ps) ++ ps ∧
        List.Forall₂
          (fun (x : Record × Except Error Nat) p =>
            ∃ o, x.2 = .ok o ∧ cd.marshal { x.1 with Offset := o } = some p)
          (rs.zip (L.AppendAll cd c rs).1) ps := by
  induction rs with
  | nil =>
    intro L hj _
    exact ⟨hj, [], by simp [LogContent.AppendAll], by simp [LogContent.AppendAll]⟩
  | cons r rs ih =>
    intro L hj hok
    have e1 : (L.AppendAll cd c (r :: rs)).1 =
        (L.Append cd c r).1 :: ((L.Append cd c r).2.2.AppendAll cd c rs).1 := rfl
    have e2 : (L.AppendAll cd c (r :: rs)).2 = ((L.Append cd c r).2.2.AppendAll cd c rs).2 := rfl
    rw [e1] at hok
    rw [e1, e2]
    obtain ⟨o, ho⟩ := hok _ (List.mem_cons_self _ _)
    obtain ⟨p, tail, hm, _, hall, htail, _⟩ := LogContent_Append_ok_inv cd c L r o ho
    have hactive : L.active.junk = [] := hj L.active (by simp [LogContent.all])
    have hj1 : ∀ g ∈ (L.Append cd c r).2.2.all, g.junk = [] := by
      intro g hg
      rw [hall] at hg
      simp only [List.mem_append, List.mem_singleton] at hg
      rcases hg with (hg | hg) | hg
      · exact hj g (by simp [LogContent.all, hg])
      · rw [hg]; exact hactive
      · rcases htail with ht | ht
        · rw [ht] at hg; simp at hg
        · rw [ht] at hg; simp at hg; rw [hg]
    obtain ⟨h1, ps, h2, h3⟩ := ih _ hj1 (fun x hx => hok x (List.mem_cons_of_mem _ hx))
    refine ⟨h1, p :: ps, ?_, ?_⟩
    · rw [h2, hall]
      rcases htail with ht | ht <;> simp [ht, LogContent.all]
    · rw [List.zip_cons_cons]
      exact List.Forall₂.cons ⟨o, ho, hm⟩ h3

theorem frames_flatMap (G : List SegContent) (hj : ∀ g ∈ G, g.junk = []) :
    G.flatMap (fun g => g.bytes) = frames (G.flatMap (fun g => g.ps)) := by
  induction G with
  | nil => rfl
  | cons g G ih =>
    have hg : g.junk = [] := hj g (List.mem_cons_self _ _)
    have ih1 := ih (fun h hh => hj h (List.mem_cons_of_mem _ hh))
    rw [List.flatMap_cons, List.flatMap_cons, frames_append, ih1]
    simp only [SegContent.bytes, hg, List.append_nil]

theorem canonHeap_store_bytes (c : Config) (G : List SegContent) :
    ∀ b, (canonHeap c b G).map (fun s => s.store.file ++ s.store.buf) =
      G.map (fun g => g.bytes) := by
  induction G with
  | nil => intro b; rfl
  | cons g G ih => intro b; simp [canonHeap, canonSeg, ih]


theorem forall₂_exists_left {α β : Type} {R : α → β → Prop} {xs : List α} {ys : List β}
    (h : List.Forall₂ R xs ys) : ∀ y ∈ ys, ∃ x, x ∈ xs ∧ R x y := by
  induction h with
  | nil => intro y hy; simp at hy
  | cons hr _ ih =>
    intro y hy
    rcases List.mem_cons.1 hy with rfl | hy
    · exact ⟨_, List.mem_cons_self _ _, hr⟩
    · obtain ⟨x, hx, hxy⟩ := ih y hy
      exact ⟨x, List.mem_cons_of_mem _ hx, hxy⟩

theorem flatMap_map_eq {α β γ : Type} (f : α → β) (g : β → List γ) (xs : List α) :
    (xs.map f).flatMap g = xs.flatMap (fun x => g (f x)) := by
  induction xs with
  | nil => rfl
  | cons x xs ih => simp [ih]

theorem canonLog_store_bytes (c : Config) (G : List SegContent) :
    (canonLog c G).segs.flatMap (fun s => s.store.file ++ s.store.buf) =
      G.flatMap (fun g => g.bytes) := by
  have h := canonHeap_store_bytes c G c.Segment.InitialOffset
  rw [canonLog_segs]
  have e1 := flatMap_map_eq (fun s : segment => s.store.file ++ s.store.buf) id
    (canonHeap c c.Segment.InitialOffset G)
  have e2 := flatMap_map_eq (fun g : SegContent => g.bytes) id G
  simp only [id] at e1 e2
  rw [← e1, ← e2, h]

/-- C9: for a log built from a fresh log over an empty directory by successful `Append`
calls only, reading `Log.Reader()` to its end with `io.ReadAll` returns, without error
and for every positive buffer size at each call, the concatenation in segment order of
the store bytes of the segments; these bytes are the frames of the marshalled records
(each with the offset it was assigned), in append order, and parsing them as
`[8-byte big-endian length][payload]` frames gives these payloads back. -/
theorem Log_Reader_streams_records (cd : Codec) (c : Config) (l0 : Log) (rs : List Record)
    (sizes : Nat → Nat) (hu : c.isUint64) (hlen : cd.sliceSized) (h0 : NewLog [] c = .ok l0)
    (hok : ∀ x ∈ (l0.AppendAll cd rs).1, ∃ o, x = .ok o) (hs : ∀ i, 0 < sizes i) :
    ∃ ps,
      List.Forall₂
        (fun (x : Record × Except Error Nat) p =>
          ∃ o, x.2 = .ok o ∧ cd.marshal { x.1 with Offset := o } = some p)
        (rs.zip (l0.AppendAll cd rs).1) ps ∧
      (l0.AppendAll cd rs).2.segs.flatMap (fun s => s.store.Close) = frames ps ∧
      (∃ N, ∀ fuel, N ≤ fuel →
        readAll sizes fuel 0 (l0.AppendAll cd rs).2.Reader [] = some (.ok (frames ps))) ∧
      parseFrames (frames ps) = some ps := by
  obtain ⟨_, hall, _⟩ := reach_canon cd c l0 rs hu hlen h0
  rw [hall] at hok ⊢
  simp only at hok ⊢
  obtain ⟨hj, ps, hps, hf⟩ := LogContent_AppendAll_payloads cd c.withDefaults rs
    LogContent.fresh (by intro g hg; simp [LogContent.fresh, LogContent.all] at hg; rw [hg]) hok
  have hfr : LogContent.fresh.all.flatMap (fun g => g.ps) = [] := rfl
  rw [hfr, List.nil_append] at hps
  have hbytes : (canonLog c.withDefaults (LogContent.fresh.AppendAll cd c.withDefaults rs).2.all).segs.flatMap
      (fun s => s.store.file ++ s.store.buf) = frames ps := by
    rw [canonLog_store_bytes, frames_flatMap _ hj, hps]
  have hplen : ∀ p ∈ ps, p.length < 2 ^ 64 := by
    intro p hp
    obtain ⟨x, _, o, _, hm⟩ := forall₂_exists_left hf p hp
    have := hlen _ _ hm
    omega
  refine ⟨ps, hf, ?_, ?_, parseFrames_frames ps hplen⟩
  · rw [← hbytes]; rfl
  · refine ⟨((canonLog c.withDefaults
        (LogContent.fresh.AppendAll cd c.withDefaults rs).2.all).Reader.map
          (fun r => ((r.store.file ++ r.store.buf).drop r.off).length + 1)).sum + 1,
      fun fuel hfuel => ?_⟩
    rw [readAll_spec sizes hs fuel 0 _ [] (by omega)]
    simp only [Log.Reader, flatMap_map_eq, List.drop_zero, List.nil_append, hbytes]


set_option maxRecDepth 100000 in
theorem Log_Reader_streams_records_witness :
    ∃ ps,
      List.Forall₂
        (fun (x : Record × Except Error Nat) p =>
          ∃ o, x.2 = .ok o ∧ protoCodec.marshal { x.1 with Offset := o } = some p)
        ([helloRecord, helloRecord, helloRecord].zip
          ((canonLog testConfig.withDefaults LogContent.fresh.all).AppendAll protoCodec
            [helloRecord, helloRecord, helloRecord]).1) ps ∧
      ((canonLog testConfig.withDefaults LogContent.fresh.all).AppendAll protoCodec
        [helloRecord, helloRecord, helloRecord]).2.segs.flatMap (fun s => s.store.Close) =
        frames ps ∧
      (∃ N, ∀ fuel, N ≤ fuel →
        readAll (fun _ => 512) fuel 0
          ((canonLog testConfig.withDefaults LogContent.fresh.all).AppendAll protoCodec
            [helloRecord, helloRecord, helloRecord]).2.Reader [] = some (.ok (frames ps))) ∧
      parseFrames (frames ps) = some ps :=
  Log_Reader_streams_records protoCodec testConfig
    (canonLog testConfig.withDefaults LogContent.fresh.all)
    [helloRecord, helloRecord, helloRecord] (fun _ => 512)
    (by decide) protoCodec_sliceSized (NewLog_empty testConfig (by decide))
    (by
      have h : ((canonLog testConfig.withDefaults LogContent.fresh.all).AppendAll protoCodec
          [helloRecord, helloRecord, helloRecord]).1 = [.ok 0, .ok 1, .ok 2] := by decide
      intro x hx
      rw [h] at hx
      simp only [List.mem_cons, List.mem_singleton, List.not_mem_nil, or_false] at hx
      rcases hx with rfl | rfl | rfl <;> exact ⟨_, rfl⟩)
    (fun _ => Nat.succ_pos 511)

/-! ## File names -/

theorem digitChar_toNat (d : Nat) (hd : d < 10) : (Nat.digitChar d).toNat - 48 = d := by
  interval_cases d <;> rfl

theorem digitChar_isDigit (d : Nat) (hd : d < 10) :
    decide ('0' ≤ Nat.digitChar d ∧ Nat.digitChar d ≤ '9') = true := by
  interval_cases d <;> decide

theorem digitChar_ne_dot (d : Nat) (hd : d < 10) : (Nat.digitChar d != '.') = true := by
  interval_cases d <;> decide

theorem formatDigits_parse (fuel : Nat) :
    ∀ n, n ≤ fuel →
      (formatDigits fuel n).foldl (fun acc ch => acc * 10 + (ch.toNat - 48)) 0 = n ∧
      (∀ ch ∈ formatDigits fuel n,
        decide ('0' ≤ ch ∧ ch ≤ '9') = true ∧ (ch != '.') = true) ∧
      formatDigits fuel n ≠ [] := by
  induction fuel with
  | zero =>
    intro n hn
    have h0 : n = 0 := by omega
    subst h0
    refine ⟨by decide, ?_, by simp [formatDigits]⟩
    intro ch hch
    simp only [formatDigits, List.mem_singleton] at hch
    subst hch
    exact ⟨by decide, by decide⟩
  | succ fuel ih =>
    intro n hn
    by_cases h10 : n < 10
    · simp only [formatDigits, h10, if_true]
      refine ⟨?_, ?_, by simp⟩
      · simp [digitChar_toNat n h10]
      · intro ch hch
        simp only [List.mem_singleton] at hch
        subst hch
        exact ⟨digitChar_isDigit n h10, digitChar_ne_dot n h10⟩
    · simp only [formatDigits, h10, if_false]
      obtain ⟨h1, h2, _⟩ := ih (n / 10) (by omega)
      have hm : n % 10 < 10 := Nat.mod_lt _ (by norm_num)
      refine ⟨?_, ?_, by simp⟩
      · rw [List.foldl_append, h1]
        simp only [List.foldl_cons, List.foldl_nil, digitChar_toNat _ hm]
        omega
      · intro ch hch
        rcases List.mem_append.1 hch with h | h
        · exact h2 ch h
        · simp only [List.mem_singleton] at h
          subst h
          exact ⟨digitChar_isDigit _ hm, digitChar_ne_dot _ hm⟩

theorem parseUintOrZero_formatUint (b : Nat) (hb : b < 2 ^ 64) :
    parseUintOrZero (formatUint b) = b := by
  obtain ⟨h1, h2, h3⟩ := formatDigits_parse b b (Nat.le_refl _)
  have hall : (formatUint b).all (fun ch => decide ('0' ≤ ch ∧ ch ≤ '9')) = true := by
    rw [List.all_eq_true]
    intro ch hch
    exact (h2 ch hch).1
  have hne : (formatUint b).isEmpty = false := by
    cases h : formatUint b with
    | nil => exact absurd h h3
    | cons _ _ => rfl
  unfold parseUintOrZero
  simp only [hne, hall, if_true, Bool.false_eq_true, if_false]
  have h1' : (formatUint b).foldl (fun acc ch => acc * 10 + (ch.toNat - 48)) 0 = b := h1
  simp only [h1', hb, if_true]


theorem dropWhile_ne_dot_digits (ds : List Char) (rest : List Char)
    (h : ∀ ch ∈ ds, (ch != '.') = true) :
    (ds ++ '.' :: rest).dropWhile (fun ch => ch != '.') = '.' :: rest := by
  induction ds with
  | nil => rfl
  | cons d ds ih =>
    have hd := h d (List.mem_cons_self _ _)
    simp only [List.cons_append, List.dropWhile_cons, hd, if_true]
    exact ih (fun ch hch => h ch (List.mem_cons_of_mem _ hch))

/-- The part of a name before its last dot, when the extension has no further dot. -/
theorem trimExt_append (stem ext : List Char) (he : ∀ ch ∈ ext, (ch != '.') = true) :
    trimExt (stem ++ '.' :: ext) = stem := by
  have hc : (stem ++ '.' :: ext).contains '.' = true := by simp
  have hr : (stem ++ '.' :: ext).reverse = ext.reverse ++ '.' :: stem.reverse := by simp
  have hd := dropWhile_ne_dot_digits ext.reverse stem.reverse
    (fun ch hch => he ch (List.mem_reverse.1 hch))
  simp only [trimExt, hc, if_true, hr, hd, List.drop_succ_cons, List.drop_zero,
    List.reverse_reverse]

theorem trimExt_segmentFileName (b : Nat) :
    trimExt (segmentFileName b storeExt) = formatUint b ∧
      trimExt (segmentFileName b indexExt) = formatUint b :=
  ⟨trimExt_append (formatUint b) ['s', 't', 'o', 'r', 'e'] (by decide),
    trimExt_append (formatUint b) ['i', 'n', 'd', 'e', 'x'] (by decide)⟩

theorem parse_segmentFileName (b : Nat) (hb : b < 2 ^ 64) :
    parseUintOrZero (trimExt (segmentFileName b storeExt)) = b ∧
      parseUintOrZero (trimExt (segmentFileName b indexExt)) = b := by
  rw [(trimExt_segmentFileName b).1, (trimExt_segmentFileName b).2,
    parseUintOrZero_formatUint b hb]
  exact ⟨rfl, rfl⟩

theorem segmentFileName_base_inj (a b : Nat) (e1 e2 : List Char) (ha : a < 2 ^ 64)
    (hb : b < 2 ^ 64) (h1 : e1 = storeExt ∨ e1 = indexExt) (h2 : e2 = storeExt ∨ e2 = indexExt)
    (h : segmentFileName a e1 = segmentFileName b e2) : a = b := by
  have hp := congrArg (fun n => parseUintOrZero (trimExt n)) h
  simp only at hp
  rcases h1 with rfl | rfl <;> rcases h2 with rfl | rfl <;>
    simp only [(parse_segmentFileName a ha).1, (parse_segmentFileName a ha).2,
      (parse_segmentFileName b hb).1, (parse_segmentFileName b hb).2] at hp <;> exact hp

theorem segmentFileName_ext_ne (a : Nat) :
    segmentFileName a indexExt ≠ segmentFileName a storeExt := by
  intro h
  have := List.append_cancel_left h
  exact absurd this (by decide)

/-! ## Files of a closed log -/

theorem lookup_of_mem_nodup {α β : Type} [BEq α] [LawfulBEq α] (k : α) (v : β) :
    ∀ dir : List (α × β), (k, v) ∈ dir → (dir.map Prod.fst).Nodup → dir.lookup k = some v := by
  intro dir
  induction dir with
  | nil => intro h _; simp at h
  | cons e dir ih =>
    intro hmem hnd
    obtain ⟨k1, v1⟩ := e
    simp only [List.map_cons, List.nodup_cons] at hnd
    rcases List.mem_cons.1 hmem with h | h
    · cases h
      simp [List.lookup]
    · have hne : k ≠ k1 := by
        intro hk
        subst hk
        exact hnd.1 (List.mem_map.2 ⟨(k, v), h, rfl⟩)
      have hb : (k == k1) = false := by simpa using hne
      simp only [List.lookup, hb]
      exact ih h hnd.2

theorem index_Close_canon (c : Config) (b : Nat) (g : SegContent) :
    (canonSeg c b g).index.Close = entries 0 0 g.ps := by
  simp [index.Close, truncateFile, canonSeg]

theorem store_Close_canon (c : Config) (b : Nat) (g : SegContent) :
    (canonSeg c b g).store.Close = g.bytes := by
  simp [store.Close, store.Flush, canonSeg]

theorem newIndex_entries (c : Config) (ps : List Bytes)
    (h63 : c.Segment.MaxIndexBytes < 2 ^ 63) (hpos : 0 < c.Segment.MaxIndexBytes)
    (hcap : entWidth * ps.length ≤ c.Segment.MaxIndexBytes) :
    newIndex (entries 0 0 ps) c =
      .ok { mmap := entries 0 0 ps ++
              List.replicate (c.Segment.MaxIndexBytes - entWidth * ps.length) 0,
            size := entWidth * ps.length } := by
  have h1 : ¬ (2 ^ 63 ≤ c.Segment.MaxIndexBytes) := by omega
  have ht : truncateFile (entries 0 0 ps) c.Segment.MaxIndexBytes =
      entries 0 0 ps ++ List.replicate (c.Segment.MaxIndexBytes - entWidth * ps.length) 0 := by
    simp only [truncateFile, entries_length]
    rw [List.take_of_length_le (by simpa using hcap)]
  have hl : ¬ ((entries 0 0 ps ++
      List.replicate (c.Segment.MaxIndexBytes - entWidth * ps.length) 0).length = 0) := by
    simp only [List.length_append, entries_length, List.length_replicate]
    omega
  simp only [newIndex, h1, if_false, ht, hl, entries_length]


theorem index_Read_minus_one (i : index) (k : Nat) (hk : k < 2 ^ 32)
    (hs : i.size / entWidth = k + 1) :
    i.Read (-1) = i.Read (k : Int) := by
  have h1 : (i.size / entWidth + (2 ^ 32 - 1)) % 2 ^ 32 = k := by rw [hs]; omega
  have h2 : ¬ ((k : Int) = -1) := by omega
  simp only [index.Read, h1, h2, if_true, if_false, toUint32_natCast k hk]

theorem index_Read_last (c : Config) (base : Nat) (g : SegContent) (hne : g.ps ≠ [])
    (h32 : g.ps.length ≤ 2 ^ 32) (hf : g.fits c) (hS : c.Segment.MaxStoreBytes < 2 ^ 64) :
    ∃ pos, (canonSeg c base g).index.Read (-1) = .ok (g.ps.length - 1, pos) := by
  have hlen : 0 < g.ps.length := List.length_pos.2 hne
  have hj : g.ps.length - 1 < g.ps.length := by omega
  have hsz : (canonSeg c base g).index.size / entWidth = (g.ps.length - 1) + 1 := by
    simp only [canonSeg, entWidth_eq]
    omega
  rw [index_Read_minus_one _ (g.ps.length - 1) (by omega) hsz]
  exact ⟨_, index_Read_canon c base g _ hj (by omega) (lt_trans (hf.2.2 _ hj) hS)⟩

/-- Opening the files a canonical segment leaves on disk gives the segment back, flushed. -/
theorem newSegment_reopen (c : Config) (dir : Directory) (base : Nat) (g : SegContent)
    (hc : c.valid) (hpos : 0 < c.Segment.MaxIndexBytes) (hb : base < 2 ^ 64) (hf : g.fits c)
    (h32 : g.ps.length ≤ 2 ^ 32)
    (hst : dir.lookup (segmentFileName base storeExt) = some g.bytes)
    (hix : dir.lookup (segmentFileName base indexExt) = some (entries 0 0 g.ps)) :
    newSegment dir base c =
      .ok { canonSeg c base g with store := (canonSeg c base g).store.Flush } := by
  have hni := newIndex_entries c g.ps hc.2.1 hpos hf.1
  have hidx : (canonSeg c base g).index =
      { mmap := entries 0 0 g.ps ++
          List.replicate (c.Segment.MaxIndexBytes - entWidth * g.ps.length) 0,
        size := entWidth * g.ps.length } := rfl
  by_cases hne : g.ps = []
  · have hr : index.Read (index.mk
          (entries 0 0 g.ps ++
            List.replicate (c.Segment.MaxIndexBytes - entWidth * g.ps.length) 0)
          (entWidth * g.ps.length)) (-1) = .error Error.EOF := by
      simp only [hne, List.length_nil, Nat.mul_zero]
      exact if_pos rfl
    simp only [newSegment, openFile, hst, hix, Option.getD_some, hni, hr, newStore]
    simp only [canonSeg, store.Flush, List.nil_append, hne, List.length_nil, Nat.add_zero,
      Nat.mod_eq_of_lt hb, List.append_nil]
  · obtain ⟨pos, hr⟩ := index_Read_last c base g hne h32 hf hc.1
    rw [hidx] at hr
    have hlen : 0 < g.ps.length := List.length_pos.2 hne
    have e : base + (g.ps.length - 1) + 1 = base + g.ps.length := by omega
    simp only [newSegment, openFile, hst, hix, Option.getD_some, hni, hr, newStore]
    simp only [canonSeg, store.Flush, List.nil_append, e, List.append_nil]

/-! ## The directory a canonical log leaves behind -/

theorem canonLog_Close (c : Config) (G : List SegContent) :
    (canonLog c G).Close = (canonHeap c c.Segment.InitialOffset G).flatMap segment.Close := by
  have hd : (canonLog c G).Dir = [] := rfl
  simp only [Log.Close, canonLog_segs, hd, List.filter_nil, List.append_nil]

theorem canonHeap_mem (c : Config) (G : List SegContent) :
    ∀ b, ∀ s ∈ canonHeap c b G, ∃ g, g ∈ G ∧ s = canonSeg c s.baseOffset g := by
  induction G with
  | nil => intro b s hs; simp [canonHeap] at hs
  | cons g G ih =>
    intro b s hs
    simp only [canonHeap, List.mem_cons] at hs
    rcases hs with rfl | hs
    · exact ⟨g, List.mem_cons_self _ _, rfl⟩
    · obtain ⟨g', hg', h⟩ := ih _ s hs
      exact ⟨g', List.mem_cons_of_mem _ hg', h⟩

theorem dropLast_subset_cons (g : SegContent) (G : List SegContent) :
    ∀ h ∈ G.dropLast, h ∈ (g :: G).dropLast := by
  intro h hh
  cases G with
  | nil => simp at hh
  | cons g2 G2 => simp only [List.dropLast_cons₂]; exact List.mem_cons_of_mem _ hh

/-- Without wrap, and with records in every segment but the last, the base offsets of a
canonical heap increase strictly. -/
theorem canonHeap_bases (c : Config) (G : List SegContent) :
    ∀ b, b + totalRecords G < 2 ^ 64 → (∀ g ∈ G.dropLast, g.ps ≠ []) →
      List.Pairwise (fun s t : segment => s.baseOffset < t.baseOffset) (canonHeap c b G) ∧
      ∀ s ∈ canonHeap c b G, b ≤ s.baseOffset ∧ s.baseOffset ≤ b + totalRecords G := by
  induction G with
  | nil => intro b _ _; simp [canonHeap]
  | cons g G ih =>
    intro b hnw hne
    rw [totalRecords_cons] at hnw ⊢
    have hmod : (b + g.ps.length) % 2 ^ 64 = b + g.ps.length := Nat.mod_eq_of_lt (by omega)
    obtain ⟨h1, h2⟩ := ih (b + g.ps.length) (by omega)
      (fun h hh => hne h (dropLast_subset_cons g G h hh))
    simp only [canonHeap, hmod, List.pairwise_cons, List.mem_cons]
    refine ⟨⟨?_, h1⟩, ?_⟩
    · intro t ht
      have hb := (h2 t ht).1
      have hG : G ≠ [] := by
        intro h0; rw [h0] at ht; simp [canonHeap] at ht
      have hg : g.ps ≠ [] := by
        apply hne
        cases G with
        | nil => exact absurd rfl hG
        | cons g2 G2 => simp
      have := List.length_pos.2 hg
      show b < t.baseOffset
      omega
    · intro s hs
      rcases hs with rfl | hs
      · show b ≤ b ∧ b ≤ _
        omega
      · have := h2 s hs
        omega


theorem Close_keys (ss : List segment) :
    (ss.flatMap segment.Close).map Prod.fst =
      ss.flatMap (fun s => [segmentFileName s.baseOffset indexExt,
        segmentFileName s.baseOffset storeExt]) := by
  induction ss with
  | nil => rfl
  | cons s ss ih => simp [segment.Close, ih]

theorem Close_keys_nodup (ss : List segment)
    (hp : List.Pairwise (fun s t : segment => s.baseOffset < t.baseOffset) ss)
    (hb : ∀ s ∈ ss, s.baseOffset < 2 ^ 64) :
    ((ss.flatMap segment.Close).map Prod.fst).Nodup := by
  rw [Close_keys]
  induction ss with
  | nil => simp
  | cons s ss ih =>
    obtain ⟨h1, h2⟩ := List.pairwise_cons.1 hp
    have hs := hb s (List.mem_cons_self _ _)
    have hrest : ∀ e, (e = storeExt ∨ e = indexExt) →
        segmentFileName s.baseOffset e ∉ ss.flatMap (fun s =>
          [segmentFileName s.baseOffset indexExt, segmentFileName s.baseOffset storeExt]) := by
      intro e he hmem
      obtain ⟨t, ht, hk⟩ := List.mem_flatMap.1 hmem
      have hlt := h1 t ht
      have htb := hb t (List.mem_cons_of_mem _ ht)
      simp only [List.mem_cons, List.mem_singleton, List.not_mem_nil, or_false] at hk
      rcases hk with hk | hk
      · have := segmentFileName_base_inj _ _ _ _ hs htb he (Or.inr rfl) hk
        omega
      · have := segmentFileName_base_inj _ _ _ _ hs htb he (Or.inl rfl) hk
        omega
    simp only [List.flatMap_cons, List.cons_append, List.nil_append, List.nodup_cons,
      List.mem_cons]
    refine ⟨?_, hrest _ (Or.inl rfl), ih h2 (fun t ht => hb t (List.mem_cons_of_mem _ ht))⟩
    intro h
    rcases h with h | h
    · exact segmentFileName_ext_ne _ h
    · exact hrest _ (Or.inr rfl) h

theorem scanBaseOffsets_Close (ss : List segment) (hb : ∀ s ∈ ss, s.baseOffset < 2 ^ 64) :
    scanBaseOffsets (ss.flatMap segment.Close) =
      ss.flatMap (fun s => [s.baseOffset, s.baseOffset]) := by
  induction ss with
  | nil => rfl
  | cons s ss ih =>
    have hs := hb s (List.mem_cons_self _ _)
    have ih1 := ih (fun t ht => hb t (List.mem_cons_of_mem _ ht))
    simp only [scanBaseOffsets] at ih1 ⊢
    simp only [List.flatMap_cons, List.map_append, ih1, segment.Close, List.map_cons,
      List.map_nil, (parse_segmentFileName _ hs).1, (parse_segmentFileName _ hs).2]

theorem doubled_sorted (ss : List segment)
    (hp : List.Pairwise (fun s t : segment => s.baseOffset < t.baseOffset) ss) :
    List.Sorted (fun a b : Nat => a ≤ b) (ss.flatMap (fun s => [s.baseOffset, s.baseOffset])) := by
  induction ss with
  | nil => exact List.sorted_nil
  | cons s ss ih =>
    obtain ⟨h1, h2⟩ := List.pairwise_cons.1 hp
    have hge : ∀ x ∈ ss.flatMap (fun s => [s.baseOffset, s.baseOffset]), s.baseOffset ≤ x := by
      intro x hx
      obtain ⟨t, ht, hk⟩ := List.mem_flatMap.1 hx
      have := h1 t ht
      simp only [List.mem_cons, List.mem_singleton, List.not_mem_nil, or_false, or_self] at hk
      omega
    simp only [List.flatMap_cons, List.cons_append, List.nil_append, List.sorted_cons,
      List.mem_cons]
    refine ⟨?_, hge, ih h2⟩
    intro x hx
    rcases hx with rfl | hx
    · exact Nat.le_refl _
    · exact hge x hx

/-! ## Log.setup over the files of a closed log -/

theorem Log_newSegment_ok (l : Log) (off : Nat) (s : segment)
    (h : newSegment l.Dir off l.Config = .ok s) :
    l.newSegment off =
      (.ok (), { l with heap := l.heap ++ [s], segments := l.segments ++ [l.heap.length],
                        activeSegment := some l.heap.length }) := by
  simp only [Log.newSegment, h]

theorem setupLoop_reopen (dir : Directory) (c : Config) (ss : List segment)
    (hnew : ∀ s ∈ ss, newSegment dir s.baseOffset c = .ok s) :
    ∀ l : Log, l.Dir = dir → l.Config = c →
      Log.setupLoop l (ss.flatMap (fun s => [s.baseOffset, s.baseOffset])) =
        (.ok (), { l with
          heap := l.heap ++ ss,
          segments := l.segments ++ List.range' l.heap.length ss.length,
          activeSegment :=
            if ss = [] then l.activeSegment else some (l.heap.length + ss.length - 1) }) := by
  induction ss with
  | nil =>
    intro l _ _
    simp [Log.setupLoop]
  | cons s ss ih =>
    intro l hd hc
    have hs : newSegment l.Dir s.baseOffset l.Config = .ok s := by
      rw [hd, hc]; exact hnew s (List.mem_cons_self _ _)
    have ih1 := ih (fun t ht => hnew t (List.mem_cons_of_mem _ ht))
      { l with heap := l.heap ++ [s], segments := l.segments ++ [l.heap.length],
               activeSegment := some l.heap.length } hd hc
    have e0 : (s :: ss).flatMap (fun s => [s.baseOffset, s.baseOffset]) =
        s.baseOffset :: s.baseOffset :: ss.flatMap (fun s => [s.baseOffset, s.baseOffset]) := rfl
    have e1 : ∀ (b x : Nat) (rest : List Nat), Log.setupLoop l (b :: x :: rest) =
        match l.newSegment b with
        | (.error e, l1) => (.error e, l1)
        | (.ok _, l1) => Log.setupLoop l1 rest := fun _ _ _ => rfl
    rw [e0, e1, Log_newSegment_ok l _ s hs]
    simp only
    rw [ih1]
    by_cases hss : ss = []
    · subst hss
      simp
    · have : 0 < ss.length := List.length_pos.2 hss
      simp only [hss, if_false, List.length_append, List.length_singleton, List.append_assoc,
        List.singleton_append, List.length_cons, List.range'_succ, reduceCtorEq]
      have ea : l.heap.length + (0 + 1) + ss.length - 1 = l.heap.length + (ss.length + 1) - 1 := by
        omega
      simp only [List.length_nil, ea, Nat.zero_add]


/-- Files of a canonical log, found again in the directory it leaves behind. -/
theorem reopen_each (c : Config) (G : List SegContent) (hv : c.valid)
    (hpos : 0 < c.Segment.MaxIndexBytes)
    (hnw : c.Segment.InitialOffset + totalRecords G < 2 ^ 64)
    (hne : ∀ g ∈ G.dropLast, g.ps ≠ []) (hfit : ∀ g ∈ G, g.fits c)
    (h32 : ∀ g ∈ G, g.ps.length ≤ 2 ^ 32) :
    ∀ t ∈ canonHeap c c.Segment.InitialOffset G,
      newSegment ((canonHeap c c.Segment.InitialOffset G).flatMap segment.Close)
          t.baseOffset c =
        .ok { t with store := t.store.Flush } := by
  intro t ht
  obtain ⟨hp, hb⟩ := canonHeap_bases c G c.Segment.InitialOffset hnw hne
  have hb64 : ∀ s ∈ canonHeap c c.Segment.InitialOffset G, s.baseOffset < 2 ^ 64 := by
    intro s hs
    have := (hb s hs).2
    omega
  have hnd := Close_keys_nodup _ hp hb64
  obtain ⟨g, hg, ht'⟩ := canonHeap_mem c G _ t ht
  have hmem1 : (segmentFileName t.baseOffset storeExt, g.bytes) ∈
      (canonHeap c c.Segment.InitialOffset G).flatMap segment.Close := by
    refine List.mem_flatMap.2 ⟨t, ht, ?_⟩
    have : t.store.Close = g.bytes := by rw [ht']; exact store_Close_canon _ _ _
    simp [segment.Close, this]
  have hmem2 : (segmentFileName t.baseOffset indexExt, entries 0 0 g.ps) ∈
      (canonHeap c c.Segment.InitialOffset G).flatMap segment.Close := by
    refine List.mem_flatMap.2 ⟨t, ht, ?_⟩
    have : t.index.Close = entries 0 0 g.ps := by rw [ht']; exact index_Close_canon _ _ _
    simp [segment.Close, this]
  have h := newSegment_reopen c _ t.baseOffset g hv hpos (hb64 t ht) (hfit g hg) (h32 g hg)
    (lookup_of_mem_nodup _ _ _ hmem1 hnd) (lookup_of_mem_nodup _ _ _ hmem2 hnd)
  rw [← ht'] at h
  exact h


/-- Reopening the directory a canonical log leaves behind gives the same log, every
store flushed. -/
theorem NewLog_reopen (c : Config) (G : List SegContent) (hv : c.withDefaults.valid)
    (hG : G ≠ [])
    (hnw : c.withDefaults.Segment.InitialOffset + totalRecords G < 2 ^ 64)
    (hne : ∀ g ∈ G.dropLast, g.ps ≠ []) (hfit : ∀ g ∈ G, g.fits c.withDefaults)
    (h32 : ∀ g ∈ G, g.ps.length ≤ 2 ^ 32) :
    NewLog (canonLog c.withDefaults G).Close c =
      .ok { canonLog c.withDefaults G with
        Dir := (canonLog c.withDefaults G).Close,
        heap := (canonLog c.withDefaults G).heap.map
          (fun s => { s with store := s.store.Flush }) } := by
  obtain ⟨_, hpos, _, _⟩ := withDefaults_fields c
  obtain ⟨hp, hb⟩ := canonHeap_bases c.withDefaults G c.withDefaults.Segment.InitialOffset hnw hne
  have hb64 : ∀ s ∈ canonHeap c.withDefaults c.withDefaults.Segment.InitialOffset G,
      s.baseOffset < 2 ^ 64 := by
    intro s hs
    have := (hb s hs).2
    omega
  have heach := reopen_each c.withDefaults G hv hpos hnw hne hfit h32
  have hnew : ∀ s ∈ (canonHeap c.withDefaults c.withDefaults.Segment.InitialOffset G).map
      (fun s => ({ s with store := s.store.Flush } : segment)),
      newSegment ((canonHeap c.withDefaults c.withDefaults.Segment.InitialOffset G).flatMap
        segment.Close) s.baseOffset c.withDefaults = .ok s := by
    intro s hs
    obtain ⟨t, ht, rfl⟩ := List.mem_map.1 hs
    exact heach t ht
  have hdup : (canonHeap c.withDefaults c.withDefaults.Segment.InitialOffset G).flatMap
      (fun s => [s.baseOffset, s.baseOffset]) =
      ((canonHeap c.withDefaults c.withDefaults.Segment.InitialOffset G).map
        (fun s => ({ s with store := s.store.Flush } : segment))).flatMap
          (fun s => [s.baseOffset, s.baseOffset]) := by
    rw [flatMap_map_eq]
  have hloop := setupLoop_reopen _ c.withDefaults _ hnew
    (Log.mk ((canonHeap c.withDefaults c.withDefaults.Segment.InitialOffset G).flatMap
      segment.Close) c.withDefaults [] none []) rfl rfl
  have hlen : 0 < G.length := List.length_pos.2 hG
  rw [NewLog_eq, canonLog_Close]
  simp only [Log.setup]
  rw [scanBaseOffsets_Close _ hb64, List.Sorted.insertionSort_eq (doubled_sorted _ hp), hdup,
    hloop]
  simp only [List.nil_append, List.length_nil, List.length_map, canonHeap_length, Nat.zero_add,
    ← List.range_eq_range', List.isEmpty_eq_true, List.range_eq_nil]
  have hG0 : ¬ (G.length = 0) := by omega
  have hmap : ¬ ((canonHeap c.withDefaults c.withDefaults.Segment.InitialOffset G).map
      (fun s => ({ s with store := s.store.Flush } : segment)) = []) := by
    intro h
    have := congrArg List.length h
    simp at this
    exact hG this
  simp only [hG0, hmap, if_false]
  rfl

/-! ## A reopened log answers as the log did -/

theorem store_Read_Flush (s : store) (pos : Nat) : s.Flush.Read pos = s.Read pos := by
  have h : s.Flush.Flush = s.Flush := by simp [store.Flush]
  simp only [store.Read, h]

theorem segment_Read_flushed (cd : Codec) (s : segment) (o : Nat) :
    (s.flushed.Read cd o).1 = (s.Read cd o).1 := by
  simp only [segment.Read, segment.flushed, store_Read_Flush]
  cases s.index.Read (toInt64 ((o + 2 ^ 64 - s.baseOffset) % 2 ^ 64)) with
  | error e => rfl
  | ok v =>
    obtain ⟨_, pos⟩ := v
    cases h : s.store.Read pos with
    | mk r st =>
      cases r with
      | error e => rfl
      | ok p =>
        cases cd.unmarshal p <;> rfl

theorem reopened_segs (l : Log) : l.reopened.segs = l.segs.map segment.flushed := by
  simp only [Log.segs, Log.reopened, List.getElem?_map, List.map_filterMap]

theorem reopened_LowestOffset (l : Log) : l.reopened.LowestOffset = l.LowestOffset := by
  simp only [Log.LowestOffset, reopened_segs]
  cases l.segs with
  | nil => rfl
  | cons s ss => rfl

theorem reopened_HighestOffset (l : Log) : l.reopened.HighestOffset = l.HighestOffset := by
  simp only [Log.HighestOffset, reopened_segs, List.getLast?_map]
  cases l.segs.getLast? with
  | none => rfl
  | some s => rfl

theorem reopened_findSegment (l : Log) (o : Nat) :
    l.reopened.findSegment o = (l.findSegment o).map (fun ps => (ps.1, ps.2.flushed)) := by
  simp only [Log.findSegment, Log.reopened, List.getElem?_map]
  induction l.segments with
  | nil => rfl
  | cons p ps ih =>
    simp only [List.findSome?_cons]
    cases hp : l.heap[p]? with
    | none => simpa using ih
    | some s =>
      simp only [Option.map_some', Option.bind, segment.flushed]
      by_cases hc : s.baseOffset ≤ o ∧ o < s.nextOffset
      · simp [hc]
      · simpa [hc] using ih

theorem reopened_Read (cd : Codec) (l : Log) (o : Nat) :
    (l.reopened.Read cd o).1 = (l.Read cd o).1 := by
  rw [Log_Read_fst, Log_Read_fst, reopened_findSegment]
  cases l.findSegment o with
  | none => rfl
  | some ps =>
    obtain ⟨p, s⟩ := ps
    simp only [Option.map_some']
    have hn : s.flushed.nextOffset = s.nextOffset := rfl
    rw [hn, segment_Read_flushed]

theorem dropLast_all (L : LogContent) : L.all.dropLast = L.older := by
  simp [LogContent.all]

/-- C5 (amended): for a log built from a fresh log over an empty directory by `Append`
calls, with offsets that have not wrapped around `2 ^ 64` and relative offsets that fit in
32 bits, closing it and calling `NewLog` on the directory it leaves, with the same
configuration, succeeds and gives a log with the same `LowestOffset()` and
`HighestOffset()` whose `Read(o)` returns what `Read(o)` returned before, at every
offset; it is the old log with every store flushed. -/
theorem Log_restart (cd : Codec) (c : Config) (l0 : Log) (rs : List Record)
    (hu : c.isUint64) (hlen : cd.sliceSized) (h0 : NewLog [] c = .ok l0)
    (hidx : c.Segment.MaxIndexBytes ≤ 12 * 2 ^ 32)
    (hnw : c.Segment.InitialOffset + okCount (l0.AppendAll cd rs).1 < 2 ^ 64) :
    ∃ l1, NewLog (l0.AppendAll cd rs).2.Close c = .ok l1 ∧
      l1 = (l0.AppendAll cd rs).2.reopened ∧
      l1.LowestOffset = (l0.AppendAll cd rs).2.LowestOffset ∧
      l1.HighestOffset = (l0.AppendAll cd rs).2.HighestOffset ∧
      ∀ o, (l1.Read cd o).1 = ((l0.AppendAll cd rs).2.Read cd o).1 := by
  obtain ⟨hv, hall, hOK⟩ := reach_canon cd c l0 rs hu hlen h0
  obtain ⟨_, _, _, hI⟩ := withDefaults_fields c
  have hidx' := withDefaults_index_le c _ (by norm_num) hidx
  have htot := LogContent_AppendAll_total cd c.withDefaults rs LogContent.fresh
  have hfr : totalRecords LogContent.fresh.all = 0 := rfl
  rw [hall] at hnw ⊢
  simp only at hnw ⊢
  generalize (LogContent.fresh.AppendAll cd c.withDefaults rs).2 = L at *
  generalize (LogContent.fresh.AppendAll cd c.withDefaults rs).1 = res at *
  have hre := NewLog_reopen c L.all hv (by simp [LogContent.all]) (by omega)
    (by rw [dropLast_all]; exact fun g hg => (hOK.fitsOlder g hg).2.1)
    (OK_fits_all hOK) (fun g hg => fits_lt_pow32 (OK_fits_all hOK g hg) hidx')
  refine ⟨_, hre, rfl, ?_, ?_, ?_⟩
  · exact reopened_LowestOffset _
  · exact reopened_HighestOffset _
  · exact fun o => reopened_Read cd _ o

set_option maxRecDepth 100000 in
theorem Log_restart_witness :
    ∃ l1, NewLog ((canonLog testConfig.withDefaults LogContent.fresh.all).AppendAll protoCodec
        [helloRecord, helloRecord, helloRecord]).2.Close testConfig = .ok l1 ∧
      l1 = ((canonLog testConfig.withDefaults LogContent.fresh.all).AppendAll protoCodec
        [helloRecord, helloRecord, helloRecord]).2.reopened ∧
      l1.LowestOffset = ((canonLog testConfig.withDefaults LogContent.fresh.all).AppendAll
        protoCodec [helloRecord, helloRecord, helloRecord]).2.LowestOffset ∧
      l1.HighestOffset = ((canonLog testConfig.withDefaults LogContent.fresh.all).AppendAll
        protoCodec [helloRecord, helloRecord, helloRecord]).2.HighestOffset ∧
      ∀ o, (l1.Read protoCodec o).1 =
        (((canonLog testConfig.withDefaults LogContent.fresh.all).AppendAll protoCodec
          [helloRecord, helloRecord, helloRecord]).2.Read protoCodec o).1 :=
  Log_restart protoCodec testConfig (canonLog testConfig.withDefaults LogContent.fresh.all)
    [helloRecord, helloRecord, helloRecord] (by decide) protoCodec_sliceSized
    (NewLog_empty testConfig (by decide)) (by decide) (by decide)

set_option maxRecDepth 100000 in
/-- C5 fails when offsets wrap: with `InitialOffset = 2 ^ 64 - 1` and a rotation after
the first append, the log holds the segments with base offsets `2 ^ 64 - 1` and `0`, in
that order, and `LowestOffset()` is `2 ^ 64 - 1`; `NewLog` on the closed directory sorts
the base offsets and puts the segment at `0` first, so `LowestOffset()` is `0`. -/
theorem Log_restart_reorders_wrapped :
    NewLog [] wrapRotateConfig =
        .ok (canonLog wrapRotateConfig.withDefaults LogContent.fresh.all) ∧
      ((canonLog wrapRotateConfig.withDefaults LogContent.fresh.all).Append protoCodec
        helloRecord).1 = .ok (2 ^ 64 - 1) ∧
      ((canonLog wrapRotateConfig.withDefaults LogContent.fresh.all).Append protoCodec
        helloRecord).2.2.LowestOffset = .ok (2 ^ 64 - 1) ∧
      (NewLog ((canonLog wrapRotateConfig.withDefaults LogContent.fresh.all).Append protoCodec
        helloRecord).2.2.Close wrapRotateConfig).map (fun l => l.LowestOffset) =
          .ok (.ok 0) :=
  ⟨NewLog_empty wrapRotateConfig (by decide), by decide, by decide, by decide⟩

/-! ## store.go: reading back what was appended -/

theorem newStore_consistent (f : Bytes) : (newStore f).consistent := by
  simp [store.consistent, newStore]

theorem store_Append_consistent (s : store) (p : Bytes) (h : s.consistent) :
    (s.Append p).2.consistent := by
  unfold store.consistent at *
  simp [store_Append_eq, h, lenWidth]
  omega

theorem store_Read_snd (s : store) (pos : Nat) : (s.Read pos).2 = s.Flush := by
  simp only [store.Read]
  rcases fileReadAt s.Flush.file lenWidth pos with ⟨size, _ | e⟩
  · simp only []
    split
    · rfl
    · rcases fileReadAt s.Flush.file (beUint size) (pos + lenWidth) with ⟨b, _ | e⟩ <;> rfl
  · rfl

theorem store_Read_consistent (s : store) (pos : Nat) (h : s.consistent) :
    (s.Read pos).2.consistent := by
  rw [store_Read_snd]
  unfold store.consistent at *
  simp [store.Flush, h]

theorem store_AppendAll_data (ps : List Bytes) (s : store) :
    (s.AppendAll ps).2.file = s.file ∧ (s.AppendAll ps).2.buf = s.buf ++ frames ps := by
  induction ps generalizing s with
  | nil => simp [store.AppendAll, frames]
  | cons p ps ih =>
    obtain ⟨h1, h2⟩ := ih (s.Append p).2
    simp only [store.AppendAll]
    refine ⟨by rw [h1]; rfl, ?_⟩
    rw [h2]
    simp [store_Append_eq, frames, frame]

theorem store_Read_short (s : store) (pos : Nat)
    (h : (s.file ++ s.buf).length < pos + lenWidth) : (s.Read pos).1 = .error Error.EOF := by
  have hw : lenWidth = 8 := rfl
  rw [hw] at h
  have hl2 : (((s.file ++ s.buf).drop pos).take 8).length < 8 := by
    rw [List.length_take, List.length_drop]; omega
  have h1 : fileReadAt (s.file ++ s.buf) 8 pos =
      (((s.file ++ s.buf).drop pos).take 8, some Error.EOF) := by
    simp only [fileReadAt]
    rw [if_neg (by decide), if_pos hl2]
  simp only [store.Read, store.Flush, hw, h1]

theorem store_Read_payload_short (s : store) (pos : Nat)
    (h : (s.file ++ s.buf).length <
      pos + lenWidth + beUint (((s.file ++ s.buf).drop pos).take lenWidth)) :
    ∃ e, (s.Read pos).1 = .error e ∧
      (beUint (((s.file ++ s.buf).drop pos).take lenWidth) < 2 ^ 63 → e = Error.EOF) := by
  have hw : lenWidth = 8 := rfl
  by_cases h8 : (s.file ++ s.buf).length < pos + lenWidth
  · exact ⟨_, store_Read_short s pos h8, fun _ => rfl⟩
  · rw [hw] at h h8 ⊢
    have hl2 : ¬ ((((s.file ++ s.buf).drop pos).take 8).length < 8) := by
      rw [List.length_take, List.length_drop]; omega
    have h1 : fileReadAt (s.file ++ s.buf) 8 pos =
        (((s.file ++ s.buf).drop pos).take 8, none) := by
      simp only [fileReadAt]
      rw [if_neg (by decide), if_neg hl2]
    generalize hn : beUint (((s.file ++ s.buf).drop pos).take 8) = n at h
    by_cases hbig : 2 ^ 63 ≤ n
    · refine ⟨Error.runtimePanic, ?_, fun hlt => absurd hbig (by omega)⟩
      simp only [store.Read, store.Flush, hw, h1, hn, hbig, if_true]
    · refine ⟨Error.EOF, ?_, fun _ => rfl⟩
      have hn0 : ¬ (n = 0) := by omega
      have hl3 : (((s.file ++ s.buf).drop (pos + 8)).take n).length < n := by
        rw [List.length_take, List.length_drop]; omega
      have h2 : fileReadAt (s.file ++ s.buf) n (pos + 8) =
          (((s.file ++ s.buf).drop (pos + 8)).take n, some Error.EOF) := by
        simp only [fileReadAt]
        rw [if_neg hn0, if_pos hl3]
      simp only [store.Read, store.Flush, hw, h1, hn, hbig, if_false, h2]

/-- C11 (amended): on a store whose size counts its written bytes, `Append(p)` returns the
position `pos` at which `Read(pos)` returns exactly `p`: at once, with nothing flushed
before, after any later appends, and from a new store created over the file once the
first store has flushed its buffer, through a `Read` or through `Close`. On any store,
`Read(q)` fails when the written data ends before `q + 8`, or before the end of the
payload that the 8 bytes at `q` announce. -/
theorem store_Append_then_Read (s : store) (p : Bytes) (later : List Bytes) (t : store)
    (q : Nat) (hs : s.consistent) (hp : p.length < 2 ^ 63) :
    (∃ n pos s1, s.Append p = (.ok (n, pos), s1) ∧
      (s1.Read pos).1 = .ok p ∧
      ((s1.AppendAll later).2.Read pos).1 = .ok p ∧
      ((newStore ((s1.AppendAll later).2.Read pos).2.file).Read pos).1 = .ok p ∧
      ((newStore (s1.AppendAll later).2.Close).Read pos).1 = .ok p) ∧
    ((t.file ++ t.buf).length < q + lenWidth → ∃ e, (t.Read q).1 = .error e) ∧
    ((t.file ++ t.buf).length <
        q + lenWidth + beUint (((t.file ++ t.buf).drop q).take lenWidth) →
      ∃ e, (t.Read q).1 = .error e) := by
  refine ⟨⟨_, _, _, store_Append_eq s p, ?_, ?_, ?_, ?_⟩,
    fun h => ⟨_, store_Read_short t q h⟩,
    fun h => (store_Read_payload_short t q h).imp (fun _ he => he.1)⟩
  all_goals
    have hpos : (s.file ++ s.buf).length = s.size := by
      rw [List.length_append]; exact hs.symm
    obtain ⟨hf, hb⟩ := store_AppendAll_data later
      { s with buf := s.buf ++ PutUint64 p.length ++ p, size := s.size + (p.length + lenWidth) }
    simp only at hf hb
    generalize (store.AppendAll (store.mk s.file (s.buf ++ PutUint64 p.length ++ p)
      (s.size + (p.length + lenWidth))) later).2 = S2 at hf hb ⊢
  · have e := store_Read_frame
      { s with buf := s.buf ++ PutUint64 p.length ++ p, size := s.size + (p.length + lenWidth) }
      (s.file ++ s.buf) [] p hp (by simp [frame])
    rw [hpos] at e
    rw [e]
  · have e := store_Read_frame S2 (s.file ++ s.buf) (frames later) p hp
      (by rw [hf, hb]; simp [frame])
    rw [hpos] at e
    rw [e]
  · rw [store_Read_snd]
    have e := store_Read_frame (newStore S2.Flush.file) (s.file ++ s.buf) (frames later)
      p hp (by simp only [newStore, store.Flush, hf, hb]; simp [frame])
    rw [hpos] at e
    rw [e]
  · have e := store_Read_frame (newStore S2.Close) (s.file ++ s.buf) (frames later)
      p hp (by simp only [newStore, store.Close, store.Flush, hf, hb]; simp [frame])
    rw [hpos] at e
    rw [e]

theorem store_Append_then_Read_witness :
    (newStore [1, 2, 3]).consistent ∧ helloWorld.length < 2 ^ 63 ∧
    (∃ n pos s1, (newStore [1, 2, 3]).Append helloWorld = (.ok (n, pos), s1) ∧
      (s1.Read pos).1 = .ok helloWorld ∧
      ((s1.AppendAll [helloWorld, []]).2.Read pos).1 = .ok helloWorld ∧
      ((newStore ((s1.AppendAll [helloWorld, []]).2.Read pos).2.file).Read pos).1 =
        .ok helloWorld ∧
      ((newStore (s1.AppendAll [helloWorld, []]).2.Close).Read pos).1 = .ok helloWorld) ∧
    (∃ e, ((newStore [0, 0, 0, 0, 0, 0, 0, 2, 7]).Read 5).1 = .error e) ∧
    (∃ e, ((newStore [0, 0, 0, 0, 0, 0, 0, 2, 7]).Read 0).1 = .error e) :=
  ⟨newStore_consistent _, by decide,
    (store_Append_then_Read (newStore [1, 2, 3]) helloWorld [helloWorld, []]
      (newStore [0, 0, 0, 0, 0, 0, 0, 2, 7]) 0 (newStore_consistent _) (by decide)).1,
    (store_Append_then_Read (newStore [1, 2, 3]) helloWorld [helloWorld, []]
      (newStore [0, 0, 0, 0, 0, 0, 0, 2, 7]) 5 (newStore_consistent _) (by decide)).2.1
      (by decide),
    (store_Append_then_Read (newStore [1, 2, 3]) helloWorld [helloWorld, []]
      (newStore [0, 0, 0, 0, 0, 0, 0, 2, 7]) 0 (newStore_consistent _) (by decide)).2.2
      (by decide)⟩

/-- C11 fails for a new store created before the first one has flushed: after
`Append("hello world")` on a store over an empty file the 19 bytes are still in the
buffer of that store, a second store over the same file finds it empty, and its `Read(0)`
returns `io.EOF`. -/
theorem store_Read_new_store_before_flush :
    ((newStore []).Append helloWorld).1 = .ok (19, 0) ∧
      ((newStore []).Append helloWorld).2.file = [] ∧
      ((newStore ((newStore []).Append helloWorld).2.file).Read 0).1 = .error Error.EOF := by
  decide

/-! ## index.go: reading past the written entries -/

theorem index_Read_beyond (i : index) (n : Int) (hn : n ≠ -1)
    (h : i.size / entWidth ≤ toUint32 n) : i.Read n = .error Error.EOF := by
  have hlt : i.size < toUint32 n * entWidth + entWidth := by
    rw [entWidth_eq] at h ⊢
    omega
  simp only [index.Read, hn, if_false, hlt, if_true]
  split <;> rfl

theorem index_Read_no_entries (i : index) (n : Int) (h : i.size / entWidth = 0) :
    i.Read n = .error Error.EOF := by
  rw [entWidth_eq] at h
  by_cases hn : n = -1
  · have hlt : i.size < (i.size / entWidth + (2 ^ 32 - 1)) % 2 ^ 32 * entWidth + entWidth := by
      rw [entWidth_eq, h]
      omega
    simp only [index.Read, hn, if_true, hlt]
    split <;> rfl
  · exact index_Read_beyond i n hn (by rw [entWidth_eq, h]; exact Nat.zero_le _)

/-- C12 (amended): `Read(in)` returns `io.EOF` when the index has no entries, and for every
`in` other than -1 it returns `io.EOF` whenever entry number `uint32(in)`, the low 32 bits
of `in`, is not below `size / 12`; for `0 ≤ in < 2 ^ 32` that is whenever `in` is not below
`size / 12`. -/
theorem index_Read_EOF (i : index) (n : Int)
    (h : i.size / entWidth = 0 ∨
      (n ≠ -1 ∧ 0 ≤ n ∧ n < 2 ^ 32 ∧ ¬ (n < ((i.size / entWidth : Nat) : Int))) ∨
      (n ≠ -1 ∧ ¬ (toUint32 n < i.size / entWidth))) :
    i.Read n = .error Error.EOF := by
  rcases h with h | ⟨hn, h0, h32, h⟩ | ⟨hn, h⟩
  · exact index_Read_no_entries i n h
  · refine index_Read_beyond i n hn ?_
    unfold toUint32
    omega
  · exact index_Read_beyond i n hn (by omega)

theorem index_Read_EOF_witness :
    (oneEntryIndex.size / entWidth = 0 ∨
      ((1 : Int) ≠ -1 ∧ (0 : Int) ≤ 1 ∧ (1 : Int) < 2 ^ 32 ∧
        ¬ ((1 : Int) < ((oneEntryIndex.size / entWidth : Nat) : Int))) ∨
      ((1 : Int) ≠ -1 ∧ ¬ (toUint32 1 < oneEntryIndex.size / entWidth))) ∧
    oneEntryIndex.Read 1 = .error Error.EOF :=
  ⟨Or.inr (Or.inl (by decide)), index_Read_EOF oneEntryIndex 1 (Or.inr (Or.inl (by decide)))⟩

/-- C12 fails for an entry number that is no `uint32`: on an index with one entry,
`Read(2 ^ 32)` converts its argument with `uint32(in)` to 0 and returns entry 0, although
`2 ^ 32` is not in the range `0 ≤ in < size / 12 = 1`. -/
theorem index_Read_truncates_entry_number :
    oneEntryIndex.size / 12 = 1 ∧ ¬ ((4294967296 : Int) < 1) ∧
      oneEntryIndex.Read 4294967296 = .ok (0, 0) := by
  decide

/-! ## index.go: writing an entry and reading it back -/

theorem index_Write_eq (i : index) (off pos : Nat) (h : i.size + entWidth ≤ i.mmap.length) :
    i.Write off pos = (.ok (), index.mk
      (i.mmap.take i.size ++ (PutUint32 off ++ PutUint64 pos) ++ i.mmap.drop (i.size + entWidth))
      (i.size + entWidth)) := by
  rw [entWidth_eq] at h
  have hlt : ¬ (i.mmap.length < i.size + entWidth) := by rw [entWidth_eq]; omega
  have hA : (i.mmap.take i.size).length = i.size := by rw [List.length_take]; omega
  have e1 : writeAt i.mmap i.size (PutUint32 off) =
      (i.mmap.take i.size ++ PutUint32 off) ++ i.mmap.drop (i.size + 4) := by
    simp [writeAt]
  have e2 : writeAt ((i.mmap.take i.size ++ PutUint32 off) ++ i.mmap.drop (i.size + 4))
      (i.size + offWidth) (PutUint64 pos) =
      i.mmap.take i.size ++ (PutUint32 off ++ PutUint64 pos) ++ i.mmap.drop (i.size + entWidth) := by
    have h4 : i.size + offWidth = (i.mmap.take i.size ++ PutUint32 off).length := by
      simp [offWidth]; omega
    rw [h4, writeAt_append]
    simp [entWidth_eq, Nat.add_assoc]
  simp only [index.Write, hlt, if_false, e1, e2]

theorem slice_take_eq (m m1 : Bytes) (s lo hi : Nat) (h : m1.take s = m.take s)
    (hs : hi ≤ s) (hl : s ≤ m.length) (hl1 : s ≤ m1.length) :
    slice m1 lo hi = slice m lo hi := by
  have key : ∀ x : Bytes, s ≤ x.length →
      slice x lo hi = if lo ≤ hi then some (((x.take s).drop lo).take (hi - lo)) else none := by
    intro x hx
    unfold slice
    by_cases hlo : lo ≤ hi
    · have : hi ≤ x.length := by omega
      simp only [hlo, this, and_self, if_true]
      congr 1
      rw [List.drop_take, List.take_take]
      congr 1
      omega
    · simp [hlo]
  rw [key m hl, key m1 hl1, h]

theorem index_Read_agree (i i1 : index) (n : Int) (k : Nat)
    (hk : (if n = -1 then (i.size / entWidth + (2 ^ 32 - 1)) % 2 ^ 32 else toUint32 n) = k)
    (hk1 : (if n = -1 then (i1.size / entWidth + (2 ^ 32 - 1)) % 2 ^ 32 else toUint32 n) = k)
    (hin : k * entWidth + entWidth ≤ i.size) (hs : i.size ≤ i1.size)
    (hl : i.size ≤ i.mmap.length) (hl1 : i.size ≤ i1.mmap.length)
    (hm : i1.mmap.take i.size = i.mmap.take i.size) :
    i1.Read n = i.Read n := by
  rw [entWidth_eq] at hin
  have h0 : ¬ (i.size = 0) := by omega
  have h01 : ¬ (i1.size = 0) := by omega
  have hlt : ¬ (i.size < k * entWidth + entWidth) := by rw [entWidth_eq]; omega
  have hlt1 : ¬ (i1.size < k * entWidth + entWidth) := by rw [entWidth_eq]; omega
  have s1 := slice_take_eq i.mmap i1.mmap i.size (k * entWidth) (k * entWidth + offWidth) hm
    (by rw [entWidth_eq]; simp only [offWidth]; omega) hl hl1
  have s2 := slice_take_eq i.mmap i1.mmap i.size (k * entWidth + offWidth)
    (k * entWidth + entWidth) hm (by rw [entWidth_eq]; omega) hl hl1
  simp only [index.Read, h0, h01, if_false, hk, hk1, hlt, hlt1, s1, s2]

/-- C13 (amended): for every index whose size `s` is a multiple of 12 with `s / 12 < 2 ^ 32`
and `s + 12 ≤ len(mmap)`, `Write(off, pos)` succeeds, stores `off` as 4 big-endian bytes at
`s` and `pos` as 8 big-endian bytes at `s + 4`, changes no other byte and sets the size to
`s + 12`; afterwards `Read(s / 12)` and `Read(-1)` both return `(off, pos)`, and `Read(j)`
for every earlier entry `j < s / 12` returns what it returned before the write. -/
theorem index_Write_then_Read (i : index) (off pos : Nat)
    (hroom : i.size + entWidth ≤ i.mmap.length)
    (hal : i.size % entWidth = 0) (h32 : i.size / entWidth < 2 ^ 32)
    (hoff : off < 2 ^ 32) (hpos : pos < 2 ^ 64) :
    ∃ i1, i.Write off pos = (.ok (), i1) ∧
      slice i1.mmap i.size (i.size + 4) = some (PutUint32 off) ∧
      slice i1.mmap (i.size + 4) (i.size + 12) = some (PutUint64 pos) ∧
      i1.mmap.take i.size = i.mmap.take i.size ∧
      i1.mmap.drop (i.size + 12) = i.mmap.drop (i.size + 12) ∧
      i1.size = i.size + 12 ∧
      i1.Read ((i.size / entWidth : Nat) : Int) = .ok (off, pos) ∧
      i1.Read (-1) = .ok (off, pos) ∧
      ∀ j : Nat, j < i.size / entWidth → i1.Read (j : Int) = i.Read (j : Int) := by
  rw [entWidth_eq] at hroom hal h32
  have hA : (i.mmap.take i.size).length = i.size := by rw [List.length_take]; omega
  have hk : (i.mmap.take i.size).length = entWidth * (i.size / entWidth) := by
    rw [hA, entWidth_eq]; omega
  have hlast : index.Read (index.mk (i.mmap.take i.size ++ (PutUint32 off ++ PutUint64 pos) ++
      i.mmap.drop (i.size + entWidth)) (i.size + entWidth)) ((i.size / entWidth : Nat) : Int) =
      .ok (off, pos) := by
    have h := index_Read_at _ (i.size + entWidth) (i.size / entWidth) off pos
      (i.mmap.take i.size) (i.mmap.drop (i.size + entWidth)) rfl hk
      (by rw [entWidth_eq]; omega) (by rw [entWidth_eq]; exact h32)
    rw [Nat.mod_eq_of_lt hoff, Nat.mod_eq_of_lt hpos] at h
    exact h
  refine ⟨_, index_Write_eq i off pos (by rw [entWidth_eq]; exact hroom), ?_, ?_, ?_, ?_, rfl,
    hlast, ?_, ?_⟩
  · have := slice_mid (i.mmap.take i.size) (PutUint32 off)
      (PutUint64 pos ++ i.mmap.drop (i.size + entWidth))
    simpa [hA] using this
  · have := slice_mid (i.mmap.take i.size ++ PutUint32 off) (PutUint64 pos)
      (i.mmap.drop (i.size + entWidth))
    simpa [hA, Nat.add_assoc] using this
  · simp only [List.append_assoc]
    rw [List.take_append_eq_append_take, hA]
    simp
  · have hd : (i.mmap.take i.size).drop (i.size + 12) = [] :=
      List.drop_eq_nil_of_le (by rw [hA]; omega)
    have hd2 : (PutUint32 off ++ PutUint64 pos).drop 12 = [] := rfl
    have e : i.size + 12 - i.size = 12 := by omega
    simp only [List.append_assoc, entWidth_eq]
    rw [List.drop_append_eq_append_drop, hA, e, hd, List.nil_append, ← List.append_assoc,
      List.drop_append_eq_append_drop, hd2]
    simp
  · rw [index_Read_minus_one _ (i.size / entWidth) (by rw [entWidth_eq]; exact h32)
      (by simp only [entWidth_eq]; omega)]
    exact hlast
  · intro j hj
    rw [entWidth_eq] at hj
    have hj32 : j < 2 ^ 32 := by omega
    have hne : ¬ ((j : Int) = -1) := by omega
    refine index_Read_agree i _ (j : Int) j ?_ ?_ ?_ ?_ ?_ ?_ ?_
    · simp only [hne, if_false, toUint32_natCast j hj32]
    · simp only [hne, if_false, toUint32_natCast j hj32]
    · rw [entWidth_eq]; omega
    · simp
    · omega
    · simp only [List.length_append, hA]; omega
    · simp only [List.append_assoc]
      rw [List.take_append_eq_append_take, hA]
      simp

theorem index_Write_then_Read_witness :
    oneEntryIndex.size + entWidth ≤ oneEntryIndex.mmap.length ∧
      oneEntryIndex.size % entWidth = 0 ∧ oneEntryIndex.size / entWidth < 2 ^ 32 ∧
      1 < 2 ^ 32 ∧ 19 < 2 ^ 64 ∧
      ∃ i1, oneEntryIndex.Write 1 19 = (.ok (), i1) ∧
        slice i1.mmap oneEntryIndex.size (oneEntryIndex.size + 4) = some (PutUint32 1) ∧
        slice i1.mmap (oneEntryIndex.size + 4) (oneEntryIndex.size + 12) =
          some (PutUint64 19) ∧
        i1.mmap.take oneEntryIndex.size = oneEntryIndex.mmap.take oneEntryIndex.size ∧
        i1.mmap.drop (oneEntryIndex.size + 12) =
          oneEntryIndex.mmap.drop (oneEntryIndex.size + 12) ∧
        i1.size = oneEntryIndex.size + 12 ∧
        i1.Read ((oneEntryIndex.size / entWidth : Nat) : Int) = .ok (1, 19) ∧
        i1.Read (-1) = .ok (1, 19) ∧
        ∀ j : Nat, j < oneEntryIndex.size / entWidth →
          i1.Read (j : Int) = oneEntryIndex.Read (j : Int) :=
  ⟨by decide, by decide, by decide, by decide, by decide,
    index_Write_then_Read oneEntryIndex 1 19 (by decide) (by decide) (by decide) (by decide)
      (by decide)⟩

/-- C13 fails for a size that is no multiple of 12: on an index of size 5 with room for
the entry, `Write(7, 9)` succeeds and leaves the size at 17, but `Read(5 / 12)` and
`Read(-1)` both read the 12 bytes at position 0 and return `(0, 117440512)`, not `(7, 9)`. -/
theorem index_Write_misaligned :
    misalignedIndex.size + 12 ≤ misalignedIndex.mmap.length ∧
      (misalignedIndex.Write 7 9).1 = .ok () ∧
      (misalignedIndex.Write 7 9).2.size = 17 ∧
      (misalignedIndex.Write 7 9).2.Read ((5 / 12 : Nat) : Int) = .ok (0, 117440512) ∧
      (misalignedIndex.Write 7 9).2.Read (-1) = .ok (0, 117440512) := by
  decide

/-! ## A fresh segment and its index capacity -/

theorem newSegment_fresh (dir : Directory) (b : Nat) (c : Config)
    (hst : openFile dir (segmentFileName b storeExt) = [])
    (hix : openFile dir (segmentFileName b indexExt) = []) :
    newSegment dir b c = newSegment [] b c := by
  have e1 : openFile ([] : Directory) (segmentFileName b storeExt) = [] := rfl
  have e2 : openFile ([] : Directory) (segmentFileName b indexExt) = [] := rfl
  simp only [newSegment, hst, hix, e1, e2]

theorem newIndex_ok_bound (f : Bytes) (c : Config) (i : index) (h : newIndex f c = .ok i) :
    c.Segment.MaxIndexBytes < 2 ^ 63 ∧ 0 < c.Segment.MaxIndexBytes ∧
      i.mmap.length = c.Segment.MaxIndexBytes ∧ i.size = f.length := by
  by_cases h1 : 2 ^ 63 ≤ c.Segment.MaxIndexBytes
  · simp only [newIndex, h1, if_true] at h
    cases h
  · by_cases h2 : (truncateFile f c.Segment.MaxIndexBytes).length = 0
    · simp only [newIndex, h1, if_false, h2, if_true] at h
      cases h
    · simp only [newIndex, h1, if_false, h2, Except.ok.injEq] at h
      have hl : (truncateFile f c.Segment.MaxIndexBytes).length = c.Segment.MaxIndexBytes := by
        simp only [truncateFile, List.length_append, List.length_take, List.length_replicate]
        omega
      subst h
      exact ⟨by omega, by omega, hl, rfl⟩

theorem newSegment_ok_bound (dir : Directory) (b : Nat) (c : Config) (s : segment)
    (h : newSegment dir b c = .ok s) :
    c.Segment.MaxIndexBytes < 2 ^ 63 ∧ 0 < c.Segment.MaxIndexBytes := by
  unfold newSegment at h
  cases hi : newIndex (openFile dir (segmentFileName b indexExt)) c with
  | error e => simp [hi] at h
  | ok i => exact ⟨(newIndex_ok_bound _ c i hi).1, (newIndex_ok_bound _ c i hi).2.1⟩

theorem marshalFrom_length (cd : Codec) (rs : List Record) :
    ∀ n, (marshalFrom cd n rs).length = rs.length := by
  induction rs with
  | nil => intro n; rfl
  | cons r rs ih => intro n; simp [marshalFrom, ih]

theorem marshalFrom_take (cd : Codec) (rs : List Record) (j : Nat) :
    ∀ n, marshalFrom cd n (rs.take j) = (marshalFrom cd n rs).take j := by
  induction rs generalizing j with
  | nil => intro n; simp [marshalFrom]
  | cons r rs ih =>
    intro n
    cases j with
    | zero => simp [marshalFrom]
    | succ j => simp [marshalFrom, ih]

theorem segment_AppendAll_fit (cd : Codec) (c : Config) (b : Nat) (hb : b < 2 ^ 64)
    (h63 : c.Segment.MaxIndexBytes < 2 ^ 63) (rs : List Record) :
    ∀ (ps : List Bytes) (g : SegContent), g.junk = [] →
      marshalFrom cd ((b + g.ps.length) % 2 ^ 64) rs = ps.map some →
      entWidth * (g.ps.length + rs.length) ≤ c.Segment.MaxIndexBytes →
      (canonSeg c b g).AppendAll cd rs =
        ((List.range rs.length).map (fun i => Except.ok ((b + g.ps.length + i) % 2 ^ 64)),
          canonSeg c b ⟨g.ps ++ ps, []⟩) := by
  induction rs with
  | nil =>
    intro ps g hj hm _
    cases ps with
    | nil =>
      cases g
      simp only at hj
      simp [segment.AppendAll, hj]
    | cons p ps => simp [marshalFrom] at hm
  | cons r rs ih =>
    intro ps g hj hm hroom
    cases ps with
    | nil => simp [marshalFrom] at hm
    | cons p ps =>
      simp only [marshalFrom, List.map_cons, List.cons.injEq] at hm
      rw [entWidth_eq] at hroom
      simp only [List.length_cons] at hroom
      have hap := segment_Append_ok cd c b g r p hm.1 hb (by omega) hj
        (by rw [entWidth_eq]; omega)
      have e1 : ((b + g.ps.length) % 2 ^ 64 + 1) % 2 ^ 64 = (b + (g.ps.length + 1)) % 2 ^ 64 := by
        omega
      have hih := ih ps { g with ps := g.ps ++ [p] } hj
        (by simp only [List.length_append, List.length_singleton]; rw [← e1]; exact hm.2)
        (by simp only [List.length_append, List.length_singleton]; rw [entWidth_eq]; omega)
      simp only [segment.AppendAll, hap, hih, List.length_cons, List.range_succ_eq_map,
        List.map_cons, List.map_map, List.length_append, List.length_singleton,
        List.append_assoc, List.singleton_append, Nat.add_zero]
      refine Prod.ext ?_ rfl
      simp only [List.cons.injEq, true_and]
      apply List.map_congr_left
      intro i _
      simp only [Function.comp, List.length_nil, Nat.succ_eq_add_one]
      congr 2
      omega

theorem segment_IsMaxed_iff (s : segment) :
    s.IsMaxed = true ↔ (s.store.size ≥ s.config.Segment.MaxStoreBytes ∨
      s.index.size ≥ s.config.Segment.MaxIndexBytes) := by
  simp [segment.IsMaxed]

/-- C14: on a fresh segment whose `MaxIndexBytes` is `12 * k` (there is one only for
`k ≥ 1`: no empty file can be mapped), while the store limit is not reached, `IsMaxed()` is false before each of the first `k` appends, these `k`
appends succeed (they return the offsets from the base offset on), `IsMaxed()` is true
right after the `k`-th, and the next `Append` fails with `io.EOF`; and on every segment
`IsMaxed()` is true exactly when `store.size ≥ MaxStoreBytes` or
`index.size ≥ MaxIndexBytes`. -/
theorem segment_index_capacity (cd : Codec) (dir : Directory) (b : Nat) (c : Config)
    (s0 : segment) (k : Nat) (rs : List Record) (ps : List Bytes) (r : Record) (p : Bytes)
    (hmax : c.Segment.MaxIndexBytes = 12 * k) (hb : b < 2 ^ 64)
    (hst : openFile dir (segmentFileName b storeExt) = [])
    (hix : openFile dir (segmentFileName b indexExt) = [])
    (h0 : newSegment dir b c = .ok s0)
    (hlen : rs.length = k) (hm : marshalFrom cd b rs = ps.map some)
    (hr : cd.marshal { r with Offset := (b + k) % 2 ^ 64 } = some p)
    (hstore : ∀ j, j < k → (frames (ps.take j)).length < c.Segment.MaxStoreBytes) :
    (∀ j, j < k → (s0.AppendAll cd (rs.take j)).2.IsMaxed = false) ∧
      (s0.AppendAll cd rs).1 = (List.range k).map (fun i => Except.ok ((b + i) % 2 ^ 64)) ∧
      (s0.AppendAll cd rs).2.IsMaxed = true ∧
      ((s0.AppendAll cd rs).2.Append cd r).1 = .error Error.EOF ∧
      ∀ s : segment, s.IsMaxed = true ↔
        (s.store.size ≥ s.config.Segment.MaxStoreBytes ∨
          s.index.size ≥ s.config.Segment.MaxIndexBytes) := by
  obtain ⟨h63, hpos⟩ := newSegment_ok_bound dir b c s0 h0
  rw [newSegment_fresh dir b c hst hix, newSegment_empty c b hb h63 hpos] at h0
  cases h0
  have hpl : ps.length = k := by
    have := congrArg List.length hm
    rw [marshalFrom_length, List.length_map] at this
    omega
  have hall := segment_AppendAll_fit cd c b hb h63 rs ps ⟨[], []⟩ rfl
    (by simp only [List.length_nil, Nat.add_zero]; rw [Nat.mod_eq_of_lt hb]; exact hm)
    (by rw [entWidth_eq, hmax, hlen]; simp)
  simp only [List.length_nil, Nat.add_zero, List.nil_append] at hall
  refine ⟨?_, ?_, ?_, ?_, segment_IsMaxed_iff⟩
  · intro j hj
    have hmj : marshalFrom cd ((b + 0) % 2 ^ 64) (rs.take j) = (ps.take j).map some := by
      rw [marshalFrom_take, Nat.add_zero, Nat.mod_eq_of_lt hb, hm, List.map_take]
    have hj1 := segment_AppendAll_fit cd c b hb h63 (rs.take j) (ps.take j) ⟨[], []⟩ rfl hmj
      (by rw [entWidth_eq, hmax]; simp only [List.length_nil, List.length_take]; omega)
    rw [hj1, canonSeg_IsMaxed]
    have hs := hstore j hj
    have hlj : (ps.take j).length = j := by rw [List.length_take]; omega
    simp only [List.nil_append, SegContent.bytes, List.append_nil, hlj, entWidth_eq, hmax,
      decide_eq_false_iff_not, not_or, not_le]
    exact ⟨hs, by omega⟩
  · rw [hall, hlen]
  · rw [hall, canonSeg_IsMaxed]
    simp only [decide_eq_true_eq, hpl, entWidth_eq, hmax]
    right
    exact Nat.le_refl _
  · rw [hall]
    have := segment_Append_full cd c b ⟨ps, []⟩ r p (by simpa [hpl] using hr)
      (by simp only [entWidth_eq, hmax, hpl]; omega)
    rw [this]

set_option maxRecDepth 100000 in
theorem segment_index_capacity_witness :
    (∀ j, j < 3 → ((canonSeg segmentTestConfig 16 ⟨[], []⟩).AppendAll protoCodec
        ([helloRecord, helloRecord, helloRecord].take j)).2.IsMaxed = false) ∧
      ((canonSeg segmentTestConfig 16 ⟨[], []⟩).AppendAll protoCodec
        [helloRecord, helloRecord, helloRecord]).1 =
        (List.range 3).map (fun i => Except.ok ((16 + i) % 2 ^ 64)) ∧
      ((canonSeg segmentTestConfig 16 ⟨[], []⟩).AppendAll protoCodec
        [helloRecord, helloRecord, helloRecord]).2.IsMaxed = true ∧
      (((canonSeg segmentTestConfig 16 ⟨[], []⟩).AppendAll protoCodec
        [helloRecord, helloRecord, helloRecord]).2.Append protoCodec helloRecord).1 =
        .error Error.EOF ∧
      ∀ s : segment, s.IsMaxed = true ↔
        (s.store.size ≥ s.config.Segment.MaxStoreBytes ∨
          s.index.size ≥ s.config.Segment.MaxIndexBytes) :=
  segment_index_capacity protoCodec [] 16 segmentTestConfig
    (canonSeg segmentTestConfig 16 ⟨[], []⟩) 3 [helloRecord, helloRecord, helloRecord]
    [protoMarshal { helloRecord with Offset := 16 }, protoMarshal { helloRecord with Offset := 17 },
      protoMarshal { helloRecord with Offset := 18 }]
    helloRecord (protoMarshal { helloRecord with Offset := 19 })
    (by decide) (by decide) (by decide) (by decide)
    (newSegment_empty segmentTestConfig 16 (by decide) (by decide) (by decide))
    (by decide) (by decide) (by decide) (by decide)

/-! ## segment.go: what a successful append leaves behind -/

theorem segment_Append_ok_inv (cd : Codec) (s : segment) (r : Record) (o : Nat) (r1 : Record)
    (s1 : segment) (h : s.Append cd r = (.ok o, r1, s1)) :
    ∃ p, cd.marshal { r with Offset := s.nextOffset } = some p ∧
      s.index.size + entWidth ≤ s.index.mmap.length ∧
      o = s.nextOffset ∧ r1 = { r with Offset := s.nextOffset } ∧
      s1 = { s with
        store := { s.store with buf := s.store.buf ++ PutUint64 p.length ++ p,
                                size := s.store.size + (p.length + lenWidth) }
        index := index.mk (s.index.mmap.take s.index.size ++
          (PutUint32 ((s.nextOffset + 2 ^ 64 - s.baseOffset) % 2 ^ 64 % 2 ^ 32) ++
            PutUint64 s.store.size) ++ s.index.mmap.drop (s.index.size + entWidth))
          (s.index.size + entWidth)
        nextOffset := (s.nextOffset + 1) % 2 ^ 64 } := by
  cases hm : cd.marshal { r with Offset := s.nextOffset } with
  | none =>
    rw [segment_Append_marshalFailed cd s r hm] at h
    cases h
  | some p =>
    by_cases hroom : s.index.size + entWidth ≤ s.index.mmap.length
    · refine ⟨p, rfl, hroom, ?_⟩
      have hw := index_Write_eq s.index
        ((s.nextOffset + 2 ^ 64 - s.baseOffset) % 2 ^ 64 % 2 ^ 32) s.store.size hroom
      simp only [segment.Append, hm, store_Append_eq, hw, Prod.mk.injEq, Except.ok.injEq] at h
      obtain ⟨h1, h2, h3⟩ := h
      exact ⟨h1.symm, h2.symm, h3.symm⟩
    · have hfull : s.index.mmap.length < s.index.size + entWidth := by omega
      simp only [segment.Append, hm, store_Append_eq, index.Write, hfull, if_true,
        Prod.mk.injEq] at h
      cases h.1

theorem segment_Read_canon_pos (cd : Codec) (c : Config) (base : Nat) (g : SegContent) (j : Nat)
    (hj : j < g.ps.length) (hj32 : j < 2 ^ 32) (hp : ∀ p ∈ g.ps, p.length < 2 ^ 63)
    (hpos : (frames (g.ps.take j)).length < 2 ^ 64) :
    ((canonSeg c base g).Read cd (base + j)).1 =
      (match cd.unmarshal g.ps[j] with
        | none => .error Error.unmarshalFailed
        | some record => .ok record) := by
  have hrel : (base + j + 2 ^ 64 - (canonSeg c base g).baseOffset) % 2 ^ 64 = j := by
    simp only [canonSeg]; omega
  have hi := index_Read_canon c base g j hj hj32 hpos
  have hst := store_Read_frame (canonSeg c base g).store (frames (g.ps.take j))
    (frames (g.ps.drop (j + 1)) ++ g.junk) g.ps[j] (hp _ (List.getElem_mem _))
    (by simp [canonSeg, SegContent.bytes, frames_split g.ps j hj])
  simp only [segment.Read, hrel, toInt64_small j (by omega), hi, hst]
  cases cd.unmarshal g.ps[j] <;> rfl

theorem frames_take_le (ps : List Bytes) (j : Nat) :
    (frames (ps.take j)).length ≤ (frames ps).length := by
  have h : frames ps = frames (ps.take j) ++ frames (ps.drop j) := by
    rw [← frames_append, List.take_append_drop]
  rw [h, List.length_append]
  omega

theorem frames_mem_le (ps : List Bytes) (p : Bytes) (hp : p ∈ ps) :
    p.length + 8 ≤ (frames ps).length := by
  induction ps with
  | nil => cases hp
  | cons q ps ih =>
    simp only [frames, List.length_append, frame_length]
    rcases List.mem_cons.1 hp with rfl | hp
    · omega
    · have := ih hp
      omega

/-- C15 (amended): a successful `Append(record)` on a segment with `nextOffset = n` and
store size `s` returns `n`, sets `record.Offset` to `n`, appends the frame of the
marshalled record to the store, whose size grows by its length, writes the index entry
`(uint32(n - baseOffset), s)` at the end of the index and leaves `nextOffset` at `n + 1`
modulo `2 ^ 64`; three successive appends to a fresh segment created at base 16 return 16,
17 and 18, and each record is read back at its offset once it is appended. -/
theorem segment_Append_post (cd : Codec) (s : segment) (r : Record) (o : Nat) (r1 : Record)
    (s1 : segment) (dir : Directory) (c : Config) (s0 : segment) (rs : List Record)
    (ps : List Bytes)
    (h : s.Append cd r = (.ok o, r1, s1))
    (hst : openFile dir (segmentFileName 16 storeExt) = [])
    (hix : openFile dir (segmentFileName 16 indexExt) = [])
    (h0 : newSegment dir 16 c = .ok s0) (hroom : 36 ≤ c.Segment.MaxIndexBytes)
    (hl : rs.length = 3) (hm : marshalFrom cd 16 rs = ps.map some)
    (hfile : (frames ps).length < 2 ^ 63)
    (hrt : List.Forall₂ (fun p r => ∃ r1, cd.unmarshal p = some r1 ∧ r1.Value = r.Value) ps rs) :
    (o = s.nextOffset ∧ r1 = { r with Offset := s.nextOffset } ∧
      ∃ p, cd.marshal r1 = some p ∧
        s1.store.file = s.store.file ∧ s1.store.buf = s.store.buf ++ frame p ∧
        s1.store.size = s.store.size + (frame p).length ∧
        slice s1.index.mmap s.index.size (s.index.size + 4) =
          some (PutUint32 ((s.nextOffset + 2 ^ 64 - s.baseOffset) % 2 ^ 64 % 2 ^ 32)) ∧
        slice s1.index.mmap (s.index.size + 4) (s.index.size + 12) =
          some (PutUint64 s.store.size) ∧
        s1.index.size = s.index.size + 12 ∧
        s1.nextOffset = (s.nextOffset + 1) % 2 ^ 64 ∧
        s1.baseOffset = s.baseOffset ∧ s1.config = s.config) ∧
      (s0.AppendAll cd rs).1 = [.ok 16, .ok 17, .ok 18] ∧
      ∀ j m, j < m → m ≤ 3 →
        ∃ r2, ((s0.AppendAll cd (rs.take m)).2.Read cd (16 + j)).1 = .ok r2 ∧
          some r2.Value = (rs[j]?).map Record.Value := by
  refine ⟨?_, ?_⟩
  · obtain ⟨p, hmp, hr, ho, hr1, hs1⟩ := segment_Append_ok_inv cd s r o r1 s1 h
    rw [entWidth_eq] at hr
    have hA : (s.index.mmap.take s.index.size).length = s.index.size := by
      rw [List.length_take]; omega
    refine ⟨ho, hr1, p, by rw [hr1]; exact hmp, ?_⟩
    subst hs1
    refine ⟨rfl, by simp [frame], by simp [frame, lenWidth]; omega, ?_, ?_, rfl, rfl, rfl, rfl⟩
    · have := slice_mid (s.index.mmap.take s.index.size)
        (PutUint32 ((s.nextOffset + 2 ^ 64 - s.baseOffset) % 2 ^ 64 % 2 ^ 32))
        (PutUint64 s.store.size ++ s.index.mmap.drop (s.index.size + entWidth))
      simpa [hA] using this
    · have := slice_mid (s.index.mmap.take s.index.size ++
        PutUint32 ((s.nextOffset + 2 ^ 64 - s.baseOffset) % 2 ^ 64 % 2 ^ 32))
        (PutUint64 s.store.size) (s.index.mmap.drop (s.index.size + entWidth))
      simpa [hA, Nat.add_assoc] using this
  · obtain ⟨h63, hpos⟩ := newSegment_ok_bound dir 16 c s0 h0
    rw [newSegment_fresh dir 16 c hst hix, newSegment_empty c 16 (by decide) h63 hpos] at h0
    cases h0
    have hpl : ps.length = 3 := by
      have := congrArg List.length hm
      rw [marshalFrom_length, List.length_map] at this
      omega
    have hall := segment_AppendAll_fit cd c 16 (by decide) h63 rs ps ⟨[], []⟩ rfl
      (by simpa using hm) (by rw [entWidth_eq, hl]; simpa using hroom)
    refine ⟨by rw [hall, hl]; rfl, ?_⟩
    intro j m hjm hm3
    have hmj : marshalFrom cd ((16 + 0) % 2 ^ 64) (rs.take m) = (ps.take m).map some := by
      have e16 : (16 + 0) % 2 ^ 64 = 16 := by decide
      rw [marshalFrom_take, e16, hm, List.map_take]
    have hm1 := segment_AppendAll_fit cd c 16 (by decide) h63 (rs.take m) (ps.take m) ⟨[], []⟩
      rfl hmj (by rw [entWidth_eq]; simp only [List.length_nil, List.length_take]; omega)
    rw [hm1]
    simp only [List.nil_append]
    have hjl : j < (ps.take m).length := by rw [List.length_take]; omega
    have hread := segment_Read_canon_pos cd c 16 ⟨ps.take m, []⟩ j hjl (by omega)
      (fun p hp => by have := frames_mem_le ps p (List.mem_of_mem_take hp); omega) ?_
    · rw [hread]
      have hjp : j < ps.length := by omega
      have hjr : j < rs.length := by omega
      have hget : (ps.take m)[j] = ps[j] := by simp
      obtain ⟨r2, hu, hv⟩ := List.Forall₂.get hrt hjp hjr
      simp only [List.get_eq_getElem] at hu hv
      simp only [hget, hu]
      exact ⟨r2, rfl, by rw [List.getElem?_eq_getElem hjr]; simp [hv]⟩
    · have h1 := frames_take_le (ps.take m) j
      have h2 := frames_take_le ps m
      simp only at h1 ⊢
      omega

set_option maxRecDepth 100000 in
theorem segment_Append_post_witness :
    (16 = (canonSeg segmentTestConfig 16 ⟨[], []⟩).nextOffset ∧
      ({ helloRecord with Offset := 16 } : Record) =
        { helloRecord with Offset := (canonSeg segmentTestConfig 16 ⟨[], []⟩).nextOffset } ∧
      ∃ p, protoCodec.marshal { helloRecord with Offset := 16 } = some p ∧
        ((canonSeg segmentTestConfig 16 ⟨[], []⟩).Append protoCodec helloRecord).2.2.store.file =
          (canonSeg segmentTestConfig 16 ⟨[], []⟩).store.file ∧
        ((canonSeg segmentTestConfig 16 ⟨[], []⟩).Append protoCodec helloRecord).2.2.store.buf =
          (canonSeg segmentTestConfig 16 ⟨[], []⟩).store.buf ++ frame p ∧
        ((canonSeg segmentTestConfig 16 ⟨[], []⟩).Append protoCodec helloRecord).2.2.store.size =
          (canonSeg segmentTestConfig 16 ⟨[], []⟩).store.size + (frame p).length ∧
        slice ((canonSeg segmentTestConfig 16 ⟨[], []⟩).Append protoCodec
            helloRecord).2.2.index.mmap (canonSeg segmentTestConfig 16 ⟨[], []⟩).index.size
            ((canonSeg segmentTestConfig 16 ⟨[], []⟩).index.size + 4) =
          some (PutUint32 (((canonSeg segmentTestConfig 16 ⟨[], []⟩).nextOffset + 2 ^ 64 -
            (canonSeg segmentTestConfig 16 ⟨[], []⟩).baseOffset) % 2 ^ 64 % 2 ^ 32)) ∧
        slice ((canonSeg segmentTestConfig 16 ⟨[], []⟩).Append protoCodec
            helloRecord).2.2.index.mmap
            ((canonSeg segmentTestConfig 16 ⟨[], []⟩).index.size + 4)
            ((canonSeg segmentTestConfig 16 ⟨[], []⟩).index.size + 12) =
          some (PutUint64 (canonSeg segmentTestConfig 16 ⟨[], []⟩).store.size) ∧
        ((canonSeg segmentTestConfig 16 ⟨[], []⟩).Append protoCodec helloRecord).2.2.index.size =
          (canonSeg segmentTestConfig 16 ⟨[], []⟩).index.size + 12 ∧
        ((canonSeg segmentTestConfig 16 ⟨[], []⟩).Append protoCodec helloRecord).2.2.nextOffset =
          ((canonSeg segmentTestConfig 16 ⟨[], []⟩).nextOffset + 1) % 2 ^ 64 ∧
        ((canonSeg segmentTestConfig 16 ⟨[], []⟩).Append protoCodec helloRecord).2.2.baseOffset =
          (canonSeg segmentTestConfig 16 ⟨[], []⟩).baseOffset ∧
        ((canonSeg segmentTestConfig 16 ⟨[], []⟩).Append protoCodec helloRecord).2.2.config =
          (canonSeg segmentTestConfig 16 ⟨[], []⟩).config) ∧
      ((canonSeg segmentTestConfig 16 ⟨[], []⟩).AppendAll protoCodec
        [helloRecord, helloRecord, helloRecord]).1 = [.ok 16, .ok 17, .ok 18] ∧
      ∀ j m, j < m → m ≤ 3 →
        ∃ r2, (((canonSeg segmentTestConfig 16 ⟨[], []⟩).AppendAll protoCodec
            ([helloRecord, helloRecord, helloRecord].take m)).2.Read protoCodec (16 + j)).1 =
            .ok r2 ∧
          some r2.Value = ([helloRecord, helloRecord, helloRecord][j]?).map Record.Value :=
  segment_Append_post protoCodec (canonSeg segmentTestConfig 16 ⟨[], []⟩) helloRecord 16
    { helloRecord with Offset := 16 }
    ((canonSeg segmentTestConfig 16 ⟨[], []⟩).Append protoCodec helloRecord).2.2
    [] segmentTestConfig (canonSeg segmentTestConfig 16 ⟨[], []⟩)
    [helloRecord, helloRecord, helloRecord]
    [protoMarshal { helloRecord with Offset := 16 }, protoMarshal { helloRecord with Offset := 17 },
      protoMarshal { helloRecord with Offset := 18 }]
    (by decide) (by decide) (by decide)
    (newSegment_empty segmentTestConfig 16 (by decide) (by decide) (by decide))
    (by decide) (by decide) (by decide) (by decide)
    (.cons ⟨{ helloRecord with Offset := 16 }, by decide, rfl⟩
      (.cons ⟨{ helloRecord with Offset := 17 }, by decide, rfl⟩
        (.cons ⟨{ helloRecord with Offset := 18 }, by decide, rfl⟩ .nil)))

set_option maxRecDepth 100000 in
/-- C15 fails at the ends of the integer types. On a fresh segment at base `2 ^ 64 - 1` a
successful `Append` returns `n = 2 ^ 64 - 1` and leaves `nextOffset` at 0, not at `n + 1`.
On a segment opened at base 0 over an index file whose entry has relative offset
`2 ^ 32 - 1`, `nextOffset` is `2 ^ 32`; the next `Append` returns `2 ^ 32` and writes the
index entry `(0, 0)`, the relative offset `2 ^ 32` cut to its low 32 bits. -/
theorem segment_Append_wraps :
    newSegment [] (2 ^ 64 - 1) segmentTestConfig =
        .ok (canonSeg segmentTestConfig (2 ^ 64 - 1) ⟨[], []⟩) ∧
      (canonSeg segmentTestConfig (2 ^ 64 - 1) ⟨[], []⟩).nextOffset = 2 ^ 64 - 1 ∧
      ((canonSeg segmentTestConfig (2 ^ 64 - 1) ⟨[], []⟩).Append protoCodec helloRecord).1 =
        .ok (2 ^ 64 - 1) ∧
      ((canonSeg segmentTestConfig (2 ^ 64 - 1) ⟨[], []⟩).Append protoCodec
        helloRecord).2.2.nextOffset = 0 ∧
      ∃ s, newSegment lastRelativeDir 0 segmentTestConfig = .ok s ∧
        s.baseOffset = 0 ∧ s.nextOffset = 2 ^ 32 ∧ s.store.size = 0 ∧ s.index.size = 12 ∧
        (s.Append protoCodec helloRecord).1 = .ok (2 ^ 32) ∧
        (s.Append protoCodec helloRecord).2.2.index.Read 1 = .ok (0, 0) :=
  ⟨newSegment_empty segmentTestConfig (2 ^ 64 - 1) (by decide) (by decide) (by decide),
    by decide, by decide, by decide,
    ⟨(match newSegment lastRelativeDir 0 segmentTestConfig with
        | .ok s => s
        | .error _ => canonSeg segmentTestConfig 0 ⟨[], []⟩),
      by decide, by decide, by decide, by decide, by decide, by decide, by decide⟩⟩

/-! ## newSegment over an index file that exists already -/

theorem truncateFile_of_le (f : Bytes) (n : Nat) (h : f.length ≤ n) :
    truncateFile f n = f ++ List.replicate (n - f.length) 0 := by
  simp [truncateFile, List.take_of_length_le h]

theorem slice_eq (m : Bytes) (lo n : Nat) (h : lo + n ≤ m.length) :
    slice m lo (lo + n) = some ((m.drop lo).take n) := by
  unfold slice
  rw [if_pos ⟨Nat.le_add_right _ _, h⟩, Nat.add_sub_cancel_left]

theorem index_Read_entry (i : index) (n : Int) (k : Nat)
    (hk : (if n = -1 then (i.size / entWidth + (2 ^ 32 - 1)) % 2 ^ 32 else toUint32 n) = k)
    (hin : 12 * k + 12 ≤ i.size) (hl : i.size ≤ i.mmap.length) :
    i.Read n = .ok (beUint ((i.mmap.drop (12 * k)).take 4),
      beUint ((i.mmap.drop (12 * k + 4)).take 8)) := by
  have he : entWidth = 12 := rfl
  have ho : offWidth = 4 := rfl
  have h0 : ¬ (i.size = 0) := by omega
  have hlt : ¬ (i.size < 12 * k + 12) := by omega
  have e1 : k * 12 = 12 * k := by omega
  have s1 := slice_eq i.mmap (12 * k) 4 (by omega)
  have s2 := slice_eq i.mmap (12 * k + 4) 8 (by omega)
  have e2 : 12 * k + 4 + 8 = 12 * k + 12 := by omega
  rw [e2] at s2
  rw [he] at hk
  simp only [index.Read, h0, if_false, hk, he, ho, e1, hlt, s1, s2]

/-- C16 (amended): over an index file of at most `MaxIndexBytes` bytes and at most `2 ^ 32`
entries, `newSegment` succeeds and sets `nextOffset = b` when the file holds no entry, and
`nextOffset = b + r + 1` modulo `2 ^ 64` otherwise, where `r` is the relative offset stored
in the last whole 12-byte entry of the file; a segment created at base 16 in an empty
directory has `nextOffset` 16. -/
theorem newSegment_nextOffset (dir : Directory) (b : Nat) (c : Config)
    (hpos : 0 < c.Segment.MaxIndexBytes) (h63 : c.Segment.MaxIndexBytes < 2 ^ 63)
    (hfit : (openFile dir (segmentFileName b indexExt)).length ≤ c.Segment.MaxIndexBytes)
    (h32 : (openFile dir (segmentFileName b indexExt)).length / 12 ≤ 2 ^ 32) :
    (∃ s, newSegment dir b c = .ok s ∧ s.baseOffset = b ∧
      ((openFile dir (segmentFileName b indexExt)).length / 12 = 0 → s.nextOffset = b) ∧
      ((openFile dir (segmentFileName b indexExt)).length / 12 ≠ 0 →
        s.nextOffset = (b + beUint (((openFile dir (segmentFileName b indexExt)).drop
          (12 * ((openFile dir (segmentFileName b indexExt)).length / 12 - 1))).take 4) + 1)
            % 2 ^ 64)) ∧
      ∃ s16, newSegment [] 16 c = .ok s16 ∧ s16.nextOffset = 16 := by
  refine ⟨?_, _, newSegment_empty c 16 (by decide) h63 hpos, rfl⟩
  simp only [newSegment]
  generalize openFile dir (segmentFileName b indexExt) = f at hfit h32 ⊢
  have h1 : ¬ (2 ^ 63 ≤ c.Segment.MaxIndexBytes) := by omega
  have hlen : (truncateFile f c.Segment.MaxIndexBytes).length = c.Segment.MaxIndexBytes := by
    rw [truncateFile_of_le f _ hfit, List.length_append, List.length_replicate]; omega
  have h2 : ¬ ((truncateFile f c.Segment.MaxIndexBytes).length = 0) := by omega
  have hi : newIndex f c = .ok (index.mk (truncateFile f c.Segment.MaxIndexBytes) f.length) := by
    simp only [newIndex, h1, if_false, h2]
  by_cases hn : f.length / 12 = 0
  · have hr := index_Read_no_entries (index.mk (truncateFile f c.Segment.MaxIndexBytes) f.length)
      (-1) (by rw [entWidth_eq]; exact hn)
    simp only [hi, hr]
    exact ⟨_, rfl, rfl, fun _ => rfl, fun h => absurd hn h⟩
  · have hk : (if (-1 : Int) = -1 then ((index.mk (truncateFile f c.Segment.MaxIndexBytes)
        f.length).size / entWidth + (2 ^ 32 - 1)) % 2 ^ 32 else toUint32 (-1)) =
        f.length / 12 - 1 := by
      simp only [if_true, entWidth_eq]
      omega
    have hr := index_Read_entry (index.mk (truncateFile f c.Segment.MaxIndexBytes) f.length)
      (-1) (f.length / 12 - 1) hk (by simp only; omega) (by simp only; omega)
    have hd : ((truncateFile f c.Segment.MaxIndexBytes).drop (12 * (f.length / 12 - 1))).take 4 =
        (f.drop (12 * (f.length / 12 - 1))).take 4 := by
      rw [truncateFile_of_le f _ hfit, List.drop_append_of_le_length (by omega),
        List.take_append_of_le_length (by rw [List.length_drop]; omega)]
    simp only [hd] at hr
    simp only [hi, hr]
    exact ⟨_, rfl, rfl, fun h => absurd h hn, fun _ => rfl⟩

set_option maxRecDepth 100000 in
theorem newSegment_nextOffset_witness :
    0 < segmentTestConfig.Segment.MaxIndexBytes ∧
      segmentTestConfig.Segment.MaxIndexBytes < 2 ^ 63 ∧
      (openFile (oneEntryDir 16 5) (segmentFileName 16 indexExt)).length ≤
        segmentTestConfig.Segment.MaxIndexBytes ∧
      (openFile (oneEntryDir 16 5) (segmentFileName 16 indexExt)).length / 12 ≤ 2 ^ 32 ∧
      (∃ s, newSegment (oneEntryDir 16 5) 16 segmentTestConfig = .ok s ∧ s.baseOffset = 16 ∧
        ((openFile (oneEntryDir 16 5) (segmentFileName 16 indexExt)).length / 12 = 0 →
          s.nextOffset = 16) ∧
        ((openFile (oneEntryDir 16 5) (segmentFileName 16 indexExt)).length / 12 ≠ 0 →
          s.nextOffset = (16 + beUint (((openFile (oneEntryDir 16 5)
            (segmentFileName 16 indexExt)).drop
            (12 * ((openFile (oneEntryDir 16 5) (segmentFileName 16 indexExt)).length / 12 - 1))).take
              4) + 1) % 2 ^ 64)) ∧
      ∃ s16, newSegment [] 16 segmentTestConfig = .ok s16 ∧ s16.nextOffset = 16 :=
  ⟨by decide, by decide, by decide, by decide,
    newSegment_nextOffset (oneEntryDir 16 5) 16 segmentTestConfig (by decide) (by decide)
      (by decide) (by decide)⟩

set_option maxRecDepth 100000 in
/-- C16 fails when the sum wraps: over the index file of base offset `b = 2 ^ 64 - 1` whose
one entry has relative offset `r = 0`, `newSegment` sets `nextOffset` to 0, not to
`b + r + 1`. -/
theorem newSegment_nextOffset_wraps :
    openFile (oneEntryDir (2 ^ 64 - 1) 0) (segmentFileName (2 ^ 64 - 1) indexExt) =
        PutUint32 0 ++ PutUint64 0 ∧
      (newSegment (oneEntryDir (2 ^ 64 - 1) 0) (2 ^ 64 - 1) segmentTestConfig).map
        (fun s => s.nextOffset) = .ok 0 := by
  decide

/-! ## Log.setup: one segment for every pair of files -/

theorem newSegment_baseOffset (dir : Directory) (b : Nat) (c : Config) (s : segment)
    (h : newSegment dir b c = .ok s) : s.baseOffset = b := by
  simp only [newSegment] at h
  split at h
  · cases h
  · split at h
    · cases h
    · cases h; rfl
    · cases h; rfl

theorem exists_segments (dir : Directory) (c : Config) (B : List Nat)
    (hnew : ∀ b ∈ B, ∃ s, newSegment dir b c = .ok s) :
    ∃ ss : List segment, ss.map (fun s => s.baseOffset) = B ∧
      ∀ s ∈ ss, newSegment dir s.baseOffset c = .ok s := by
  induction B with
  | nil => exact ⟨[], rfl, fun s hs => by cases hs⟩
  | cons b B ih =>
    obtain ⟨ss, hm, hs⟩ := ih (fun x hx => hnew x (List.mem_cons_of_mem _ hx))
    obtain ⟨s, h⟩ := hnew b (List.mem_cons_self _ _)
    have hb := newSegment_baseOffset dir b c s h
    refine ⟨s :: ss, by simp [hm, hb], ?_⟩
    intro t ht
    rcases List.mem_cons.1 ht with rfl | ht
    · rw [hb]; exact h
    · exact hs t ht

theorem segs_of_range (l : Log) (h : l.segments = List.range l.heap.length) :
    l.segs = l.heap := by
  rw [Log.segs, h]
  exact filterMap_range_getElem? l.heap

/-- C17 (amended): when every base offset parsed from the directory listing is the name of
exactly two files (the listing is a rearrangement of the strictly ascending offsets `B`,
each taken twice) and every segment can be created, `Log.setup` sorts the parsed offsets
and creates one segment per distinct base offset: the segment list has exactly the base
offsets `B`, pairwise distinct and strictly ascending, with a segment for every base
offset that has files on disk; with an empty directory it creates a single segment at
`Config.Segment.InitialOffset`. -/
theorem Log_setup_scan (dir : Directory) (c : Config) (B : List Nat)
    (hB : B.Pairwise (fun a b => a < b))
    (hscan : (scanBaseOffsets dir).Perm (B.flatMap (fun b => [b, b])))
    (hnew : ∀ b ∈ B, ∃ s, newSegment dir b c = .ok s)
    (hinit : B = [] → ∃ s, newSegment dir c.Segment.InitialOffset c = .ok s) :
    ∃ l1, (Log.blank dir c).setup = (.ok (), l1) ∧
      l1.segs.length = l1.segments.length ∧
      l1.segs.map (fun s => s.baseOffset) =
        (if B = [] then [c.Segment.InitialOffset] else B) ∧
      (l1.segs.map (fun s => s.baseOffset)).Pairwise (fun a b => a < b) ∧
      (∀ b ∈ scanBaseOffsets dir, ∃ s ∈ l1.segs, s.baseOffset = b) ∧
      (dir = [] → l1.segs.map (fun s => s.baseOffset) = [c.Segment.InitialOffset]) := by
  obtain ⟨ss, hm, hs⟩ := exists_segments dir c B hnew
  have hpair : ss.Pairwise (fun s t : segment => s.baseOffset < t.baseOffset) := by
    rw [← hm, List.pairwise_map] at hB
    exact hB
  have hdbl : B.flatMap (fun b => [b, b]) =
      ss.flatMap (fun s => [s.baseOffset, s.baseOffset]) := by
    rw [← hm, flatMap_map_eq]
  have hsort : (scanBaseOffsets dir).insertionSort (fun a b => a ≤ b) =
      ss.flatMap (fun s => [s.baseOffset, s.baseOffset]) := by
    refine List.eq_of_perm_of_sorted ?_ (List.sorted_insertionSort _ _) (doubled_sorted ss hpair)
    rw [← hdbl]
    exact (List.perm_insertionSort _ _).trans hscan
  have hloop := setupLoop_reopen dir c ss hs (Log.blank dir c) rfl rfl
  have hmem : ∀ b ∈ scanBaseOffsets dir, b ∈ B := by
    intro b hb
    have := hscan.subset hb
    obtain ⟨x, hx, hbx⟩ := List.mem_flatMap.1 this
    simp only [List.mem_cons, List.mem_singleton, List.not_mem_nil, or_false, or_self] at hbx
    rw [hbx]; exact hx
  by_cases hss : ss = []
  · subst hss
    have hBnil : B = [] := by rw [← hm]; rfl
    obtain ⟨s, h0⟩ := hinit hBnil
    have hb0 := newSegment_baseOffset dir _ c s h0
    refine ⟨Log.mk dir c [s] (some 0) [0], ?_, rfl, ?_, ?_, ?_, fun _ => ?_⟩
    · simp only [Log.setup, hsort, hloop, Log.blank, List.flatMap_nil]
      simp only [Log.setupLoop, List.isEmpty_nil, if_true, Log.newSegment, h0, List.nil_append,
        List.length_nil]
    · simp [Log.segs, hBnil, hb0]
    · simp [Log.segs]
    · intro b hb
      have := hmem b hb
      rw [hBnil] at this
      cases this
    · simp [Log.segs, hb0]
  · have hBne : ¬ (B = []) := by
      intro h
      rw [h] at hm
      exact hss (List.map_eq_nil_iff.1 hm)
    have hsegs : (Log.mk dir c ss (some (ss.length - 1)) (List.range ss.length)).segs = ss :=
      segs_of_range _ rfl
    have hne : ¬ ((List.range ss.length).isEmpty = true) := by
      simp only [List.isEmpty_eq_true, List.range_eq_nil]
      intro h
      exact hss (List.length_eq_zero.1 h)
    refine ⟨Log.mk dir c ss (some (ss.length - 1)) (List.range ss.length), ?_, ?_, ?_, ?_, ?_, ?_⟩
    · simp only [Log.blank, List.nil_append, List.length_nil, Nat.zero_add, hss, if_false,
        ← List.range_eq_range'] at hloop
      simp only [Log.setup, Log.blank, hsort, hloop, hne, if_false]
      rfl
    · rw [hsegs]; simp
    · rw [hsegs, hm, if_neg hBne]
    · rw [hsegs, hm]; exact hB
    · intro b hb
      have := hmem b hb
      rw [← hm] at this
      obtain ⟨s, hs1, hs2⟩ := List.mem_map.1 this
      exact ⟨s, by rw [hsegs]; exact hs1, hs2⟩
    · intro hd
      subst hd
      have : B.flatMap (fun b => [b, b]) = [] := List.Perm.eq_nil (hscan.symm)
      cases B with
      | nil => exact absurd rfl hBne
      | cons b B => simp at this

theorem exists_ok_of_isOk {α : Type} (x : Except Error α) (h : x.isOk = true) :
    ∃ a, x = .ok a := by
  cases x with
  | error e => cases h
  | ok a => exact ⟨a, rfl⟩

set_option maxRecDepth 100000 in
theorem Log_setup_scan_witness :
    ∃ l1, (Log.blank pairedDir defaultConfig.withDefaults).setup = (.ok (), l1) ∧
      l1.segs.length = l1.segments.length ∧
      l1.segs.map (fun s => s.baseOffset) =
        (if [0, 3] = [] then [defaultConfig.withDefaults.Segment.InitialOffset] else [0, 3]) ∧
      (l1.segs.map (fun s => s.baseOffset)).Pairwise (fun a b => a < b) ∧
      (∀ b ∈ scanBaseOffsets pairedDir, ∃ s ∈ l1.segs, s.baseOffset = b) ∧
      (pairedDir = [] →
        l1.segs.map (fun s => s.baseOffset) = [defaultConfig.withDefaults.Segment.InitialOffset]) :=
  Log_setup_scan pairedDir defaultConfig.withDefaults [0, 3] (by decide) (by decide)
    (by
      intro b hb
      simp only [List.mem_cons, List.mem_singleton, List.not_mem_nil, or_false] at hb
      rcases hb with rfl | rfl <;> exact exists_ok_of_isOk _ (by decide))
    (by intro h; cases h)

set_option maxRecDepth 100000 in
/-- C17 fails on a listing that is not made of pairs: the loop of `setup` passes over every
second of the sorted offsets instead of removing duplicates. With the files `0.index`,
`0.store` and `notes.txt` the parsed offsets are 0, 0, 0 (the error of `ParseUint` is
dropped) and two segments with base offset 0 are created; with the files `0.store` and
`1.store` the offsets are 0, 1 and no segment is created for base offset 1. -/
theorem Log_setup_skips_every_second :
    scanBaseOffsets strayFileDir = [0, 0, 0] ∧
      (Log.blank strayFileDir defaultConfig.withDefaults).setup.1 = .ok () ∧
      (Log.blank strayFileDir defaultConfig.withDefaults).setup.2.segs.map
        (fun s => s.baseOffset) = [0, 0] ∧
      scanBaseOffsets loneStoreDir = [0, 1] ∧
      (Log.blank loneStoreDir defaultConfig.withDefaults).setup.1 = .ok () ∧
      (Log.blank loneStoreDir defaultConfig.withDefaults).setup.2.segs.map
        (fun s => s.baseOffset) = [0] := by
  decide

/-! ## A record that cannot be marshalled -/

theorem set_of_getElem? {α : Type} (xs : List α) (a : Nat) (x : α) (h : xs[a]? = some x) :
    xs.set a x = xs := by
  induction xs generalizing a with
  | nil => rfl
  | cons y ys ih =>
    cases a with
    | zero =>
      simp only [List.getElem?_cons_zero, Option.some.injEq] at h
      simp [h]
    | succ a =>
      simp only [List.getElem?_cons_succ] at h
      simp [ih a h]

/-- C18: when the record, with the offset it is assigned, cannot be marshalled,
`segment.Append` returns an error and leaves the segment as it was: the store bytes and
size, the index bytes and size and `nextOffset`; and `Log.Append` on a log whose active
segment this is returns the error and leaves the whole log, the segment list included, as
it was. -/
theorem marshal_failure_atomic (cd : Codec) (s : segment) (r : Record) (l : Log) (a : Nat)
    (hm : cd.marshal { r with Offset := s.nextOffset } = none)
    (hact : l.activeSegment = some a) (hs : l.heap[a]? = some s) :
    (s.Append cd r).1 = .error Error.marshalFailed ∧
      (s.Append cd r).2.2.store = s.store ∧ (s.Append cd r).2.2.index = s.index ∧
      (s.Append cd r).2.2.nextOffset = s.nextOffset ∧ (s.Append cd r).2.2 = s ∧
      (l.Append cd r).1 = .error Error.marshalFailed ∧
      (l.Append cd r).2.2.segments = l.segments ∧ (l.Append cd r).2.2.segs = l.segs ∧
      (l.Append cd r).2.2 = l := by
  have h1 := segment_Append_marshalFailed cd s r hm
  have h2 : l.Append cd r = (.error Error.marshalFailed, { r with Offset := s.nextOffset }, l) := by
    simp only [Log.Append, hact, hs, h1, set_of_getElem? l.heap a s hs]
    rw [← hact]
  rw [h1, h2]
  exact ⟨rfl, rfl, rfl, rfl, rfl, rfl, rfl, rfl, rfl⟩

set_option maxRecDepth 100000 in
theorem marshal_failure_atomic_witness :
    ((canonSeg segmentTestConfig 16 ⟨[], []⟩).Append failingCodec helloRecord).1 =
        .error Error.marshalFailed ∧
      ((canonSeg segmentTestConfig 16 ⟨[], []⟩).Append failingCodec helloRecord).2.2.store =
        (canonSeg segmentTestConfig 16 ⟨[], []⟩).store ∧
      ((canonSeg segmentTestConfig 16 ⟨[], []⟩).Append failingCodec helloRecord).2.2.index =
        (canonSeg segmentTestConfig 16 ⟨[], []⟩).index ∧
      ((canonSeg segmentTestConfig 16 ⟨[], []⟩).Append failingCodec helloRecord).2.2.nextOffset =
        (canonSeg segmentTestConfig 16 ⟨[], []⟩).nextOffset ∧
      ((canonSeg segmentTestConfig 16 ⟨[], []⟩).Append failingCodec helloRecord).2.2 =
        canonSeg segmentTestConfig 16 ⟨[], []⟩ ∧
      ((Log.mk [] segmentTestConfig [canonSeg segmentTestConfig 16 ⟨[], []⟩] (some 0) [0]).Append
        failingCodec helloRecord).1 = .error Error.marshalFailed ∧
      ((Log.mk [] segmentTestConfig [canonSeg segmentTestConfig 16 ⟨[], []⟩] (some 0) [0]).Append
        failingCodec helloRecord).2.2.segments =
        (Log.mk [] segmentTestConfig [canonSeg segmentTestConfig 16 ⟨[], []⟩] (some 0) [0]).segments ∧
      ((Log.mk [] segmentTestConfig [canonSeg segmentTestConfig 16 ⟨[], []⟩] (some 0) [0]).Append
        failingCodec helloRecord).2.2.segs =
        (Log.mk [] segmentTestConfig [canonSeg segmentTestConfig 16 ⟨[], []⟩] (some 0) [0]).segs ∧
      ((Log.mk [] segmentTestConfig [canonSeg segmentTestConfig 16 ⟨[], []⟩] (some 0) [0]).Append
        failingCodec helloRecord).2.2 =
        Log.mk [] segmentTestConfig [canonSeg segmentTestConfig 16 ⟨[], []⟩] (some 0) [0] :=
  marshal_failure_atomic failingCodec (canonSeg segmentTestConfig 16 ⟨[], []⟩) helloRecord
    (Log.mk [] segmentTestConfig [canonSeg segmentTestConfig 16 ⟨[], []⟩] (some 0) [0]) 0
    rfl rfl rfl

/-! ## The segment list of a log built by appends -/

theorem canonHeap_chain (c : Config) (G : List SegContent) :
    ∀ b, List.Chain' (fun s t : segment => s.nextOffset = t.baseOffset) (canonHeap c b G) := by
  induction G with
  | nil => intro b; exact List.chain'_nil
  | cons g G ih =>
    intro b
    cases G with
    | nil => exact List.chain'_singleton _
    | cons h G =>
      have := ih ((b + g.ps.length) % 2 ^ 64)
      simp only [canonHeap] at this ⊢
      exact List.Chain'.cons rfl this

/-- What `Log.Append` does to the content when it rotates, and when it does not. -/
theorem Log_rotates_content (cd : Codec) (c : Config) (L : LogContent) (r : Record)
    (hc : c.valid) (hL : L.OK c) :
    (Log.rotates cd (canonLog c L.all) r = true →
      ∃ p, (L.Append cd c r).1 = .ok ((c.Segment.InitialOffset + totalRecords L.all) % 2 ^ 64) ∧
        (L.Append cd c r).2.2 =
          { older := L.older ++ [{ L.active with ps := L.active.ps ++ [p] }],
            active := ⟨[], []⟩ }) ∧
      (Log.rotates cd (canonLog c L.all) r = false →
        (L.Append cd c r).2.2.older = L.older) := by
  obtain ⟨_, h63, hI⟩ := hc
  have hn := fits_length hL.fitsActive h63
  have hbase : (c.Segment.InitialOffset + totalRecords L.older) % 2 ^ 64 < 2 ^ 64 :=
    Nat.mod_lt _ (by norm_num)
  rw [canonLog_all c L hI]
  simp only [Log.rotates, getElem?_snoc]
  cases hm : cd.marshal { r with Offset :=
      (c.Segment.InitialOffset + totalRecords L.all) % 2 ^ 64 } with
  | none =>
    rw [LogContent_Append_none cd c L r hm,
      segment_Append_marshalFailed cd _ r (by rw [canonLog_active_next]; exact hm)]
    simp
  | some p =>
    have hm' := hm
    rw [← cur_eq] at hm'
    rw [LogContent_Append_some cd c L r p hm]
    by_cases hfull : c.Segment.MaxIndexBytes < entWidth * L.active.ps.length + entWidth
    · rw [segment_Append_full cd c _ _ r p hm' hfull, if_pos hfull]
      simp
    · have hj : L.active.junk = [] := by
        rcases hL.active with h | h
        · exact h.1
        · exact absurd h hfull
      rw [segment_Append_ok cd c _ _ r p hm' hbase hn hj (by omega), if_neg hfull]
      simp only [canonSeg_IsMaxed, SegContent.bytes]
      by_cases hmax : (frames (L.active.ps ++ [p]) ++ L.active.junk).length ≥ c.Segment.MaxStoreBytes ∨
          entWidth * (L.active.ps ++ [p]).length ≥ c.Segment.MaxIndexBytes
      · rw [if_pos hmax]
        exact ⟨fun _ => ⟨p, rfl, rfl⟩, fun h => absurd (decide_eq_true hmax) (by rw [h]; simp)⟩
      · rw [if_neg hmax]
        refine ⟨fun h => absurd h ?_, fun _ => rfl⟩
        rw [decide_eq_true_iff]
        exact hmax

theorem canonLog_segments (c : Config) (G : List SegContent) :
    (canonLog c G).segments = List.range G.length ∧
      (canonLog c G).activeSegment = some (G.length - 1) := ⟨rfl, rfl⟩

/-- C19 (amended): in a log built from a fresh log over an empty directory by `Append`
calls whose offsets, the next one included, have not wrapped around `2 ^ 64`, the segments
are sorted by strictly ascending `baseOffset`, each segment's `nextOffset` is the
`baseOffset` of the next one, and `activeSegment` is the last segment; when the next
`Append` is assigned offset `o` and leaves the active segment maxed, exactly one new, empty
segment with `baseOffset = o + 1` is appended to the list and becomes active, and otherwise
the segment list and the active segment are unchanged. -/
theorem Log_segment_invariant (cd : Codec) (c : Config) (l0 : Log) (rs : List Record)
    (r : Record) (hu : c.isUint64) (hlen : cd.sliceSized) (h0 : NewLog [] c = .ok l0)
    (hnw : c.Segment.InitialOffset + okCount (l0.AppendAll cd rs).1 + 1 < 2 ^ 64) :
    (l0.AppendAll cd rs).2.segs.Pairwise (fun s t => s.baseOffset < t.baseOffset) ∧
      (l0.AppendAll cd rs).2.segs.Chain' (fun s t => s.nextOffset = t.baseOffset) ∧
      (∃ a s, (l0.AppendAll cd rs).2.activeSegment = some a ∧
        (l0.AppendAll cd rs).2.segments.getLast? = some a ∧
        (l0.AppendAll cd rs).2.heap[a]? = some s ∧
        (l0.AppendAll cd rs).2.segs.getLast? = some s) ∧
      (Log.rotates cd (l0.AppendAll cd rs).2 r = true →
        ∃ o a s, ((l0.AppendAll cd rs).2.Append cd r).1 = .ok o ∧
          ((l0.AppendAll cd rs).2.Append cd r).2.2.segments =
            (l0.AppendAll cd rs).2.segments ++ [a] ∧
          a ∉ (l0.AppendAll cd rs).2.segments ∧
          ((l0.AppendAll cd rs).2.Append cd r).2.2.activeSegment = some a ∧
          ((l0.AppendAll cd rs).2.Append cd r).2.2.heap[a]? = some s ∧
          s.baseOffset = o + 1 ∧ s.nextOffset = o + 1 ∧ s.store = newStore [] ∧
          s.index.size = 0) ∧
      (Log.rotates cd (l0.AppendAll cd rs).2 r = false →
        ((l0.AppendAll cd rs).2.Append cd r).2.2.segments = (l0.AppendAll cd rs).2.segments ∧
        ((l0.AppendAll cd rs).2.Append cd r).2.2.activeSegment =
          (l0.AppendAll cd rs).2.activeSegment) := by
  obtain ⟨hv, hall, hOK⟩ := reach_canon cd c l0 rs hu hlen h0
  obtain ⟨_, hpos, _, hI⟩ := withDefaults_fields c
  have htot := LogContent_AppendAll_total cd c.withDefaults rs LogContent.fresh
  have hfr : totalRecords LogContent.fresh.all = 0 := rfl
  rw [hall] at hnw ⊢
  simp only at hnw ⊢
  generalize (LogContent.fresh.AppendAll cd c.withDefaults rs).2 = L at *
  generalize (LogContent.fresh.AppendAll cd c.withDefaults rs).1 = res at *
  have hnw' : c.withDefaults.Segment.InitialOffset + totalRecords L.all + 1 < 2 ^ 64 := by omega
  have hne : ∀ g ∈ L.all.dropLast, g.ps ≠ [] := by
    rw [dropLast_all]
    exact fun g hg => (hOK.fitsOlder g hg).2.1
  have happ := Log_Append_canon cd c.withDefaults L r hv hpos hOK
  obtain ⟨hrot, hnot⟩ := Log_rotates_content cd c.withDefaults L r hv hOK
  refine ⟨?_, ?_, ?_, ?_, ?_⟩
  · rw [canonLog_segs]
    exact (canonHeap_bases c.withDefaults L.all _ (by omega) hne).1
  · rw [canonLog_segs]
    exact canonHeap_chain _ _ _
  · obtain ⟨a, h1, h2, h3⟩ := canonLog_active c.withDefaults L hv.2.2
    refine ⟨a, _, h1, ?_, h2, h3⟩
    rw [(canonLog_segments _ _).1, ← h1, (canonLog_segments _ _).2]
    simp [LogContent.all, List.range_succ]
  · intro h
    obtain ⟨p, h1, h2⟩ := hrot h
    rw [happ]
    simp only [h1, h2]
    refine ⟨_, L.older.length + 1,
      canonSeg c.withDefaults ((c.withDefaults.Segment.InitialOffset +
        totalRecords (L.older ++ [{ L.active with ps := L.active.ps ++ [p] }])) % 2 ^ 64) ⟨[], []⟩,
      rfl, ?_, ?_, ?_, ?_, ?_, ?_, rfl, rfl⟩
    · rw [(canonLog_segments _ _).1, (canonLog_segments _ _).1]
      simp [LogContent.all, List.range_succ]
    · rw [(canonLog_segments _ _).1]
      simp [LogContent.all]
    · rw [(canonLog_segments _ _).2]
      simp [LogContent.all]
    · have := canonLog_all c.withDefaults
        { older := L.older ++ [{ L.active with ps := L.active.ps ++ [p] }], active := ⟨[], []⟩ }
        hv.2.2
      rw [this]
      simp only
      have hl : (canonHeap c.withDefaults c.withDefaults.Segment.InitialOffset
          (L.older ++ [{ L.active with ps := L.active.ps ++ [p] }])).length =
          L.older.length + 1 := by simp
      rw [← hl]
      exact getElem?_snoc _ _
    · have ht : totalRecords (L.older ++ [{ L.active with ps := L.active.ps ++ [p] }]) =
          totalRecords L.all + 1 := by
        have h1 : totalRecords [({ L.active with ps := L.active.ps ++ [p] } : SegContent)] =
            L.active.ps.length + 1 := by
          simp [totalRecords]
        rw [totalRecords_append, totalRecords_all, h1]
        omega
      simp only [canonSeg, ht]
      omega
    · have ht : totalRecords (L.older ++ [{ L.active with ps := L.active.ps ++ [p] }]) =
          totalRecords L.all + 1 := by
        have h1 : totalRecords [({ L.active with ps := L.active.ps ++ [p] } : SegContent)] =
            L.active.ps.length + 1 := by
          simp [totalRecords]
        rw [totalRecords_append, totalRecords_all, h1]
        omega
      simp only [canonSeg, ht, List.length_nil]
      omega
  · intro h
    have ho := hnot h
    rw [happ]
    simp only
    rw [(canonLog_segments _ _).1, (canonLog_segments _ _).1, (canonLog_segments _ _).2,
      (canonLog_segments _ _).2]
    simp [LogContent.all, ho]

set_option maxRecDepth 100000 in
theorem Log_segment_invariant_witness :
    ((canonLog testConfig.withDefaults LogContent.fresh.all).AppendAll protoCodec
        [helloRecord]).2.segs.Pairwise (fun s t => s.baseOffset < t.baseOffset) ∧
      ((canonLog testConfig.withDefaults LogContent.fresh.all).AppendAll protoCodec
        [helloRecord]).2.segs.Chain' (fun s t => s.nextOffset = t.baseOffset) ∧
      (∃ a s, ((canonLog testConfig.withDefaults LogContent.fresh.all).AppendAll protoCodec
          [helloRecord]).2.activeSegment = some a ∧
        ((canonLog testConfig.withDefaults LogContent.fresh.all).AppendAll protoCodec
          [helloRecord]).2.segments.getLast? = some a ∧
        ((canonLog testConfig.withDefaults LogContent.fresh.all).AppendAll protoCodec
          [helloRecord]).2.heap[a]? = some s ∧
        ((canonLog testConfig.withDefaults LogContent.fresh.all).AppendAll protoCodec
          [helloRecord]).2.segs.getLast? = some s) ∧
      (Log.rotates protoCodec ((canonLog testConfig.withDefaults LogContent.fresh.all).AppendAll
          protoCodec [helloRecord]).2 helloRecord = true →
        ∃ o a s, (((canonLog testConfig.withDefaults LogContent.fresh.all).AppendAll protoCodec
            [helloRecord]).2.Append protoCodec helloRecord).1 = .ok o ∧
          (((canonLog testConfig.withDefaults LogContent.fresh.all).AppendAll protoCodec
            [helloRecord]).2.Append protoCodec helloRecord).2.2.segments =
            ((canonLog testConfig.withDefaults LogContent.fresh.all).AppendAll protoCodec
              [helloRecord]).2.segments ++ [a] ∧
          a ∉ ((canonLog testConfig.withDefaults LogContent.fresh.all).AppendAll protoCodec
            [helloRecord]).2.segments ∧
          (((canonLog testConfig.withDefaults LogContent.fresh.all).AppendAll protoCodec
            [helloRecord]).2.Append protoCodec helloRecord).2.2.activeSegment = some a ∧
          (((canonLog testConfig.withDefaults LogContent.fresh.all).AppendAll protoCodec
            [helloRecord]).2.Append protoCodec helloRecord).2.2.heap[a]? = some s ∧
          s.baseOffset = o + 1 ∧ s.nextOffset = o + 1 ∧ s.store = newStore [] ∧
          s.index.size = 0) ∧
      (Log.rotates protoCodec ((canonLog testConfig.withDefaults LogContent.fresh.all).AppendAll
          protoCodec [helloRecord]).2 helloRecord = false →
        (((canonLog testConfig.withDefaults LogContent.fresh.all).AppendAll protoCodec
          [helloRecord]).2.Append protoCodec helloRecord).2.2.segments =
          ((canonLog testConfig.withDefaults LogContent.fresh.all).AppendAll protoCodec
            [helloRecord]).2.segments ∧
        (((canonLog testConfig.withDefaults LogContent.fresh.all).AppendAll protoCodec
          [helloRecord]).2.Append protoCodec helloRecord).2.2.activeSegment =
          ((canonLog testConfig.withDefaults LogContent.fresh.all).AppendAll protoCodec
            [helloRecord]).2.activeSegment) :=
  Log_segment_invariant protoCodec testConfig
    (canonLog testConfig.withDefaults LogContent.fresh.all) [helloRecord] helloRecord
    (by decide) protoCodec_sliceSized (NewLog_empty testConfig (by decide)) (by decide)

set_option maxRecDepth 100000 in
/-- C19 fails when the offsets wrap: on a fresh log whose `InitialOffset` is `2 ^ 64 - 1`
and whose store limit makes every append rotate, the first `Append` is assigned
`o = 2 ^ 64 - 1` and the new segment gets base offset 0, not `o + 1`: the base offsets
`2 ^ 64 - 1, 0` are not ascending. -/
theorem Log_segments_wrap :
    NewLog [] wrapRotateConfig =
        .ok (canonLog wrapRotateConfig.withDefaults LogContent.fresh.all) ∧
      Log.rotates protoCodec (canonLog wrapRotateConfig.withDefaults LogContent.fresh.all)
        helloRecord = true ∧
      ((canonLog wrapRotateConfig.withDefaults LogContent.fresh.all).Append protoCodec
        helloRecord).1 = .ok (2 ^ 64 - 1) ∧
      ((canonLog wrapRotateConfig.withDefaults LogContent.fresh.all).Append protoCodec
        helloRecord).2.2.segs.map (fun s => s.baseOffset) = [2 ^ 64 - 1, 0] :=
  ⟨NewLog_empty wrapRotateConfig (by decide), by decide, by decide, by decide⟩

/-! ## Segments reachable from a fresh segment -/

theorem segment_AppendAll_append (cd : Codec) (xs ys : List Record) :
    ∀ s : segment, s.AppendAll cd (xs ++ ys) =
      ((s.AppendAll cd xs).1 ++ ((s.AppendAll cd xs).2.AppendAll cd ys).1,
        ((s.AppendAll cd xs).2.AppendAll cd ys).2) := by
  induction xs with
  | nil => intro s; rfl
  | cons x xs ih =>
    intro s
    simp only [List.cons_append, segment.AppendAll, List.append_eq, ih]

theorem okCount_append (xs ys : List (Except Error Nat)) :
    okCount (xs ++ ys) = okCount xs + okCount ys := by
  simp [okCount]

/-- A segment built from a fresh one by `Append` calls holds the payloads of the calls that
succeeded, and unreferenced store bytes only once its index is full. -/
theorem segment_reach_canon (cd : Codec) (c : Config) (b : Nat) (hb : b < 2 ^ 64)
    (h63 : c.Segment.MaxIndexBytes < 2 ^ 63) (rs : List Record) :
    ∀ g : SegContent,
      (g.junk = [] ∨ c.Segment.MaxIndexBytes < entWidth * g.ps.length + entWidth) →
      entWidth * g.ps.length ≤ c.Segment.MaxIndexBytes →
      ∃ g1 : SegContent,
        ((canonSeg c b g).AppendAll cd rs).2 = canonSeg c b g1 ∧
        g1.ps.length = g.ps.length + okCount ((canonSeg c b g).AppendAll cd rs).1 ∧
        (g1.junk = [] ∨ c.Segment.MaxIndexBytes < entWidth * g1.ps.length + entWidth) ∧
        entWidth * g1.ps.length ≤ c.Segment.MaxIndexBytes := by
  induction rs with
  | nil =>
    intro g hj hfit
    exact ⟨g, rfl, by simp [segment.AppendAll, okCount], hj, hfit⟩
  | cons r rs ih =>
    intro g hj hfit
    cases hm : cd.marshal { r with Offset := (b + g.ps.length) % 2 ^ 64 } with
    | none =>
      have hap := segment_Append_marshalFailed cd (canonSeg c b g) r hm
      obtain ⟨g1, h1, h2, h3, h4⟩ := ih g hj hfit
      refine ⟨g1, ?_, ?_, h3, h4⟩
      · simp only [segment.AppendAll, hap]; exact h1
      · simp only [segment.AppendAll, hap, okCount_cons]
        rw [h2]; omega
    | some p =>
      by_cases hfull : c.Segment.MaxIndexBytes < entWidth * g.ps.length + entWidth
      · have hap := segment_Append_full cd c b g r p hm hfull
        obtain ⟨g1, h1, h2, h3, h4⟩ := ih { g with junk := g.junk ++ frame p } (Or.inr hfull) hfit
        have h2a : g1.ps.length = g.ps.length + okCount ((canonSeg c b
            { g with junk := g.junk ++ frame p }).AppendAll cd rs).1 := h2
        refine ⟨g1, ?_, ?_, h3, h4⟩
        · simp only [segment.AppendAll, hap]; exact h1
        · simp only [segment.AppendAll, hap, okCount_cons]
          rw [h2a]; omega
      · have hj0 : g.junk = [] := hj.resolve_right hfull
        rw [entWidth_eq] at hfit hfull
        have hap := segment_Append_ok cd c b g r p hm hb (by omega) hj0
          (by rw [entWidth_eq]; omega)
        obtain ⟨g1, h1, h2, h3, h4⟩ := ih { g with ps := g.ps ++ [p] } (Or.inl hj0)
          (by simp only [List.length_append, List.length_singleton]; rw [entWidth_eq]; omega)
        have h2a : g1.ps.length = (g.ps ++ [p]).length + okCount ((canonSeg c b
            { g with ps := g.ps ++ [p] }).AppendAll cd rs).1 := h2
        rw [List.length_append, List.length_singleton] at h2a
        refine ⟨g1, ?_, ?_, h3, h4⟩
        · simp only [segment.AppendAll, hap]; exact h1
        · simp only [segment.AppendAll, hap, okCount_cons]
          rw [h2a]
          omega

theorem index_Read_canon_rel (c : Config) (base : Nat) (g : SegContent) (j : Nat)
    (hj : j < g.ps.length) (hj32 : j < 2 ^ 32) :
    (canonSeg c base g).index.Read (j : Int) =
      .ok (j, (frames (g.ps.take j)).length % 2 ^ 64) := by
  have hl : (entries 0 0 (g.ps.take j)).length = entWidth * j := by
    simp; left; omega
  have h := index_Read_at
    (entries 0 0 g.ps ++ List.replicate (c.Segment.MaxIndexBytes - entWidth * g.ps.length) 0)
    (entWidth * g.ps.length) j j (frames (g.ps.take j)).length (entries 0 0 (g.ps.take j))
    (entries (j + 1) ((frames (g.ps.take j)).length + (frame g.ps[j]).length) (g.ps.drop (j + 1)) ++
      List.replicate (c.Segment.MaxIndexBytes - entWidth * g.ps.length) 0)
    (by rw [entries_split g.ps j hj]; simp) hl (by rw [entWidth_eq]; omega) hj32
  rw [Nat.mod_eq_of_lt hj32] at h
  exact h

/-- C20 (amended): in a segment built from a fresh one by `Append` calls, successful or
failed, whose offsets have not wrapped around `2 ^ 64` and whose index holds at most
`2 ^ 32` entries, `index.size` is a multiple of 12, `nextOffset ≥ baseOffset`, further
`Append` calls do not decrease `nextOffset`, `nextOffset - baseOffset = index.size / 12`,
and for every `i < index.size / 12` the `i`-th index entry stores the relative offset
`i`. -/
theorem segment_invariant (cd : Codec) (dir : Directory) (b : Nat) (c : Config) (s0 : segment)
    (rs more : List Record) (hb : b < 2 ^ 64)
    (hst : openFile dir (segmentFileName b storeExt) = [])
    (hix : openFile dir (segmentFileName b indexExt) = [])
    (h0 : newSegment dir b c = .ok s0)
    (hidx : c.Segment.MaxIndexBytes ≤ 12 * 2 ^ 32)
    (hnw : b + okCount (s0.AppendAll cd (rs ++ more)).1 < 2 ^ 64) :
    (s0.AppendAll cd rs).2.index.size % 12 = 0 ∧
      (s0.AppendAll cd rs).2.baseOffset ≤ (s0.AppendAll cd rs).2.nextOffset ∧
      (s0.AppendAll cd rs).2.nextOffset ≤
        ((s0.AppendAll cd rs).2.AppendAll cd more).2.nextOffset ∧
      (s0.AppendAll cd rs).2.nextOffset - (s0.AppendAll cd rs).2.baseOffset =
        (s0.AppendAll cd rs).2.index.size / 12 ∧
      ∀ i, i < (s0.AppendAll cd rs).2.index.size / 12 →
        ∃ pos, (s0.AppendAll cd rs).2.index.Read (i : Int) = .ok (i, pos) := by
  obtain ⟨h63, hpos⟩ := newSegment_ok_bound dir b c s0 h0
  rw [newSegment_fresh dir b c hst hix, newSegment_empty c b hb h63 hpos] at h0
  cases h0
  rw [segment_AppendAll_append, okCount_append] at hnw
  obtain ⟨g1, e1, l1, j1, f1⟩ := segment_reach_canon cd c b hb h63 rs ⟨[], []⟩ (Or.inl rfl)
    (by simp)
  rw [e1] at hnw ⊢
  obtain ⟨g2, e2, l2, _, _⟩ := segment_reach_canon cd c b hb h63 more g1 j1 f1
  rw [e2]
  simp only [List.length_nil, Nat.zero_add] at l1
  rw [entWidth_eq] at f1
  have hsz : (canonSeg c b g1).index.size = 12 * g1.ps.length := rfl
  have hbase : (canonSeg c b g1).baseOffset = b := rfl
  have hn1 : (canonSeg c b g1).nextOffset = b + g1.ps.length := by
    simp only [canonSeg]
    exact Nat.mod_eq_of_lt (by omega)
  have hn2 : (canonSeg c b g2).nextOffset = b + g2.ps.length := by
    simp only [canonSeg]
    exact Nat.mod_eq_of_lt (by omega)
  rw [hsz, hbase, hn1, hn2]
  refine ⟨by omega, by omega, by omega, by omega, ?_⟩
  intro i hi
  exact ⟨_, index_Read_canon_rel c b g1 i (by omega) (by omega)⟩

set_option maxRecDepth 100000 in
theorem segment_invariant_witness :
    ((canonSeg segmentTestConfig 16 ⟨[], []⟩).AppendAll protoCodec
        [helloRecord, helloRecord, helloRecord, helloRecord]).2.index.size % 12 = 0 ∧
      ((canonSeg segmentTestConfig 16 ⟨[], []⟩).AppendAll protoCodec
        [helloRecord, helloRecord, helloRecord, helloRecord]).2.baseOffset ≤
        ((canonSeg segmentTestConfig 16 ⟨[], []⟩).AppendAll protoCodec
          [helloRecord, helloRecord, helloRecord, helloRecord]).2.nextOffset ∧
      ((canonSeg segmentTestConfig 16 ⟨[], []⟩).AppendAll protoCodec
        [helloRecord, helloRecord, helloRecord, helloRecord]).2.nextOffset ≤
        (((canonSeg segmentTestConfig 16 ⟨[], []⟩).AppendAll protoCodec
          [helloRecord, helloRecord, helloRecord, helloRecord]).2.AppendAll protoCodec
            [helloRecord]).2.nextOffset ∧
      ((canonSeg segmentTestConfig 16 ⟨[], []⟩).AppendAll protoCodec
        [helloRecord, helloRecord, helloRecord, helloRecord]).2.nextOffset -
          ((canonSeg segmentTestConfig 16 ⟨[], []⟩).AppendAll protoCodec
            [helloRecord, helloRecord, helloRecord, helloRecord]).2.baseOffset =
        ((canonSeg segmentTestConfig 16 ⟨[], []⟩).AppendAll protoCodec
          [helloRecord, helloRecord, helloRecord, helloRecord]).2.index.size / 12 ∧
      ∀ i, i < ((canonSeg segmentTestConfig 16 ⟨[], []⟩).AppendAll protoCodec
          [helloRecord, helloRecord, helloRecord, helloRecord]).2.index.size / 12 →
        ∃ pos, ((canonSeg segmentTestConfig 16 ⟨[], []⟩).AppendAll protoCodec
          [helloRecord, helloRecord, helloRecord, helloRecord]).2.index.Read (i : Int) =
            .ok (i, pos) :=
  segment_invariant protoCodec [] 16 segmentTestConfig (canonSeg segmentTestConfig 16 ⟨[], []⟩)
    [helloRecord, helloRecord, helloRecord, helloRecord] [helloRecord]
    (by decide) (by decide) (by decide)
    (newSegment_empty segmentTestConfig 16 (by decide) (by decide) (by decide))
    (by decide) (by decide)

set_option maxRecDepth 100000 in
/-- C20 fails when the offset wraps: on a fresh segment at base `2 ^ 64 - 1` one successful
`Append` takes `nextOffset` from `2 ^ 64 - 1` to 0, below `baseOffset`. -/
theorem segment_nextOffset_wraps :
    newSegment [] (2 ^ 64 - 1) segmentTestConfig =
        .ok (canonSeg segmentTestConfig (2 ^ 64 - 1) ⟨[], []⟩) ∧
      (canonSeg segmentTestConfig (2 ^ 64 - 1) ⟨[], []⟩).nextOffset = 2 ^ 64 - 1 ∧
      ((canonSeg segmentTestConfig (2 ^ 64 - 1) ⟨[], []⟩).AppendAll protoCodec
        [helloRecord]).1 = [.ok (2 ^ 64 - 1)] ∧
      ((canonSeg segmentTestConfig (2 ^ 64 - 1) ⟨[], []⟩).AppendAll protoCodec
        [helloRecord]).2.baseOffset = 2 ^ 64 - 1 ∧
      ((canonSeg segmentTestConfig (2 ^ 64 - 1) ⟨[], []⟩).AppendAll protoCodec
        [helloRecord]).2.nextOffset = 0 :=
  ⟨newSegment_empty segmentTestConfig (2 ^ 64 - 1) (by decide) (by decide) (by decide),
    by decide, by decide, by decide, by decide⟩

/-! ## segment.go: appending when the index has no room -/

theorem segment_Append_noRoom (cd : Codec) (s : segment) (r : Record) (p : Bytes)
    (hfull : s.index.mmap.length < s.index.size + 12)
    (hm : cd.marshal { r with Offset := s.nextOffset } = some p) :
    s.Append cd r = (.error Error.EOF, { r with Offset := s.nextOffset },
      segment.mk (store.mk s.store.file (s.store.buf ++ frame p) (s.store.size + (8 + p.length)))
        s.index s.baseOffset s.nextOffset s.config) := by
  have hf : s.index.mmap.length < s.index.size + entWidth := by rw [entWidth_eq]; exact hfull
  have e : p.length + lenWidth = 8 + p.length := by simp only [lenWidth]; omega
  simp only [segment.Append, hm, store_Append_eq, index.Write, hf, if_true, frame, e,
    List.append_assoc]

theorem segment_AppendAll_noRoom (cd : Codec) (rs : List Record) :
    ∀ s : segment, s.index.mmap.length < s.index.size + 12 →
      (s.AppendAll cd rs).1 = rs.map (fun r =>
          match cd.marshal { r with Offset := s.nextOffset } with
          | some _ => Except.error Error.EOF
          | none => Except.error Error.marshalFailed) ∧
        ∃ junk : Bytes, (s.AppendAll cd rs).2 = segment.mk
          (store.mk s.store.file (s.store.buf ++ junk) (s.store.size + junk.length))
          s.index s.baseOffset s.nextOffset s.config := by
  induction rs with
  | nil =>
    intro s _
    exact ⟨rfl, [], by simp [segment.AppendAll]⟩
  | cons r rs ih =>
    intro s hfull
    cases hm : cd.marshal { r with Offset := s.nextOffset } with
    | none =>
      obtain ⟨h1, junk, h2⟩ := ih s hfull
      refine ⟨?_, junk, ?_⟩
      · simp only [segment.AppendAll, segment_Append_marshalFailed cd s r hm, h1, hm,
          List.map_cons]
      · simp only [segment.AppendAll, segment_Append_marshalFailed cd s r hm, h2]
    | some p =>
      obtain ⟨h1, junk, h2⟩ := ih (segment.mk
        (store.mk s.store.file (s.store.buf ++ frame p) (s.store.size + (8 + p.length)))
        s.index s.baseOffset s.nextOffset s.config) hfull
      refine ⟨?_, frame p ++ junk, ?_⟩
      · simp only [segment.AppendAll, segment_Append_noRoom cd s r p hfull hm, h1, hm,
          List.map_cons]
      · simp only [segment.AppendAll, segment_Append_noRoom cd s r p hfull hm, h2,
          List.append_assoc, List.length_append, frame_length]
        have e : s.store.size + (8 + p.length) + junk.length =
            s.store.size + (p.length + 8 + junk.length) := by omega
        rw [e]

/-- C21: on a segment whose index has no room for another entry
(`len(mmap) < index.size + 12`), `Append` of a record that marshals to `p` fails with
`io.EOF` and leaves the index and `nextOffset` as they were, while the store has grown by
the frame of `p`, `8 + len(p)` bytes that no index entry was written for; every later
`Append` to the segment fails too, with `io.EOF` whenever its record marshals, and the index
and `nextOffset` never change. -/
theorem segment_Append_skew (cd : Codec) (s : segment) (r : Record) (p : Bytes)
    (later : List Record)
    (hfull : s.index.mmap.length < s.index.size + 12)
    (hm : cd.marshal { r with Offset := s.nextOffset } = some p) :
    (s.Append cd r).1 = .error Error.EOF ∧
      (s.Append cd r).2.2.index = s.index ∧
      (s.Append cd r).2.2.nextOffset = s.nextOffset ∧
      (s.Append cd r).2.2.store.size = s.store.size + (8 + p.length) ∧
      (s.Append cd r).2.2.store.file = s.store.file ∧
      (s.Append cd r).2.2.store.buf = s.store.buf ++ frame p ∧
      ((s.Append cd r).2.2.AppendAll cd later).1 = later.map (fun r1 =>
        match cd.marshal { r1 with Offset := s.nextOffset } with
        | some _ => Except.error Error.EOF
        | none => Except.error Error.marshalFailed) ∧
      ((s.Append cd r).2.2.AppendAll cd later).2.index = s.index ∧
      ((s.Append cd r).2.2.AppendAll cd later).2.nextOffset = s.nextOffset ∧
      (s.Append cd r).2.2.store.size ≤ ((s.Append cd r).2.2.AppendAll cd later).2.store.size := by
  rw [segment_Append_noRoom cd s r p hfull hm]
  obtain ⟨h1, junk, h2⟩ := segment_AppendAll_noRoom cd later (segment.mk
    (store.mk s.store.file (s.store.buf ++ frame p) (s.store.size + (8 + p.length)))
    s.index s.baseOffset s.nextOffset s.config) hfull
  refine ⟨rfl, rfl, rfl, rfl, rfl, rfl, h1, ?_, ?_, ?_⟩
  · simp only [h2]
  · simp only [h2]
  · simp only [h2]
    omega

set_option maxRecDepth 100000 in
theorem segment_Append_skew_witness :
    ((canonSeg segmentTestConfig 16 ⟨[[1], [2], [3]], []⟩).Append protoCodec helloRecord).1 =
        .error Error.EOF ∧
      ((canonSeg segmentTestConfig 16 ⟨[[1], [2], [3]], []⟩).Append protoCodec
        helloRecord).2.2.index = (canonSeg segmentTestConfig 16 ⟨[[1], [2], [3]], []⟩).index ∧
      ((canonSeg segmentTestConfig 16 ⟨[[1], [2], [3]], []⟩).Append protoCodec
        helloRecord).2.2.nextOffset =
        (canonSeg segmentTestConfig 16 ⟨[[1], [2], [3]], []⟩).nextOffset ∧
      ((canonSeg segmentTestConfig 16 ⟨[[1], [2], [3]], []⟩).Append protoCodec
        helloRecord).2.2.store.size =
        (canonSeg segmentTestConfig 16 ⟨[[1], [2], [3]], []⟩).store.size +
          (8 + (protoMarshal { helloRecord with Offset := 19 }).length) ∧
      ((canonSeg segmentTestConfig 16 ⟨[[1], [2], [3]], []⟩).Append protoCodec
        helloRecord).2.2.store.file =
        (canonSeg segmentTestConfig 16 ⟨[[1], [2], [3]], []⟩).store.file ∧
      ((canonSeg segmentTestConfig 16 ⟨[[1], [2], [3]], []⟩).Append protoCodec
        helloRecord).2.2.store.buf =
        (canonSeg segmentTestConfig 16 ⟨[[1], [2], [3]], []⟩).store.buf ++
          frame (protoMarshal { helloRecord with Offset := 19 }) ∧
      (((canonSeg segmentTestConfig 16 ⟨[[1], [2], [3]], []⟩).Append protoCodec
        helloRecord).2.2.AppendAll protoCodec [helloRecord, emptyRecord]).1 =
        [helloRecord, emptyRecord].map (fun r1 =>
          match protoCodec.marshal
            { r1 with Offset := (canonSeg segmentTestConfig 16 ⟨[[1], [2], [3]], []⟩).nextOffset } with
          | some _ => Except.error Error.EOF
          | none => Except.error Error.marshalFailed) ∧
      (((canonSeg segmentTestConfig 16 ⟨[[1], [2], [3]], []⟩).Append protoCodec
        helloRecord).2.2.AppendAll protoCodec [helloRecord, emptyRecord]).2.index =
        (canonSeg segmentTestConfig 16 ⟨[[1], [2], [3]], []⟩).index ∧
      (((canonSeg segmentTestConfig 16 ⟨[[1], [2], [3]], []⟩).Append protoCodec
        helloRecord).2.2.AppendAll protoCodec [helloRecord, emptyRecord]).2.nextOffset =
        (canonSeg segmentTestConfig 16 ⟨[[1], [2], [3]], []⟩).nextOffset ∧
      ((canonSeg segmentTestConfig 16 ⟨[[1], [2], [3]], []⟩).Append protoCodec
        helloRecord).2.2.store.size ≤
        (((canonSeg segmentTestConfig 16 ⟨[[1], [2], [3]], []⟩).Append protoCodec
          helloRecord).2.2.AppendAll protoCodec [helloRecord, emptyRecord]).2.store.size :=
  segment_Append_skew protoCodec (canonSeg segmentTestConfig 16 ⟨[[1], [2], [3]], []⟩)
    helloRecord (protoMarshal { helloRecord with Offset := 19 }) [helloRecord, emptyRecord]
    (by decide) (by decide)

/-! ## index.go: the written size and the mapped region -/

/-- Over a file no longer than `MaxIndexBytes`, `newIndex` leaves `size ≤ len(mmap)`. -/
theorem newIndex_size_le (f : Bytes) (c : Config) (i : index) (h : newIndex f c = .ok i)
    (hf : f.length ≤ c.Segment.MaxIndexBytes) : i.size ≤ i.mmap.length := by
  obtain ⟨_, _, hl, hs⟩ := newIndex_ok_bound f c i h
  omega

/-- A `Write` keeps `size ≤ len(mmap)` and the length of the mapped region. -/
theorem index_Write_size_le (i : index) (off pos : Nat) (h : i.size ≤ i.mmap.length) :
    (i.Write off pos).2.size ≤ (i.Write off pos).2.mmap.length ∧
      (i.Write off pos).2.mmap.length = i.mmap.length := by
  by_cases hroom : i.size + entWidth ≤ i.mmap.length
  · rw [index_Write_eq i off pos hroom]
    rw [entWidth_eq] at hroom
    simp only [List.length_append, List.length_take, List.length_drop, PutUint32_length,
      PutUint64_length, entWidth_eq]
    omega
  · have hfull : i.mmap.length < i.size + entWidth := by omega
    simp only [index.Write, hfull, if_true]
    exact ⟨h, trivial⟩

/-- While `size ≤ len(mmap)`, no slice `Read` takes is out of range. -/
theorem index_Read_no_panic (i : index) (n : Int) (h : i.size ≤ i.mmap.length) :
    i.Read n ≠ .error Error.runtimePanic := by
  by_cases h0 : i.size = 0
  · simp [index.Read, h0]
  · generalize hk : (if n = -1 then (i.size / entWidth + (2 ^ 32 - 1)) % 2 ^ 32
      else toUint32 n) = k
    by_cases hlt : i.size < 12 * k + 12
    · have hlt1 : i.size < k * entWidth + entWidth := by rw [entWidth_eq]; omega
      simp only [index.Read, h0, if_false, hk, hlt1, if_true]
      exact fun h => by cases h
    · rw [index_Read_entry i n k hk (by omega) h]
      exact fun h => by cases h

set_option maxRecDepth 100000 in
/-- C22 fails on the code: over an index file of 24 bytes with `MaxIndexBytes = 12`,
`newIndex` takes `size = 24` from the length of the file and then cuts the file to the 12
bytes it maps, so that `size > len(mmap)`; `Read(-1)`, which `newSegment` calls next, and
`Read(1)` pass the test against `size` and slice `mmap[12:16]`, out of range; `NewLog` on
a directory with this file ends in that panic. -/
theorem newIndex_size_exceeds_mmap :
    newIndex twoEntryFile smallIndexConfig = .ok (index.mk (twoEntryFile.take 12) 24) ∧
      (index.mk (twoEntryFile.take 12) 24).mmap.length = 12 ∧
      (index.mk (twoEntryFile.take 12) 24).Read (-1) = .error Error.runtimePanic ∧
      (index.mk (twoEntryFile.take 12) 24).Read 1 = .error Error.runtimePanic ∧
      ((index.mk (twoEntryFile.take 12) 24).Write 2 38).1 = .error Error.EOF ∧
      newSegment twoEntryDir 0 smallIndexConfig = .error Error.runtimePanic ∧
      NewLog twoEntryDir smallIndexConfig = .error Error.runtimePanic := by
  decide

/-! ## Truncate and the segments it keeps -/

theorem findSome?_filter_of_found {α β : Type} (f : α → Option β) (q : α → Bool) (y : β) :
    ∀ xs : List α, xs.findSome? f = some y → (∀ x ∈ xs, f x = some y → q x = true) →
      (xs.filter q).findSome? f = some y := by
  intro xs
  induction xs with
  | nil => intro h _; cases h
  | cons x xs ih =>
    intro h hq
    have hq1 : ∀ z ∈ xs, f z = some y → q z = true :=
      fun z hz => hq z (List.mem_cons_of_mem _ hz)
    rw [List.findSome?_cons] at h
    cases hfx : f x with
    | none =>
      rw [hfx] at h
      have ih1 := ih h hq1
      cases hqx : q x with
      | true =>
        rw [List.filter_cons_of_pos (by rw [hqx]), List.findSome?_cons, hfx]
        exact ih1
      | false =>
        rw [List.filter_cons_of_neg (by rw [hqx]; simp)]
        exact ih1
    | some z =>
      rw [hfx] at h
      have hz : z = y := Option.some.inj h
      subst hz
      have hqx := hq x (List.mem_cons_self _ _) hfx
      rw [List.filter_cons_of_pos hqx, List.findSome?_cons, hfx]

/-- After `Truncate(k)` the search of `Log.Read` finds the segment it found before, when
`Truncate` keeps that segment. -/
theorem Log_Truncate_findSegment_kept (l : Log) (k o p : Nat) (s : segment)
    (hf : l.findSegment o = some (p, s)) (hkeep : (k + 1) % 2 ^ 64 < s.nextOffset) :
    (l.Truncate k).2.findSegment o = some (p, s) := by
  obtain ⟨dir, h⟩ := Log_Truncate_eq l k
  rw [h]
  simp only [Log.findSegment] at hf ⊢
  apply findSome?_filter_of_found _ _ _ _ hf
  intro x _ hx
  cases hp : l.heap[x]? with
  | none => rw [hp] at hx; cases hx
  | some t =>
    rw [hp] at hx
    simp only [Option.bind] at hx
    split at hx
    · have e := Option.some.inj hx
      have e2 : t = s := congrArg Prod.snd e
      subst e2
      simp only [Bool.not_eq_true', decide_eq_false_iff_not]
      omega
    · cases hx

theorem mem_segs (l : Log) (p : Nat) (s : segment) (hp : p ∈ l.segments)
    (hs : l.heap[p]? = some s) : s ∈ l.segs :=
  List.mem_filterMap.2 ⟨p, hp, hs⟩

theorem mem_segs_iff (l : Log) (s : segment) :
    s ∈ l.segs ↔ ∃ p, p ∈ l.segments ∧ l.heap[p]? = some s :=
  List.mem_filterMap

theorem pairwise_mem_cases {α : Type} {R : α → α → Prop} :
    ∀ {xs : List α}, xs.Pairwise R → ∀ {a b : α}, a ∈ xs → b ∈ xs → a = b ∨ R a b ∨ R b a := by
  intro xs
  induction xs with
  | nil => intro _ a b ha; cases ha
  | cons x xs ih =>
    intro h a b ha hb
    obtain ⟨h1, h2⟩ := List.pairwise_cons.1 h
    rcases List.mem_cons.1 ha with ea | ha <;> rcases List.mem_cons.1 hb with eb | hb
    · exact Or.inl (ea.trans eb.symm)
    · exact Or.inr (Or.inl (ea ▸ h1 b hb))
    · exact Or.inr (Or.inr (eb ▸ h1 a ha))
    · exact ih h2 ha hb

/-! ## Reading outside an ordered log -/

/-- In an ordered log no segment covers an offset below the base of the first segment or
at or above the `nextOffset` of the last one. -/
theorem Ordered_findSegment_none (l : Log) (off : Nat) (hord : l.Ordered)
    (hoff : (∃ lo, l.LowestOffset = .ok lo ∧ off < lo) ∨
      (∃ a s, l.activeSegment = some a ∧ l.heap[a]? = some s ∧ s.nextOffset ≤ off)) :
    l.findSegment off = none := by
  obtain ⟨hb, hp, hne, hact⟩ := hord
  have hall : ∀ s ∈ l.segs, ¬ (s.baseOffset ≤ off ∧ off < s.nextOffset) := by
    rcases hoff with ⟨lo, hlo, hlt⟩ | ⟨a, t, ha, ht, hle⟩
    · intro s hs
      unfold Log.LowestOffset at hlo
      cases hsegs : l.segs with
      | nil => exact absurd hsegs hne
      | cons s0 rest =>
        rw [hsegs] at hlo hs hp hb
        have e : s0.baseOffset = lo := Except.ok.inj hlo
        obtain ⟨h1, _⟩ := List.pairwise_cons.1 hp
        rcases List.mem_cons.1 hs with rfl | hs
        · omega
        · have := h1 s hs
          have := hb s0 (List.mem_cons_self _ _)
          omega
    · intro s hs
      rw [ha] at hact
      simp only [Option.bind, ht] at hact
      obtain ⟨ys, hys⟩ := List.getLast?_eq_some_iff.1 hact.symm
      rw [hys] at hs hp hb
      obtain ⟨_, _, h3⟩ := List.pairwise_append.1 hp
      rcases List.mem_append.1 hs with hs | hs
      · have := h3 s hs t (List.mem_singleton_self _)
        have := hb t (by simp)
        omega
      · have e : s = t := List.mem_singleton.1 hs
        subst e
        omega
  simp only [Log.findSegment, List.findSome?_eq_none_iff]
  intro p hp'
  cases hs : l.heap[p]? with
  | none => rfl
  | some s =>
    simp only [Option.bind]
    rw [if_neg (hall s (mem_segs l p s hp' hs))]

/-! ## Truncate: the segments removed and the offsets above `k` -/

/-- C7 (amended): for every log and every `k`, `Truncate(k)` succeeds, removes exactly the
segments with `nextOffset ≤ (k + 1) mod 2 ^ 64` and keeps the others in their order; every
offset `o > k` that `Read` returned a record for before the call is still read, with the
same record. -/
theorem Log_Truncate_keeps_newer (cd : Codec) (l : Log) (k : Nat) :
    (l.Truncate k).1 = .ok () ∧
      (l.Truncate k).2.segs =
        l.segs.filter (fun s => !decide (s.nextOffset ≤ (k + 1) % 2 ^ 64)) ∧
      ∀ o r, o < 2 ^ 64 → k < o → (l.Read cd o).1 = .ok r →
        ((l.Truncate k).2.Read cd o).1 = .ok r := by
  refine ⟨rfl, Log_Truncate_segs l k, ?_⟩
  intro o r ho hk hread
  rw [Log_Read_fst] at hread ⊢
  rw [Log_Truncate_findSegment l k o ho hk]
  exact hread

set_option maxRecDepth 100000 in
theorem Log_Truncate_keeps_newer_witness :
    ((((canonLog testConfig.withDefaults LogContent.fresh.all).AppendAll protoCodec
        [helloRecord, helloRecord, helloRecord]).2).Truncate 1).1 = .ok () ∧
      ((((canonLog testConfig.withDefaults LogContent.fresh.all).AppendAll protoCodec
        [helloRecord, helloRecord, helloRecord]).2).Truncate 1).2.segs =
        (((canonLog testConfig.withDefaults LogContent.fresh.all).AppendAll protoCodec
          [helloRecord, helloRecord, helloRecord]).2).segs.filter
            (fun s => !decide (s.nextOffset ≤ (1 + 1) % 2 ^ 64)) ∧
      (((((canonLog testConfig.withDefaults LogContent.fresh.all).AppendAll protoCodec
        [helloRecord, helloRecord, helloRecord]).2).Truncate 1).2.Read protoCodec 2).1 =
        .ok { Value := helloWorld, Offset := 2 } :=
  ⟨(Log_Truncate_keeps_newer protoCodec
      ((canonLog testConfig.withDefaults LogContent.fresh.all).AppendAll protoCodec
        [helloRecord, helloRecord, helloRecord]).2 1).1,
    (Log_Truncate_keeps_newer protoCodec
      ((canonLog testConfig.withDefaults LogContent.fresh.all).AppendAll protoCodec
        [helloRecord, helloRecord, helloRecord]).2 1).2.1,
    (Log_Truncate_keeps_newer protoCodec
      ((canonLog testConfig.withDefaults LogContent.fresh.all).AppendAll protoCodec
        [helloRecord, helloRecord, helloRecord]).2 1).2.2 2
      { Value := helloWorld, Offset := 2 } (by decide) (by decide) (by decide)⟩

set_option maxRecDepth 100000 in
/-- C7 fails for `k = 2 ^ 64 - 1`: the sum `lowest + 1` of `Truncate` is a `uint64` and
wraps to 0. On a fresh log with one record appended the only segment has `nextOffset` 1,
which is `≤ k + 1`, and `Truncate(2 ^ 64 - 1)` keeps it. -/
theorem Log_Truncate_last_offset_wraps :
    NewLog [] defaultConfig =
        .ok (canonLog defaultConfig.withDefaults LogContent.fresh.all) ∧
      ((canonLog defaultConfig.withDefaults LogContent.fresh.all).Append protoCodec
        helloRecord).1 = .ok 0 ∧
      ((canonLog defaultConfig.withDefaults LogContent.fresh.all).Append protoCodec
        helloRecord).2.2.segs.map segment.nextOffset = [1] ∧
      1 ≤ (2 ^ 64 - 1) + 1 ∧
      (((canonLog defaultConfig.withDefaults LogContent.fresh.all).Append protoCodec
        helloRecord).2.2.Truncate (2 ^ 64 - 1)).1 = .ok () ∧
      (((canonLog defaultConfig.withDefaults LogContent.fresh.all).Append protoCodec
        helloRecord).2.2.Truncate (2 ^ 64 - 1)).2.segs =
        ((canonLog defaultConfig.withDefaults LogContent.fresh.all).Append protoCodec
          helloRecord).2.2.segs :=
  ⟨NewLog_empty defaultConfig (by decide), by decide, by decide, by decide, by decide,
    by decide⟩

/-! ## The invariant of a log: replacing a segment object -/

theorem getElem?_set_some {α : Type} (xs : List α) (p q : Nat) (x t : α)
    (h : (xs.set p x)[q]? = some t) : (q = p ∧ t = x) ∨ (q ≠ p ∧ xs[q]? = some t) := by
  by_cases e : p = q
  · subst e
    by_cases hlt : p < xs.length
    · rw [List.getElem?_set_self hlt] at h
      exact Or.inl ⟨rfl, (Option.some.inj h).symm⟩
    · rw [List.getElem?_eq_none (by rw [List.length_set]; omega)] at h
      cases h
  · rw [List.getElem?_set_ne e] at h
    exact Or.inr ⟨fun h' => e h'.symm, h⟩

theorem getElem?_lt {α : Type} (xs : List α) (p : Nat) (x : α) (h : xs[p]? = some x) :
    p < xs.length := by
  by_contra hge
  rw [List.getElem?_eq_none (by omega)] at h
  cases h

/-- A lookup in the heap after one object was replaced by one with the same base offset
leads back to a lookup before. -/
theorem heap_set_old (heap : List segment) (p q : Nat) (s s1 t : segment)
    (hp : heap[p]? = some s) (hb : s1.baseOffset = s.baseOffset)
    (h : (heap.set p s1)[q]? = some t) :
    ∃ u, heap[q]? = some u ∧ u.baseOffset = t.baseOffset ∧
      (q ≠ p ∨ s1.nextOffset = s.nextOffset → u.nextOffset = t.nextOffset) := by
  rcases getElem?_set_some _ _ _ _ _ h with ⟨e, rfl⟩ | ⟨e, h1⟩
  · subst e
    refine ⟨s, hp, hb.symm, ?_⟩
    intro h2
    rcases h2 with h2 | h2
    · exact absurd rfl h2
    · exact h2.symm
  · exact ⟨t, h1, rfl, fun _ => rfl⟩

theorem heap_set_new (heap : List segment) (p q : Nat) (s s1 u : segment)
    (hp : heap[p]? = some s) (hb : s1.baseOffset = s.baseOffset) (h : heap[q]? = some u) :
    ∃ t, (heap.set p s1)[q]? = some t ∧ t.baseOffset = u.baseOffset := by
  by_cases e : p = q
  · subst e
    rw [hp] at h
    have := Option.some.inj h
    subst this
    exact ⟨s1, List.getElem?_set_self (getElem?_lt _ _ _ hp), hb⟩
  · exact ⟨u, by rw [List.getElem?_set_ne e]; exact h, rfl⟩

/-- Replacing a segment object by a well-formed one with the same base offset, and the same
`nextOffset` unless the object is the active segment, keeps the shape of the log. -/
theorem Log_Shape_set (l : Log) (p : Nat) (s s1 : segment) (hl : l.Shape)
    (hp : l.heap[p]? = some s) (hwf : s1.WF l.Config) (hb : s1.baseOffset = s.baseOffset)
    (hn : s1.nextOffset = s.nextOffset ∨ l.activeSegment = some p) :
    (Log.mk l.Dir l.Config (l.heap.set p s1) l.activeSegment l.segments).Shape := by
  obtain ⟨a, init, ha, hseg, hni⟩ := hl.active
  refine ⟨hl.cfg, hl.active, ?_, ?_, ?_, ?_⟩
  · intro q hq
    show q < (l.heap.set p s1).length
    rw [List.length_set]
    exact hl.alloc q hq
  · intro q hq t ht
    rcases getElem?_set_some _ _ _ _ _ ht with ⟨_, rfl⟩ | ⟨_, h⟩
    · exact hwf
    · exact hl.each q hq t h
  · show l.segments.Pairwise _
    have hs := hl.sorted
    rw [hseg] at hs ⊢
    obtain ⟨h1, _, h3⟩ := List.pairwise_append.1 hs
    have hne : ∀ q ∈ init, q ≠ p ∨ s1.nextOffset = s.nextOffset := by
      intro q hq
      rcases hn with hn | hn
      · exact Or.inr hn
      · left
        intro e
        rw [ha] at hn
        have : a = p := Option.some.inj hn
        rw [e, ← this] at hq
        exact hni hq
    refine List.pairwise_append.2 ⟨?_, List.pairwise_singleton _ _, ?_⟩
    · refine List.Pairwise.imp_of_mem ?_ h1
      intro q1 q2 hq1 _ hR t1 t2 ht1 ht2
      obtain ⟨u1, hu1, hb1, hn1⟩ := heap_set_old _ _ _ _ _ _ hp hb ht1
      obtain ⟨u2, hu2, hb2, _⟩ := heap_set_old _ _ _ _ _ _ hp hb ht2
      have := hR u1 u2 hu1 hu2
      have := hn1 (hne q1 hq1)
      omega
    · intro q1 hq1 q2 hq2 t1 t2 ht1 ht2
      obtain ⟨u1, hu1, hb1, hn1⟩ := heap_set_old _ _ _ _ _ _ hp hb ht1
      obtain ⟨u2, hu2, hb2, _⟩ := heap_set_old _ _ _ _ _ _ hp hb ht2
      have := h3 q1 hq1 q2 hq2 u1 u2 hu1 hu2
      have := hn1 (hne q1 hq1)
      omega
  · intro e he
    obtain ⟨q, hq, u, hu, hname⟩ := hl.files e he
    obtain ⟨t, ht, hbt⟩ := heap_set_new _ _ _ _ s1 _ hp hb hu
    exact ⟨q, hq, t, ht, by rw [hbt]; exact hname⟩

theorem Log_WF_set (l : Log) (p : Nat) (s s1 : segment) (hl : l.Shape)
    (hp : l.heap[p]? = some s) (hwf : s1.WF l.Config) (hb : s1.baseOffset = s.baseOffset)
    (hn : s1.nextOffset = s.nextOffset ∨ l.activeSegment = some p)
    (hh : ∀ a u, l.activeSegment = some a → (l.heap.set p s1)[a]? = some u →
      u.IsMaxed = false ∨ u.index.mmap.length < u.index.size + entWidth) :
    (Log.mk l.Dir l.Config (l.heap.set p s1) l.activeSegment l.segments).WF :=
  ⟨Log_Shape_set l p s s1 hl hp hwf hb hn, hh⟩

/-! ## The invariant of a log: a fresh log -/

theorem canonSeg_empty_WF (c : Config) (b : Nat) (hb : b < 2 ^ 64) :
    (canonSeg c b ⟨[], []⟩).WF c := by
  refine ⟨rfl, ?_, ?_, ?_, ?_, ?_, ?_, ?_⟩
  · simp only [canonSeg, List.length_nil, Nat.add_zero, Nat.mul_zero, Nat.zero_div,
      Nat.mod_eq_of_lt hb]
  · simp only [canonSeg]; exact Nat.mod_lt _ (by norm_num)
  · simp [canonSeg]
  · simp [canonSeg, entries]
  · simp [canonSeg]
  · intro n hn
    simp only [canonSeg, List.length_nil, Nat.mul_zero, entWidth_eq] at hn
    omega
  · simp [canonSeg, store.consistent]

theorem canonSeg_empty_not_maxed (c : Config) (b : Nat) (hS : 0 < c.Segment.MaxStoreBytes)
    (hI : 0 < c.Segment.MaxIndexBytes) : (canonSeg c b ⟨[], []⟩).IsMaxed = false := by
  have h1 : ¬ (c.Segment.MaxStoreBytes = 0) := by omega
  have h2 : ¬ (c.Segment.MaxIndexBytes = 0) := by omega
  simp [segment.IsMaxed, canonSeg, SegContent.bytes, frames, h1, h2]

theorem NewLog_fresh_WF (c : Config) (l : Log) (hu : c.isUint64)
    (hidx : c.Segment.MaxIndexBytes ≤ 12 * 2 ^ 32) (h0 : NewLog [] c = .ok l) :
    l.WF ∧ l.Config = c.withDefaults := by
  obtain ⟨hv, hl0⟩ := NewLog_empty_ok c l hu h0
  obtain ⟨hS, hpos, _, _⟩ := withDefaults_fields c
  have hidx1 := withDefaults_index_le c _ (by norm_num) hidx
  have e : canonLog c.withDefaults LogContent.fresh.all =
      Log.mk [] c.withDefaults [canonSeg c.withDefaults c.withDefaults.Segment.InitialOffset ⟨[], []⟩]
        (some 0) [0] := rfl
  rw [hl0, e]
  refine ⟨⟨⟨⟨hv, hS, hpos, hidx1⟩, ⟨0, [], rfl, rfl, by simp⟩, ?_, ?_, ?_, ?_⟩, ?_⟩, rfl⟩
  · intro p hp
    simp only [List.mem_singleton] at hp
    subst hp
    simp
  · intro p hp s hs
    simp only [List.mem_singleton] at hp
    subst hp
    simp only [List.getElem?_cons_zero, Option.some.injEq] at hs
    subst hs
    exact canonSeg_empty_WF _ _ hv.2.2
  · exact List.pairwise_singleton _ _
  · intro e he
    cases he
  · intro a s ha hs
    simp only [Option.some.injEq] at ha
    subst ha
    simp only [List.getElem?_cons_zero, Option.some.injEq] at hs
    subst hs
    exact Or.inl (canonSeg_empty_not_maxed _ _ hS hpos)

/-! ## The invariant of a segment: appends -/

theorem segment_WF_store (c : Config) (s : segment) (st : store) (h : s.WF c)
    (hst : st.consistent) :
    (segment.mk st s.index s.baseOffset s.nextOffset s.config).WF c :=
  ⟨h.config, h.next, h.nowrap, h.aligned, h.mapped, h.room, h.last, hst⟩

/-- A failed `segment.Append` leaves the segment as it was, or with the frame written to
the store and an index that had no room for the entry. -/
theorem segment_Append_error_inv (cd : Codec) (s : segment) (r : Record) (e : Error)
    (r1 : Record) (s1 : segment) (h : s.Append cd r = (.error e, r1, s1)) :
    s1 = s ∨ (∃ p, s.index.mmap.length < s.index.size + entWidth ∧
      s1 = segment.mk
        (store.mk s.store.file (s.store.buf ++ frame p) (s.store.size + (8 + p.length)))
        s.index s.baseOffset s.nextOffset s.config) := by
  cases hm : cd.marshal { r with Offset := s.nextOffset } with
  | none =>
    rw [segment_Append_marshalFailed cd s r hm] at h
    left
    exact (congrArg (fun x => x.2.2) h).symm
  | some p =>
    by_cases hroom : s.index.size + entWidth ≤ s.index.mmap.length
    · exfalso
      have hw := index_Write_eq s.index
        ((s.nextOffset + 2 ^ 64 - s.baseOffset) % 2 ^ 64 % 2 ^ 32) s.store.size hroom
      simp only [segment.Append, hm, store_Append_eq, hw, Prod.mk.injEq] at h
      cases h.1
    · right
      have hfull : s.index.mmap.length < s.index.size + 12 := by
        rw [entWidth_eq] at hroom; omega
      rw [segment_Append_noRoom cd s r p hfull hm] at h
      exact ⟨p, by rw [entWidth_eq]; exact hfull, (congrArg (fun x => x.2.2) h).symm⟩

theorem frame_consistent (st : store) (p : Bytes) (h : st.consistent) :
    (store.mk st.file (st.buf ++ frame p) (st.size + (8 + p.length))).consistent := by
  unfold store.consistent at *
  simp only [List.length_append, frame_length, h]
  omega

/-- A successful `segment.Append` on a well-formed segment whose `nextOffset` is not the
largest `uint64` leaves a well-formed segment with one more record. -/
theorem segment_Append_ok_WF (cd : Codec) (c : Config) (s : segment) (r : Record) (o : Nat)
    (r1 : Record) (s1 : segment) (hs : s.WF c)
    (hidx : c.Segment.MaxIndexBytes ≤ 12 * 2 ^ 32) (hnw : s.nextOffset + 1 < 2 ^ 64)
    (h : s.Append cd r = (.ok o, r1, s1)) :
    s1.WF c ∧ s1.baseOffset = s.baseOffset ∧ s1.nextOffset = s.nextOffset + 1 ∧
      o = s.nextOffset := by
  obtain ⟨p, hm, hroom, ho, hr1, hs1⟩ := segment_Append_ok_inv cd s r o r1 s1 h
  have he : entWidth = 12 := rfl
  have hw : offWidth = 4 := rfl
  have h1 := hs.next
  have h2 := hs.aligned
  have h3 := hs.mapped
  have h4 := hs.store
  rw [he] at hroom h1 h2
  have hA : (s.index.mmap.take s.index.size).length = s.index.size := by
    rw [List.length_take]; omega
  subst hs1
  refine ⟨⟨hs.config, ?_, ?_, ?_, ?_, ?_, ?_, ?_⟩, rfl, Nat.mod_eq_of_lt hnw, ho⟩
  · show (s.nextOffset + 1) % 2 ^ 64 = s.baseOffset + (s.index.size + entWidth) / entWidth
    rw [Nat.mod_eq_of_lt hnw, he]
    omega
  · show (s.nextOffset + 1) % 2 ^ 64 < 2 ^ 64
    exact Nat.mod_lt _ (by norm_num)
  · show (s.index.size + entWidth) % entWidth = 0
    rw [he]; omega
  · show (s.index.mmap.take s.index.size ++
        (PutUint32 ((s.nextOffset + 2 ^ 64 - s.baseOffset) % 2 ^ 64 % 2 ^ 32) ++
          PutUint64 s.store.size) ++ s.index.mmap.drop (s.index.size + entWidth)).length =
      c.Segment.MaxIndexBytes
    simp only [List.length_append, hA, List.length_drop, PutUint32, PutUint64, List.length_cons,
      List.length_nil, he]
    omega
  · show s.index.size + entWidth ≤ c.Segment.MaxIndexBytes
    rw [he]; omega
  · intro n hn
    have hn1 : s.index.size + entWidth = entWidth * (n + 1) := hn
    rw [he] at hn1
    have hAn : (s.index.mmap.take s.index.size).length = entWidth * n := by
      rw [hA, he]; omega
    show beUint (((s.index.mmap.take s.index.size ++
        (PutUint32 ((s.nextOffset + 2 ^ 64 - s.baseOffset) % 2 ^ 64 % 2 ^ 32) ++
          PutUint64 s.store.size) ++ s.index.mmap.drop (s.index.size + entWidth)).drop
            (entWidth * n)).take offWidth) = n
    rw [List.append_assoc, List.drop_left' hAn, List.append_assoc]
    have ht : ∀ (v : Nat) (rest : Bytes), (PutUint32 v ++ rest).take offWidth = PutUint32 v :=
      fun _ _ => rfl
    rw [ht, beUint_PutUint32]
    omega
  · show (store.mk s.store.file (s.store.buf ++ PutUint64 p.length ++ p)
        (s.store.size + (p.length + lenWidth))).consistent
    unfold store.consistent at *
    simp only [List.length_append, h4, PutUint64, List.length_cons, List.length_nil, lenWidth]
    omega

/-! ## The invariant of a log: rotation -/

theorem lookup_none_of_forall (dir : Directory) (k : FileName) (h : ∀ e ∈ dir, e.1 ≠ k) :
    dir.lookup k = none := by
  induction dir with
  | nil => rfl
  | cons e dir ih =>
    obtain ⟨k1, v1⟩ := e
    have h1 : k1 ≠ k := h (k1, v1) (List.mem_cons_self _ _)
    have h2 : (k == k1) = false := by
      simp only [beq_eq_false_iff_ne, ne_eq]
      exact fun e => h1 e.symm
    simp only [List.lookup_cons, h2]
    exact ih (fun e he => h e (List.mem_cons_of_mem _ he))

/-- The base offsets of a log of the right shape do not exceed the base offset of the
active segment. -/
theorem Log_Shape_base_le (l : Log) (a : Nat) (s : segment) (hl : l.Shape)
    (ha : l.activeSegment = some a) (hs : l.heap[a]? = some s) :
    ∀ q ∈ l.segments, ∀ u, l.heap[q]? = some u →
      u.baseOffset ≤ s.baseOffset ∧ (q ≠ a → u.nextOffset ≤ s.baseOffset) := by
  obtain ⟨a1, init, ha1, hseg, hni⟩ := hl.active
  rw [ha] at ha1
  have e : a = a1 := Option.some.inj ha1
  subst e
  have hsorted := hl.sorted
  rw [hseg] at hsorted
  obtain ⟨_, _, h3⟩ := List.pairwise_append.1 hsorted
  intro q hq u hu
  rw [hseg] at hq
  rcases List.mem_append.1 hq with hq | hq
  · have := h3 q hq a (List.mem_singleton_self _) u s hu hs
    exact ⟨by omega, fun _ => this.1⟩
  · have e : q = a := List.mem_singleton.1 hq
    subst e
    rw [hs] at hu
    have := Option.some.inj hu
    subst this
    exact ⟨Nat.le_refl _, fun h => absurd rfl h⟩

/-- Rotation: on a log of the right shape whose active segment holds a record,
`newSegment` at the `nextOffset` of the active segment succeeds, and the log it leaves
satisfies the invariant. -/
theorem Log_newSegment_WF (l : Log) (a : Nat) (s : segment) (hl : l.Shape)
    (ha : l.activeSegment = some a) (hs : l.heap[a]? = some s)
    (hlt : s.baseOffset < s.nextOffset) :
    l.newSegment s.nextOffset =
        (.ok (), Log.mk l.Dir l.Config (l.heap ++ [canonSeg l.Config s.nextOffset ⟨[], []⟩])
          (some l.heap.length) (l.segments ++ [l.heap.length])) ∧
      (Log.mk l.Dir l.Config (l.heap ++ [canonSeg l.Config s.nextOffset ⟨[], []⟩])
          (some l.heap.length) (l.segments ++ [l.heap.length])).WF := by
  obtain ⟨hv, hS, hI, h32⟩ := hl.cfg
  have hamem : a ∈ l.segments := by
    obtain ⟨a1, init, ha1, hseg, _⟩ := hl.active
    rw [ha] at ha1
    rw [hseg, Option.some.inj ha1]
    simp
  have hswf := hl.each a hamem s hs
  have hb64 := hswf.nowrap
  have hle := Log_Shape_base_le l a s hl ha hs
  have hfresh : ∀ ext, (ext = storeExt ∨ ext = indexExt) →
      openFile l.Dir (segmentFileName s.nextOffset ext) = [] := by
    intro ext hext
    unfold openFile
    rw [lookup_none_of_forall]
    · rfl
    · intro e he hname
      obtain ⟨q, hq, u, hu, hn⟩ := hl.files e he
      have hub := (hle q hq u hu).1
      have hu64 : u.baseOffset < 2 ^ 64 := by omega
      have : u.baseOffset = s.nextOffset := by
        rcases hn with hn | hn
        · exact segmentFileName_base_inj _ _ _ _ hu64 hb64 (Or.inr rfl) hext
            (hn.symm.trans hname)
        · exact segmentFileName_base_inj _ _ _ _ hu64 hb64 (Or.inl rfl) hext
            (hn.symm.trans hname)
      omega
  have hnew : newSegment l.Dir s.nextOffset l.Config =
      .ok (canonSeg l.Config s.nextOffset ⟨[], []⟩) := by
    rw [newSegment_fresh l.Dir _ _ (hfresh _ (Or.inl rfl)) (hfresh _ (Or.inr rfl))]
    exact newSegment_empty _ _ hb64 hv.2.1 hI
  refine ⟨Log_newSegment_ok l _ _ hnew, ⟨⟨hl.cfg, ?_, ?_, ?_, ?_, ?_⟩, ?_⟩⟩
  · refine ⟨l.heap.length, l.segments, rfl, rfl, ?_⟩
    intro h
    exact Nat.lt_irrefl _ (hl.alloc _ h)
  · intro q hq
    show q < (l.heap ++ [canonSeg l.Config s.nextOffset ⟨[], []⟩]).length
    rw [List.length_append, List.length_singleton]
    rcases List.mem_append.1 hq with hq | hq
    · have := hl.alloc q hq
      omega
    · have := List.mem_singleton.1 hq
      omega
  · intro q hq t ht
    have ht1 : (l.heap ++ [canonSeg l.Config s.nextOffset ⟨[], []⟩])[q]? = some t := ht
    rcases List.mem_append.1 hq with hq | hq
    · rw [List.getElem?_append_left (hl.alloc q hq)] at ht1
      exact hl.each q hq t ht1
    · have e := List.mem_singleton.1 hq
      subst e
      rw [getElem?_snoc] at ht1
      rw [← Option.some.inj ht1]
      exact canonSeg_empty_WF _ _ hb64
  · show (l.segments ++ [l.heap.length]).Pairwise _
    refine List.pairwise_append.2 ⟨?_, List.pairwise_singleton _ _, ?_⟩
    · refine List.Pairwise.imp_of_mem ?_ hl.sorted
      intro q1 q2 hq1 hq2 hR t1 t2 ht1 ht2
      have ht1a : (l.heap ++ [canonSeg l.Config s.nextOffset ⟨[], []⟩])[q1]? = some t1 := ht1
      have ht2a : (l.heap ++ [canonSeg l.Config s.nextOffset ⟨[], []⟩])[q2]? = some t2 := ht2
      rw [List.getElem?_append_left (hl.alloc q1 hq1)] at ht1a
      rw [List.getElem?_append_left (hl.alloc q2 hq2)] at ht2a
      exact hR t1 t2 ht1a ht2a
    · intro q1 hq1 q2 hq2 t1 t2 ht1 ht2
      have ht1a : (l.heap ++ [canonSeg l.Config s.nextOffset ⟨[], []⟩])[q1]? = some t1 := ht1
      have ht2a : (l.heap ++ [canonSeg l.Config s.nextOffset ⟨[], []⟩])[q2]? = some t2 := ht2
      rw [List.getElem?_append_left (hl.alloc q1 hq1)] at ht1a
      have e := List.mem_singleton.1 hq2
      subst e
      rw [getElem?_snoc] at ht2a
      rw [← Option.some.inj ht2a]
      show t1.nextOffset ≤ s.nextOffset ∧ t1.baseOffset < s.nextOffset
      obtain ⟨h1, h2⟩ := hle q1 hq1 t1 ht1a
      by_cases e : q1 = a
      · subst e
        rw [hs] at ht1a
        have := Option.some.inj ht1a
        subst this
        exact ⟨Nat.le_refl _, hlt⟩
      · have := h2 e
        omega
  · intro e he
    obtain ⟨q, hq, u, hu, hn⟩ := hl.files e he
    refine ⟨q, List.mem_append_left _ hq, u, ?_, hn⟩
    show (l.heap ++ [canonSeg l.Config s.nextOffset ⟨[], []⟩])[q]? = some u
    rw [List.getElem?_append_left (hl.alloc q hq)]
    exact hu
  · intro a1 t ha1 ht
    have e : l.heap.length = a1 := Option.some.inj ha1
    subst e
    have ht1 : (l.heap ++ [canonSeg l.Config s.nextOffset ⟨[], []⟩])[l.heap.length]? = some t := ht
    rw [getElem?_snoc] at ht1
    rw [← Option.some.inj ht1]
    exact Or.inl (canonSeg_empty_not_maxed _ _ hS hI)

/-! ## The invariant of a log: Append -/

theorem Log_Append_eq (cd : Codec) (l : Log) (r : Record) (a : Nat) (s : segment)
    (ha : l.activeSegment = some a) (hs : l.heap[a]? = some s) :
    l.Append cd r =
      match s.Append cd r with
      | (.error e, record1, s1) =>
        (.error e, record1, Log.mk l.Dir l.Config (l.heap.set a s1) l.activeSegment l.segments)
      | (.ok off, record1, s1) =>
        if s1.IsMaxed then
          match (Log.mk l.Dir l.Config (l.heap.set a s1) l.activeSegment
            l.segments).newSegment ((off + 1) % 2 ^ 64) with
          | (.error e, l2) => (.error e, record1, l2)
          | (.ok _, l2) => (.ok off, record1, l2)
        else
          (.ok off, record1,
            Log.mk l.Dir l.Config (l.heap.set a s1) l.activeSegment l.segments) := by
  simp only [Log.Append, ha, hs]

theorem Log_Shape_active (l : Log) (hl : l.Shape) :
    ∃ a s, l.activeSegment = some a ∧ l.heap[a]? = some s ∧ a ∈ l.segments := by
  obtain ⟨a, init, ha, hseg, _⟩ := hl.active
  have hmem : a ∈ l.segments := by rw [hseg]; simp
  have hlt := hl.alloc a hmem
  exact ⟨a, l.heap[a], ha, List.getElem?_eq_getElem hlt, hmem⟩

/-- What `Log.Append` does to a log that satisfies the invariant and whose active segment
`s` has a `nextOffset` below the largest `uint64`: the append to `s` fails and so does the
call; or it succeeds and leaves `s` not maxed; or it succeeds, leaves `s` maxed, and the
rotation succeeds. The invariant holds afterwards in each case. -/
theorem Log_Append_cases (cd : Codec) (l : Log) (r : Record) (a : Nat) (s : segment)
    (hl : l.WF) (ha : l.activeSegment = some a) (hs : l.heap[a]? = some s)
    (hnw : s.nextOffset + 1 < 2 ^ 64) :
    (∃ e r1 s1, s.Append cd r = (.error e, r1, s1) ∧
      l.Append cd r = (.error e, r1,
        Log.mk l.Dir l.Config (l.heap.set a s1) l.activeSegment l.segments) ∧
      (Log.mk l.Dir l.Config (l.heap.set a s1) l.activeSegment l.segments).WF) ∨
    (∃ o r1 s1, s.Append cd r = (.ok o, r1, s1) ∧
      l.Append cd r = (.ok o, r1,
        Log.mk l.Dir l.Config (l.heap.set a s1) l.activeSegment l.segments) ∧
      (Log.mk l.Dir l.Config (l.heap.set a s1) l.activeSegment l.segments).WF) ∨
    (∃ o r1 s1, s.Append cd r = (.ok o, r1, s1) ∧
      l.Append cd r = (.ok o, r1,
        Log.mk l.Dir l.Config (l.heap.set a s1 ++ [canonSeg l.Config s1.nextOffset ⟨[], []⟩])
          (some (l.heap.set a s1).length) (l.segments ++ [(l.heap.set a s1).length])) ∧
      (Log.mk l.Dir l.Config (l.heap.set a s1 ++ [canonSeg l.Config s1.nextOffset ⟨[], []⟩])
          (some (l.heap.set a s1).length) (l.segments ++ [(l.heap.set a s1).length])).WF) := by
  have hamem : a ∈ l.segments := by
    obtain ⟨a1, init, ha1, hseg, _⟩ := hl.shape.active
    rw [ha] at ha1
    rw [hseg, Option.some.inj ha1]
    simp
  have hswf := hl.shape.each a hamem s hs
  have halt := getElem?_lt _ _ _ hs
  have hEq := Log_Append_eq cd l r a s ha hs
  have hset : ∀ (s1 u : segment) (a1 : Nat), l.activeSegment = some a1 →
      (l.heap.set a s1)[a1]? = some u → u = s1 := by
    intro s1 u a1 ha1 hu
    rw [ha] at ha1
    have e : a = a1 := Option.some.inj ha1
    subst e
    rw [List.getElem?_set_self halt] at hu
    exact (Option.some.inj hu).symm
  rcases hsa : s.Append cd r with ⟨res, r1, s1⟩
  rw [hsa] at hEq
  cases res with
  | error e =>
    left
    refine ⟨e, r1, s1, rfl, hEq, ?_⟩
    rcases segment_Append_error_inv cd s r e r1 s1 hsa with h | ⟨p, hfull, h⟩
    · subst h
      refine Log_WF_set l a s1 s1 hl.shape hs hswf rfl (Or.inl rfl) ?_
      intro a1 u ha1 hu
      rw [hset s1 u a1 ha1 hu]
      exact hl.head a s1 ha hs
    · have hwf1 : s1.WF l.Config := by
        rw [h]
        exact segment_WF_store _ s _ hswf (frame_consistent _ p hswf.store)
      refine Log_WF_set l a s s1 hl.shape hs hwf1 (by rw [h]) (Or.inl (by rw [h])) ?_
      intro a1 u ha1 hu
      rw [hset s1 u a1 ha1 hu, h]
      exact Or.inr hfull
  | ok o =>
    right
    obtain ⟨hwf1, hb1, hn1, ho⟩ := segment_Append_ok_WF cd l.Config s r o r1 s1 hswf
      hl.shape.cfg.2.2.2 hnw hsa
    have hshape := Log_Shape_set l a s s1 hl.shape hs hwf1 hb1 (Or.inr ha)
    by_cases hmax : s1.IsMaxed = true
    · right
      have hnext : s.baseOffset ≤ s.nextOffset := by
        rw [hswf.next]; exact Nat.le_add_right _ _
      have hrot := Log_newSegment_WF
        (Log.mk l.Dir l.Config (l.heap.set a s1) l.activeSegment l.segments) a s1 hshape ha
        (List.getElem?_set_self halt) (by omega)
      have hmod : (o + 1) % 2 ^ 64 = s1.nextOffset := by
        rw [ho, hn1]; exact Nat.mod_eq_of_lt hnw
      simp only [hmax, if_true, hmod, hrot.1] at hEq
      exact ⟨o, r1, s1, rfl, hEq, hrot.2⟩
    · left
      simp only [hmax] at hEq
      refine ⟨o, r1, s1, rfl, hEq, ⟨hshape, ?_⟩⟩
      intro a1 u ha1 hu
      rw [hset s1 u a1 ha1 hu]
      left
      cases h : s1.IsMaxed with
      | true => exact absurd h hmax
      | false => rfl

/-- `Log.Append` keeps the invariant and the configuration, as long as the offset it
assigns is not the largest `uint64`. -/
theorem Log_Append_WF (cd : Codec) (l : Log) (r : Record) (hl : l.WF)
    (hnw : ∀ a s, l.activeSegment = some a → l.heap[a]? = some s →
      s.nextOffset + 1 < 2 ^ 64) :
    (l.Append cd r).2.2.WF ∧ (l.Append cd r).2.2.Config = l.Config := by
  obtain ⟨a, s, ha, hs, _⟩ := Log_Shape_active l hl.shape
  rcases Log_Append_cases cd l r a s hl ha hs (hnw a s ha hs) with
    ⟨e, r1, s1, _, h, hwf⟩ | ⟨o, r1, s1, _, h, hwf⟩ | ⟨o, r1, s1, _, h, hwf⟩ <;>
  · rw [h]
    exact ⟨hwf, rfl⟩

/-! ## The invariant of a log: Read -/

theorem findSegment_some (l : Log) (o p : Nat) (s : segment)
    (h : l.findSegment o = some (p, s)) :
    p ∈ l.segments ∧ l.heap[p]? = some s ∧ s.baseOffset ≤ o ∧ o < s.nextOffset := by
  unfold Log.findSegment at h
  obtain ⟨x, hx, hfx⟩ := List.exists_of_findSome?_eq_some h
  cases hu : l.heap[x]? with
  | none => rw [hu] at hfx; cases hfx
  | some u =>
    rw [hu] at hfx
    simp only [Option.bind] at hfx
    split at hfx
    · rename_i hcov
      have e := Option.some.inj hfx
      have e1 : x = p := congrArg Prod.fst e
      have e2 : u = s := congrArg Prod.snd e
      subst e1
      subst e2
      exact ⟨hx, hu, hcov.1, hcov.2⟩
    · cases hfx

/-- The method `segment.Read` changes nothing of the segment but the buffer of the store,
which it may flush. -/
theorem segment_Read_snd (cd : Codec) (s : segment) (off : Nat) :
    (s.Read cd off).2 = s ∨
      (s.Read cd off).2 =
        segment.mk s.store.Flush s.index s.baseOffset s.nextOffset s.config := by
  unfold segment.Read
  cases s.index.Read (toInt64 ((off + 2 ^ 64 - s.baseOffset) % 2 ^ 64)) with
  | error e => exact Or.inl rfl
  | ok v =>
    obtain ⟨x, pos⟩ := v
    have hsnd := store_Read_snd s.store pos
    right
    simp only
    rcases hsr : s.store.Read pos with ⟨res, st⟩
    rw [hsr] at hsnd
    simp only at hsnd
    subst hsnd
    cases res with
    | error e => rfl
    | ok p =>
      simp only
      cases cd.unmarshal p <;> rfl

theorem store_Flush_consistent (s : store) (h : s.consistent) : s.Flush.consistent := by
  unfold store.consistent at *
  simp [store.Flush, h]

theorem Log_Read_snd (cd : Codec) (l : Log) (off : Nat) :
    (l.Read cd off).2 = l ∨
      ∃ p s, l.findSegment off = some (p, s) ∧
        (l.Read cd off).2 =
          Log.mk l.Dir l.Config (l.heap.set p (s.Read cd off).2) l.activeSegment l.segments := by
  unfold Log.Read
  cases hf : l.findSegment off with
  | none => exact Or.inl rfl
  | some ps =>
    obtain ⟨p, s⟩ := ps
    simp only
    by_cases hle : s.nextOffset ≤ off
    · rw [if_pos hle]
      exact Or.inl rfl
    · rw [if_neg hle]
      exact Or.inr ⟨p, s, rfl, rfl⟩

/-- `Log.Read` keeps the invariant and the configuration. -/
theorem Log_Read_WF (cd : Codec) (l : Log) (off : Nat) (hl : l.WF) :
    (l.Read cd off).2.WF ∧ (l.Read cd off).2.Config = l.Config := by
  rcases Log_Read_snd cd l off with h | ⟨p, s, hf, h⟩
  · rw [h]; exact ⟨hl, rfl⟩
  · rw [h]
    refine ⟨?_, rfl⟩
    obtain ⟨hpm, hp, _, _⟩ := findSegment_some l off p s hf
    have hswf := hl.shape.each p hpm s hp
    rcases segment_Read_snd cd s off with h1 | h1
    · rw [h1, set_of_getElem? _ _ _ hp]
      exact hl
    · rw [h1]
      refine Log_WF_set l p s _ hl.shape hp
        (segment_WF_store _ s _ hswf (store_Flush_consistent _ hswf.store)) rfl (Or.inl rfl) ?_
      intro a u ha hu
      rcases getElem?_set_some _ _ _ _ _ hu with ⟨e, rfl⟩ | ⟨_, hu1⟩
      · subst e
        exact hl.head a s ha hp
      · exact hl.head a u ha hu1

/-! ## The invariant of a log: Truncate below the highest offset -/

theorem Log_Truncate_Dir (l : Log) (k : Nat) :
    ∀ e ∈ (l.Truncate k).2.Dir, e ∈ l.Dir ∧
      ∀ p ∈ l.segments, ∀ s, l.heap[p]? = some s → s.nextOffset ≤ (k + 1) % 2 ^ 64 →
        e.1 ≠ segmentFileName s.baseOffset indexExt ∧
        e.1 ≠ segmentFileName s.baseOffset storeExt := by
  intro e he
  simp only [Log.Truncate, List.mem_filter, Bool.not_eq_true', List.contains_eq_any_beq,
    List.any_eq_false, beq_iff_eq] at he
  obtain ⟨hmem, hnot⟩ := he
  refine ⟨hmem, ?_⟩
  intro p hp s hs hle
  have hgone : ∀ name, name ∈ (s.Close).map Prod.fst → e.1 ≠ name := by
    intro name hname heq
    refine hnot name ?_ heq
    refine List.mem_flatMap.2 ⟨s, ?_, hname⟩
    refine List.mem_filterMap.2 ⟨p, ?_, hs⟩
    refine List.mem_filter.2 ⟨hp, ?_⟩
    simp only [hs, decide_eq_true_eq]
    exact hle
  exact ⟨hgone _ (by simp [segment.Close]), hgone _ (by simp [segment.Close])⟩

theorem Log_Shape_segs (l : Log) (hl : l.Shape) :
    ∃ a s init, l.activeSegment = some a ∧ l.heap[a]? = some s ∧ l.segments = init ++ [a] ∧
      a ∉ init ∧ l.segs = init.filterMap (fun p => l.heap[p]?) ++ [s] := by
  obtain ⟨a, init, ha, hseg, hni⟩ := hl.active
  have hmem : a ∈ l.segments := by rw [hseg]; simp
  have hlt := hl.alloc a hmem
  have hs : l.heap[a]? = some l.heap[a] := List.getElem?_eq_getElem hlt
  refine ⟨a, l.heap[a], init, ha, hs, hseg, hni, ?_⟩
  unfold Log.segs
  rw [hseg, List.filterMap_append]
  simp [hs]

/-- `Log.Truncate(k)` with `k` below `HighestOffset()` keeps the invariant and the
configuration. -/
theorem Log_Truncate_WF (l : Log) (k h : Nat) (hl : l.WF) (hh : l.HighestOffset = .ok h)
    (hk : k < h) :
    (l.Truncate k).2.WF ∧ (l.Truncate k).2.Config = l.Config := by
  obtain ⟨a, s, init, ha, hs, hseg, hni, hsegs⟩ := Log_Shape_segs l hl.shape
  have hamem : a ∈ l.segments := by rw [hseg]; simp
  have hswf := hl.shape.each a hamem s hs
  have hkeep : (k + 1) % 2 ^ 64 < s.nextOffset := by
    unfold Log.HighestOffset at hh
    rw [hsegs, List.getLast?_concat] at hh
    simp only at hh
    have := hswf.nowrap
    by_cases h0 : s.nextOffset = 0
    · rw [if_pos h0] at hh
      have := Except.ok.inj hh
      omega
    · rw [if_neg h0] at hh
      have := Except.ok.inj hh
      rw [Nat.mod_eq_of_lt (by omega)]
      omega
  have hdir := Log_Truncate_Dir l k
  obtain ⟨dir, hT⟩ := Log_Truncate_eq l k
  rw [hT] at hdir ⊢
  simp only at hdir
  have hq : ∀ (q : Nat) (u : segment), l.heap[q]? = some u →
      ¬ (u.nextOffset ≤ (k + 1) % 2 ^ 64) →
      (!(match l.heap[q]? with
          | some s => decide (s.nextOffset ≤ (k + 1) % 2 ^ 64)
          | none => false)) = true := by
    intro q u hu hgt
    rw [hu]
    simp only [Bool.not_eq_true', decide_eq_false_iff_not]
    exact hgt
  refine ⟨⟨⟨hl.shape.cfg, ?_, ?_, ?_, ?_, ?_⟩, hl.head⟩, rfl⟩
  · refine ⟨a, init.filter (fun p =>
        !(match l.heap[p]? with
          | some s => decide (s.nextOffset ≤ (k + 1) % 2 ^ 64)
          | none => false)), ha, ?_, ?_⟩
    · show l.segments.filter _ = _
      rw [hseg, List.filter_append]
      congr 1
      refine List.filter_eq_self.2 ?_
      intro x hx
      rw [List.mem_singleton.1 hx]
      exact hq a s hs (by omega)
    · intro hmem
      exact hni (List.mem_filter.1 hmem).1
  · intro q hq'
    exact hl.shape.alloc q (List.mem_filter.1 hq').1
  · intro q hq' u hu
    exact hl.shape.each q (List.mem_filter.1 hq').1 u hu
  · exact hl.shape.sorted.sublist (List.filter_sublist _)
  · intro e he
    obtain ⟨hmem, hne⟩ := hdir e he
    obtain ⟨q, hqm, u, hu, hname⟩ := hl.shape.files e hmem
    refine ⟨q, List.mem_filter.2 ⟨hqm, hq q u hu ?_⟩, u, hu, hname⟩
    intro hle
    obtain ⟨h1, h2⟩ := hne q hqm u hu hle
    rcases hname with hname | hname
    · exact h1 hname
    · exact h2 hname

/-! ## The invariant of a log: closing and reopening -/

theorem truncateFile_length (f : Bytes) (n : Nat) : (truncateFile f n).length = n := by
  simp only [truncateFile, List.length_append, List.length_take, List.length_replicate]
  omega

theorem index_Close_take (i : index) (h : i.size ≤ i.mmap.length) :
    i.Close = i.mmap.take i.size := by
  have h0 : i.size - i.mmap.length = 0 := by omega
  simp only [index.Close, truncateFile, h0, List.replicate_zero, List.append_nil]

theorem take_drop_prefix (m rest : Bytes) (n i j : Nat) (hn : n ≤ m.length)
    (hij : i + j ≤ n) :
    ((m.take n ++ rest).drop i).take j = (m.drop i).take j := by
  have hA : (m.take n).length = n := by rw [List.length_take]; omega
  rw [List.drop_append_of_le_length (by omega), List.take_append_of_le_length
    (by rw [List.length_drop]; omega), List.drop_take, List.take_take]
  congr 1
  omega

theorem segment_reopen_mmap (c : Config) (s : segment) (hs : s.WF c) :
    s.reopen.index.mmap =
        s.index.mmap.take s.index.size ++
          List.replicate (c.Segment.MaxIndexBytes - s.index.size) 0 ∧
      s.reopen.index.size = s.index.size := by
  have hle : s.index.size ≤ s.index.mmap.length := by rw [hs.mapped]; exact hs.room
  have hc := index_Close_take s.index hle
  have hlen : s.index.Close.length = s.index.size := by
    rw [hc, List.length_take]; omega
  refine ⟨?_, hlen⟩
  show truncateFile s.index.Close s.config.Segment.MaxIndexBytes = _
  rw [hs.config, truncateFile_of_le _ _ (by rw [hlen]; exact hs.room), hlen, hc]

theorem segment_reopen_WF (c : Config) (s : segment) (hs : s.WF c) : s.reopen.WF c := by
  obtain ⟨hm, hsz⟩ := segment_reopen_mmap c s hs
  have hle : s.index.size ≤ s.index.mmap.length := by rw [hs.mapped]; exact hs.room
  have he : entWidth = 12 := rfl
  have hw : offWidth = 4 := rfl
  refine ⟨hs.config, ?_, hs.nowrap, ?_, ?_, ?_, ?_, newStore_consistent _⟩
  · rw [hsz]; exact hs.next
  · rw [hsz]; exact hs.aligned
  · rw [hm, List.length_append, List.length_take, List.length_replicate]
    have := hs.room
    omega
  · rw [hsz]; exact hs.room
  · intro n hn
    rw [hsz] at hn
    rw [hm, take_drop_prefix _ _ _ _ _ hle (by rw [hn, he, hw]; omega)]
    exact hs.last n hn

theorem segment_reopen_head (c : Config) (s : segment) (hs : s.WF c)
    (h : s.IsMaxed = false ∨ s.index.mmap.length < s.index.size + entWidth) :
    s.reopen.IsMaxed = false ∨ s.reopen.index.mmap.length < s.reopen.index.size + entWidth := by
  obtain ⟨_, hsz⟩ := segment_reopen_mmap c s hs
  have hst : s.reopen.store.size = s.store.size := by
    have := hs.store
    unfold store.consistent at this
    simp [segment.reopen, newStore, store.Close, store.Flush, this]
  have hml : s.reopen.index.mmap.length = s.index.mmap.length := by
    rw [(segment_reopen_WF c s hs).mapped, hs.mapped]
  rcases h with h | h
  · left
    unfold segment.IsMaxed at h ⊢
    rw [hst, hsz]
    exact h
  · right
    rw [hml, hsz]
    exact h

/-- Opening the two files a well-formed segment leaves on disk gives the segment back,
with the store and the index read from the files. -/
theorem newSegment_reopens (c : Config) (dir : Directory) (s : segment) (hs : s.WF c)
    (h63 : c.Segment.MaxIndexBytes < 2 ^ 63) (hI : 0 < c.Segment.MaxIndexBytes)
    (h32 : c.Segment.MaxIndexBytes ≤ 12 * 2 ^ 32)
    (hst : dir.lookup (segmentFileName s.baseOffset storeExt) = some s.store.Close)
    (hix : dir.lookup (segmentFileName s.baseOffset indexExt) = some s.index.Close) :
    newSegment dir s.baseOffset c = .ok s.reopen := by
  obtain ⟨hm, hsz⟩ := segment_reopen_mmap c s hs
  have hwf := segment_reopen_WF c s hs
  have hle : s.index.size ≤ s.index.mmap.length := by rw [hs.mapped]; exact hs.room
  have he : entWidth = 12 := rfl
  have hw : offWidth = 4 := rfl
  have hcfg := hs.config
  have hlen : s.index.Close.length = s.index.size := hsz
  have hni : newIndex s.index.Close c =
      .ok (index.mk (truncateFile s.index.Close c.Segment.MaxIndexBytes)
        s.index.Close.length) := by
    have h1 : ¬ (2 ^ 63 ≤ c.Segment.MaxIndexBytes) := by omega
    have h2 : ¬ ((truncateFile s.index.Close c.Segment.MaxIndexBytes).length = 0) := by
      rw [truncateFile_length]; omega
    simp only [newIndex, h1, if_false, h2]
  have hidx : index.mk (truncateFile s.index.Close c.Segment.MaxIndexBytes)
      s.index.Close.length = s.reopen.index := by
    show _ = index.mk (truncateFile s.index.Close s.config.Segment.MaxIndexBytes) _
    rw [hcfg]
  rw [hidx] at hni
  have hre : s.reopen = segment.mk (newStore s.store.Close) s.reopen.index s.baseOffset
      s.nextOffset c := by
    rw [← hcfg]; rfl
  have hnext := hs.next
  have halign := hs.aligned
  rw [he] at hnext halign
  by_cases h0 : s.index.size = 0
  · have hr : s.reopen.index.Read (-1) = .error Error.EOF := by
      unfold index.Read
      rw [if_pos (by rw [hsz]; exact h0)]
    have hnb : s.nextOffset = s.baseOffset := by omega
    simp only [newSegment, openFile, hst, hix, Option.getD_some, hni, hr]
    rw [hre, hnb]
  · have hn : s.index.size = entWidth * ((s.index.size / 12 - 1) + 1) := by
      rw [he]; omega
    have hlast := hwf.last (s.index.size / 12 - 1) (by rw [hsz]; exact hn)
    rw [he, hw] at hlast
    have hroom := hs.room
    have hr := index_Read_entry s.reopen.index (-1) (s.index.size / 12 - 1)
      (by rw [if_pos rfl, hsz, he]; omega) (by rw [hsz]; omega)
      (by rw [hsz, hwf.mapped]; exact hroom)
    rw [hlast] at hr
    have hnw := hs.nowrap
    have hnb : (s.baseOffset + (s.index.size / 12 - 1) + 1) % 2 ^ 64 = s.nextOffset := by
      rw [Nat.mod_eq_of_lt (by omega)]; omega
    simp only [newSegment, openFile, hst, hix, Option.getD_some, hni, hr, hnb]
    rw [hre]

theorem pairwise_range_lookup {α : Type} {R : α → α → Prop} (xs : List α)
    (h : xs.Pairwise R) :
    (List.range xs.length).Pairwise
      (fun i j => ∀ a b, xs[i]? = some a → xs[j]? = some b → R a b) := by
  rw [List.pairwise_iff_getElem] at h ⊢
  intro i j hi hj hij a b ha hb
  simp only [List.length_range] at hi hj
  simp only [List.getElem_range] at ha hb hij
  rw [List.getElem?_eq_getElem hi] at ha
  rw [List.getElem?_eq_getElem hj] at hb
  rw [← Option.some.inj ha, ← Option.some.inj hb]
  exact h i j hi hj hij

theorem Log_Shape_segs_each (l : Log) (hl : l.Shape) : ∀ s ∈ l.segs, s.WF l.Config := by
  intro s hs
  obtain ⟨p, hp, hps⟩ := (mem_segs_iff l s).1 hs
  exact hl.each p hp s hps

theorem Log_Shape_segs_sorted (l : Log) (hl : l.Shape) :
    l.segs.Pairwise (fun s t =>
      s.nextOffset ≤ t.baseOffset ∧ s.baseOffset < t.baseOffset) := by
  unfold Log.segs
  rw [List.pairwise_filterMap]
  exact hl.sorted.imp (fun h b hb b' hb' => h b b' hb hb')

theorem Log_Close_of_Shape (l : Log) (hl : l.Shape) :
    l.Close = l.segs.flatMap segment.Close := by
  unfold Log.Close
  simp only
  have hnil : l.Dir.filter (fun entry =>
      !((l.segs.flatMap segment.Close).map Prod.fst).contains entry.1) = [] := by
    rw [List.filter_eq_nil_iff]
    intro e he
    obtain ⟨p, hp, s, hs, hname⟩ := hl.files e he
    have hmem : e.1 ∈ (l.segs.flatMap segment.Close).map Prod.fst := by
      rw [Close_keys]
      refine List.mem_flatMap.2 ⟨s, mem_segs l p s hp hs, ?_⟩
      rcases hname with h | h <;> simp [h]
    simp only [Bool.not_eq_true', List.contains_eq_any_beq, List.any_eq_false, beq_iff_eq,
      not_forall]
    exact ⟨e.1, hmem, fun h => h rfl⟩
  rw [hnil, List.append_nil]

theorem Log_Shape_segs_base (l : Log) (hl : l.Shape) :
    ∀ s ∈ l.segs, s.baseOffset < 2 ^ 64 := by
  intro s hs
  have h := Log_Shape_segs_each l hl s hs
  have h1 : s.baseOffset ≤ s.nextOffset := by rw [h.next]; exact Nat.le_add_right _ _
  have := h.nowrap
  omega

/-- `NewLog` over the directory a log that satisfies the invariant leaves behind, with the
same configuration, gives the log again, every segment reopened from its files. -/
theorem NewLog_restart_eq (l : Log) (c0 : Config) (hl : l.WF)
    (hc : l.Config = c0.withDefaults) :
    NewLog l.Close c0 =
      .ok (Log.mk l.Close l.Config (l.segs.map segment.reopen)
        (some (l.segs.length - 1)) (List.range l.segs.length)) := by
  have hsh := hl.shape
  obtain ⟨hv, hS, hI, h32⟩ := hsh.cfg
  have heach := Log_Shape_segs_each l hsh
  have hp : l.segs.Pairwise (fun s t => s.baseOffset < t.baseOffset) :=
    (Log_Shape_segs_sorted l hsh).imp (fun h => h.2)
  have hb64 := Log_Shape_segs_base l hsh
  have hnd := Close_keys_nodup _ hp hb64
  have hclose := Log_Close_of_Shape l hsh
  have hnew : ∀ t ∈ l.segs.map segment.reopen,
      newSegment (l.segs.flatMap segment.Close) t.baseOffset l.Config = .ok t := by
    intro t ht
    obtain ⟨s, hs, rfl⟩ := List.mem_map.1 ht
    have hmem1 : (segmentFileName s.baseOffset storeExt, s.store.Close) ∈
        l.segs.flatMap segment.Close :=
      List.mem_flatMap.2 ⟨s, hs, by simp [segment.Close]⟩
    have hmem2 : (segmentFileName s.baseOffset indexExt, s.index.Close) ∈
        l.segs.flatMap segment.Close :=
      List.mem_flatMap.2 ⟨s, hs, by simp [segment.Close]⟩
    exact newSegment_reopens l.Config _ s (heach s hs) hv.2.1 hI h32
      (lookup_of_mem_nodup _ _ _ hmem1 hnd) (lookup_of_mem_nodup _ _ _ hmem2 hnd)
  have hdup : l.segs.flatMap (fun s => [s.baseOffset, s.baseOffset]) =
      (l.segs.map segment.reopen).flatMap (fun s => [s.baseOffset, s.baseOffset]) := by
    rw [flatMap_map_eq]
    rfl
  have hloop := setupLoop_reopen _ l.Config _ hnew
    (Log.mk (l.segs.flatMap segment.Close) l.Config [] none []) rfl rfl
  obtain ⟨a, s, init, _, _, _, _, hsegs⟩ := Log_Shape_segs l hsh
  have hlen : 0 < l.segs.length := by rw [hsegs]; simp
  have hne : ¬ (l.segs.map segment.reopen = []) := by
    intro h
    have := congrArg List.length h
    rw [List.length_map, List.length_nil] at this
    omega
  have hl0 : ¬ (l.segs.length = 0) := by omega
  rw [NewLog_eq, ← hc, hclose]
  simp only [Log.setup]
  rw [scanBaseOffsets_Close _ hb64, List.Sorted.insertionSort_eq (doubled_sorted _ hp), hdup,
    hloop]
  simp only [List.nil_append, List.length_nil, List.length_map, Nat.zero_add,
    ← List.range_eq_range', List.isEmpty_eq_true, List.range_eq_nil, hl0, hne, if_false]

/-- The log `NewLog` builds over the directory a log that satisfies the invariant leaves
behind satisfies the invariant. -/
theorem Log_restart_WF (l : Log) (hl : l.WF) :
    (Log.mk l.Close l.Config (l.segs.map segment.reopen)
      (some (l.segs.length - 1)) (List.range l.segs.length)).WF := by
  have hsh := hl.shape
  have heach := Log_Shape_segs_each l hsh
  have hsorted := Log_Shape_segs_sorted l hsh
  have hclose := Log_Close_of_Shape l hsh
  obtain ⟨a, s, init, ha, hs, _, _, hsegs⟩ := Log_Shape_segs l hsh
  have hlen : 0 < l.segs.length := by rw [hsegs]; simp
  have hget : ∀ (q : Nat) (t : segment), (l.segs.map segment.reopen)[q]? = some t →
      ∃ u, l.segs[q]? = some u ∧ u ∈ l.segs ∧ t = u.reopen := by
    intro q t ht
    rw [List.getElem?_map] at ht
    cases hu : l.segs[q]? with
    | none => rw [hu] at ht; cases ht
    | some u =>
      rw [hu] at ht
      exact ⟨u, rfl, List.getElem?_mem hu, (Option.some.inj ht).symm⟩
  refine ⟨⟨hsh.cfg, ?_, ?_, ?_, ?_, ?_⟩, ?_⟩
  · refine ⟨l.segs.length - 1, List.range (l.segs.length - 1), rfl, ?_, ?_⟩
    · show List.range l.segs.length = _
      rw [← List.range_succ]
      congr 1
      omega
    · simp
  · intro q hq
    show q < (l.segs.map segment.reopen).length
    rw [List.length_map]
    exact List.mem_range.1 hq
  · intro q _ t ht
    obtain ⟨u, _, hu, rfl⟩ := hget q t ht
    exact segment_reopen_WF _ u (heach u hu)
  · show (List.range l.segs.length).Pairwise _
    have h1 : (l.segs.map segment.reopen).Pairwise (fun s t =>
        s.nextOffset ≤ t.baseOffset ∧ s.baseOffset < t.baseOffset) :=
      List.pairwise_map.2 hsorted
    have h2 := pairwise_range_lookup _ h1
    rw [List.length_map] at h2
    exact h2
  · intro e he
    have he1 : e ∈ l.segs.flatMap segment.Close := by rw [← hclose]; exact he
    obtain ⟨u, hu, heu⟩ := List.mem_flatMap.1 he1
    obtain ⟨q, hq, hqu⟩ := List.getElem_of_mem hu
    refine ⟨q, List.mem_range.2 hq, u.reopen, ?_, ?_⟩
    · show (l.segs.map segment.reopen)[q]? = some u.reopen
      rw [List.getElem?_map, List.getElem?_eq_getElem hq, hqu]
      rfl
    · simp only [segment.Close, List.mem_cons, List.mem_singleton, List.not_mem_nil,
        or_false] at heu
      rcases heu with h | h
      · left; rw [h]; rfl
      · right; rw [h]; rfl
  · intro a1 t ha1 ht
    have e : l.segs.length - 1 = a1 := Option.some.inj ha1
    subst e
    obtain ⟨u, hu, humem, rfl⟩ := hget _ t ht
    have hus : u = s := by
      rw [hsegs] at hu
      simp only [List.length_append, List.length_singleton, Nat.add_sub_cancel] at hu
      rw [getElem?_snoc] at hu
      exact (Option.some.inj hu).symm
    subst hus
    exact segment_reopen_head _ u (heach u humem) (hl.head a u ha hs)

/-- Closing a log that satisfies the invariant and opening its directory again with the
same configuration gives a log that satisfies the invariant. -/
theorem NewLog_restart_WF (l l1 : Log) (c0 : Config) (hl : l.WF)
    (hc : l.Config = c0.withDefaults) (h : NewLog l.Close c0 = .ok l1) :
    l1.WF ∧ l1.Config = c0.withDefaults := by
  rw [NewLog_restart_eq l c0 hl hc] at h
  rw [← Except.ok.inj h]
  exact ⟨Log_restart_WF l hl, hc⟩

/-! ## Reachable logs -/

/-- Every reachable log satisfies the invariant and carries the configuration `NewLog`
stored. -/
theorem Reachable_WF (cd : Codec) (c : Config) (l : Log) (hu : c.isUint64)
    (hidx : c.Segment.MaxIndexBytes ≤ 12 * 2 ^ 32) (h : l.Reachable cd c) :
    l.WF ∧ l.Config = c.withDefaults := by
  induction h with
  | fresh l h0 => exact NewLog_fresh_WF c l hu hidx h0
  | append l r _ hnw ih =>
    obtain ⟨h1, h2⟩ := Log_Append_WF cd l r ih.1 hnw
    exact ⟨h1, h2.trans ih.2⟩
  | read l off _ ih =>
    obtain ⟨h1, h2⟩ := Log_Read_WF cd l off ih.1
    exact ⟨h1, h2.trans ih.2⟩
  | truncate l k h _ hh hk ih =>
    obtain ⟨h1, h2⟩ := Log_Truncate_WF l k h ih.1 hh hk
    exact ⟨h1, h2.trans ih.2⟩
  | restart l l1 _ h0 ih => exact NewLog_restart_WF l l1 c ih.1 ih.2 h0

/-- The segments of a log that satisfies the invariant are in order. -/
theorem WF_Ordered (l : Log) (hl : l.WF) : l.Ordered := by
  have hsh := hl.shape
  obtain ⟨a, s, init, ha, hs, _, _, hsegs⟩ := Log_Shape_segs l hsh
  refine ⟨?_, (Log_Shape_segs_sorted l hsh).imp (fun h => h.1), ?_, ?_⟩
  · intro t ht
    rw [(Log_Shape_segs_each l hsh t ht).next]
    exact Nat.le_add_right _ _
  · rw [hsegs]; simp
  · rw [hsegs, List.getLast?_concat, ha]
    exact hs

/-- The segments of every reachable log are in order. -/
theorem Reachable_Ordered (cd : Codec) (c : Config) (l : Log) (hu : c.isUint64)
    (hidx : c.Segment.MaxIndexBytes ≤ 12 * 2 ^ 32) (h : l.Reachable cd c) : l.Ordered :=
  WF_Ordered l (Reachable_WF cd c l hu hidx h).1

/-! ## Reading back the record just appended -/

theorem findSegment_at (l : Log) (init rest : List Nat) (a : Nat) (s1 : segment) (o : Nat)
    (hseg : l.segments = init ++ a :: rest)
    (hinit : ∀ x ∈ init, ∀ u, l.heap[x]? = some u →
      ¬ (u.baseOffset ≤ o ∧ o < u.nextOffset))
    (ha : l.heap[a]? = some s1) (hcov : s1.baseOffset ≤ o ∧ o < s1.nextOffset) :
    l.findSegment o = some (a, s1) := by
  unfold Log.findSegment
  rw [hseg, List.findSome?_append]
  have h1 : init.findSome? (fun p => (l.heap[p]?).bind (fun s =>
      if s.baseOffset ≤ o ∧ o < s.nextOffset then some (p, s) else none)) = none := by
    rw [List.findSome?_eq_none_iff]
    intro x hx
    cases hu : l.heap[x]? with
    | none => rfl
    | some u =>
      simp only [Option.bind]
      rw [if_neg (hinit x hx u hu)]
  rw [h1]
  simp only [Option.none_or, List.findSome?_cons, ha, Option.bind, hcov, and_self, if_true]

/-- On a well-formed segment whose store position is a `uint64`, the record a successful
`Append` wrote is the one `Read` finds at the offset `Append` returned. -/
theorem segment_Append_then_Read (cd : Codec) (c : Config) (s : segment) (r : Record)
    (o : Nat) (r1 : Record) (s1 : segment) (hs : s.WF c)
    (hidx : c.Segment.MaxIndexBytes ≤ 12 * 2 ^ 32) (hlen : cd.sliceSized)
    (hpos : s.store.size < 2 ^ 64) (h : s.Append cd r = (.ok o, r1, s1)) :
    ∃ p, cd.marshal { r with Offset := o } = some p ∧
      (s1.Read cd o).1 =
        (match cd.unmarshal p with
          | none => .error Error.unmarshalFailed
          | some record => .ok record) := by
  obtain ⟨p, hm, hroom, ho, hr1, hs1⟩ := segment_Append_ok_inv cd s r o r1 s1 h
  have he : entWidth = 12 := rfl
  have h1 := hs.next
  have h2 := hs.aligned
  have h3 := hs.mapped
  have h4 := hs.store
  have h5 := hs.nowrap
  rw [he] at hroom h1 h2
  unfold store.consistent at h4
  have hA : (s.index.mmap.take s.index.size).length = entWidth * (s.index.size / 12) := by
    rw [List.length_take, he]; omega
  refine ⟨p, by rw [ho]; exact hm, ?_⟩
  have hrel : (o + 2 ^ 64 - s1.baseOffset) % 2 ^ 64 = s.index.size / 12 := by
    rw [hs1, ho]
    show (s.nextOffset + 2 ^ 64 - s.baseOffset) % 2 ^ 64 = _
    omega
  have hi := index_Read_at
    (s.index.mmap.take s.index.size ++
      (PutUint32 ((s.nextOffset + 2 ^ 64 - s.baseOffset) % 2 ^ 64 % 2 ^ 32) ++
        PutUint64 s.store.size) ++ s.index.mmap.drop (s.index.size + entWidth))
    (s.index.size + entWidth) (s.index.size / 12)
    ((s.nextOffset + 2 ^ 64 - s.baseOffset) % 2 ^ 64 % 2 ^ 32) s.store.size
    (s.index.mmap.take s.index.size) (s.index.mmap.drop (s.index.size + entWidth)) rfl hA
    (by rw [he]; omega) (by omega)
  rw [Nat.mod_eq_of_lt hpos] at hi
  have hst := store_Read_frame s1.store (s.store.file ++ s.store.buf) [] p (hlen _ _ hm)
    (by rw [hs1]; simp [frame])
  have hal : (s.store.file ++ s.store.buf).length = s.store.size := by
    rw [List.length_append, h4]
  rw [hal] at hst
  have hidx1 : s1.index = index.mk
      (s.index.mmap.take s.index.size ++
        (PutUint32 ((s.nextOffset + 2 ^ 64 - s.baseOffset) % 2 ^ 64 % 2 ^ 32) ++
          PutUint64 s.store.size) ++ s.index.mmap.drop (s.index.size + entWidth))
      (s.index.size + entWidth) := by rw [hs1]
  simp only [segment.Read, hrel, toInt64_small (s.index.size / 12) (by omega), hidx1, hi, hst]
  cases cd.unmarshal p <;> rfl

/-- In a log that satisfies the invariant, a record whose `Append` returned an offset `o`
below the largest `uint64` is read back at `o`. -/
theorem Log_WF_Append_then_Read (cd : Codec) (l : Log) (r : Record) (o : Nat) (hl : l.WF)
    (hlen : cd.sliceSized) (happ : (l.Append cd r).1 = .ok o) (hnw : o + 1 < 2 ^ 64) :
    ∃ p, cd.marshal { r with Offset := o } = some p ∧
      ((l.Append cd r).2.2.Read cd o).1 =
        (match cd.unmarshal p with
          | none => .error Error.unmarshalFailed
          | some record => .ok record) := by
  obtain ⟨a, s, ha, hs, hamem⟩ := Log_Shape_active l hl.shape
  obtain ⟨a0, init, ha0, hseg, hni⟩ := hl.shape.active
  rw [ha] at ha0
  have e0 : a = a0 := Option.some.inj ha0
  subst e0
  have hswf := hl.shape.each a hamem s hs
  have halt := getElem?_lt _ _ _ hs
  have hle := Log_Shape_base_le l a s hl.shape ha hs
  have hsa : ∃ r1 s1, s.Append cd r = (.ok o, r1, s1) := by
    have hEq := Log_Append_eq cd l r a s ha hs
    rcases hsa : s.Append cd r with ⟨res, r1, s1⟩
    rw [hsa] at hEq
    rw [hEq] at happ
    cases res with
    | error e => cases happ
    | ok o1 =>
      simp only at happ
      by_cases hmax : s1.IsMaxed = true
      · simp only [hmax, if_true] at happ
        rcases hns : (Log.mk l.Dir l.Config (l.heap.set a s1) l.activeSegment
          l.segments).newSegment ((o1 + 1) % 2 ^ 64) with ⟨res2, l2⟩
        rw [hns] at happ
        cases res2 with
        | error e => cases happ
        | ok u =>
          have : o1 = o := Except.ok.inj happ
          subst this
          exact ⟨r1, s1, rfl⟩
      · simp only [hmax] at happ
        have : o1 = o := Except.ok.inj happ
        subst this
        exact ⟨r1, s1, rfl⟩
  obtain ⟨r1, s1, hsa⟩ := hsa
  obtain ⟨_, _, hroom, ho, _, _⟩ := segment_Append_ok_inv cd s r o r1 s1 hsa
  have hnw1 : s.nextOffset + 1 < 2 ^ 64 := by rw [← ho]; exact hnw
  obtain ⟨hwf1, hb1, hn1, _⟩ := segment_Append_ok_WF cd l.Config s r o r1 s1 hswf
    hl.shape.cfg.2.2.2 hnw1 hsa
  have hpos : s.store.size < 2 ^ 64 := by
    rcases hl.head a s ha hs with h | h
    · have hv := hl.shape.cfg.1.1
      have hc := hswf.config
      have hnot : ¬ (s.store.size ≥ s.config.Segment.MaxStoreBytes ∨
          s.index.size ≥ s.config.Segment.MaxIndexBytes) := by
        intro h'
        rw [(segment_IsMaxed_iff s).2 h'] at h
        cases h
      rw [hc] at hnot
      omega
    · omega
  obtain ⟨p, hm, hread⟩ := segment_Append_then_Read cd l.Config s r o r1 s1 hswf
    hl.shape.cfg.2.2.2 hlen hpos hsa
  refine ⟨p, hm, ?_⟩
  have hsb : s.baseOffset ≤ s.nextOffset := by rw [hswf.next]; exact Nat.le_add_right _ _
  have hcov : s1.baseOffset ≤ o ∧ o < s1.nextOffset := by omega
  have hinit : ∀ x ∈ init, ∀ u, l.heap[x]? = some u →
      ¬ (u.baseOffset ≤ o ∧ o < u.nextOffset) := by
    intro x hx u hu
    have hxm : x ∈ l.segments := by rw [hseg]; exact List.mem_append_left _ hx
    have hxa : x ≠ a := fun e => hni (e ▸ hx)
    have := (hle x hxm u hu).2 hxa
    omega
  have hfind : ((l.Append cd r).2.2).findSegment o = some (a, s1) := by
    rcases Log_Append_cases cd l r a s hl ha hs hnw1 with
      ⟨e, r2, s2, h2, _, _⟩ | ⟨o2, r2, s2, h2, hres, _⟩ | ⟨o2, r2, s2, h2, hres, _⟩
    · rw [hsa] at h2
      cases (Prod.mk.inj h2).1
    · rw [hsa] at h2
      have e2 : s1 = s2 := (Prod.mk.inj (Prod.mk.inj h2).2).2
      subst e2
      rw [hres]
      refine findSegment_at _ init [] a s1 o hseg ?_ (List.getElem?_set_self halt) hcov
      intro x hx u hu
      have hxa : a ≠ x := fun e => hni (e ▸ hx)
      have hu1 : (l.heap.set a s1)[x]? = some u := hu
      rw [List.getElem?_set_ne hxa] at hu1
      exact hinit x hx u hu1
    · rw [hsa] at h2
      have e2 : s1 = s2 := (Prod.mk.inj (Prod.mk.inj h2).2).2
      subst e2
      rw [hres]
      have hlt2 : a < (l.heap.set a s1).length := by rw [List.length_set]; exact halt
      refine findSegment_at _ init [(l.heap.set a s1).length] a s1 o
        (by show l.segments ++ _ = _; rw [hseg]; simp) ?_
        (by
          show (l.heap.set a s1 ++ _)[a]? = some s1
          rw [List.getElem?_append_left hlt2]
          exact List.getElem?_set_self halt) hcov
      intro x hx u hu
      have hxa : a ≠ x := fun e => hni (e ▸ hx)
      have hxm : x ∈ l.segments := by rw [hseg]; exact List.mem_append_left _ hx
      have hxl : x < (l.heap.set a s1).length := by
        rw [List.length_set]; exact hl.shape.alloc x hxm
      have hu1 : (l.heap.set a s1 ++ [canonSeg l.Config s1.nextOffset ⟨[], []⟩])[x]? =
          some u := hu
      rw [List.getElem?_append_left hxl, List.getElem?_set_ne hxa] at hu1
      exact hinit x hx u hu1
  rw [Log_Read_fst, hfind]
  simp only
  rw [if_neg (by omega)]
  exact hread

/-- C1 (amended): for every log reached from `NewLog` on an empty directory by `Append`
calls that did not assign the largest `uint64`, `Read` calls, `Truncate` calls below
`HighestOffset()` and restarts (`Close`, then `NewLog` on the same directory with the same
configuration), with relative offsets that fit in 32 bits, a record whose `Append`
returned an offset `o` below the largest `uint64` is read back at `o` with the same
`Value`, whether or not the append rotated the log. -/
theorem Log_Append_then_Read (cd : Codec) (c : Config) (l : Log) (r : Record) (o : Nat)
    (hu : c.isUint64) (hlen : cd.sliceSized)
    (hrt : ∀ p, cd.marshal { r with Offset := o } = some p →
      ∃ r1, cd.unmarshal p = some r1 ∧ r1.Value = r.Value)
    (hidx : c.Segment.MaxIndexBytes ≤ 12 * 2 ^ 32)
    (hreach : l.Reachable cd c)
    (happ : (l.Append cd r).1 = .ok o) (hnw : o + 1 < 2 ^ 64) :
    ∃ r1, ((l.Append cd r).2.2.Read cd o).1 = .ok r1 ∧ r1.Value = r.Value := by
  obtain ⟨hwf, _⟩ := Reachable_WF cd c l hu hidx hreach
  obtain ⟨p, hm, hread⟩ := Log_WF_Append_then_Read cd l r o hwf hlen happ hnw
  obtain ⟨r1, hr1, hval⟩ := hrt p hm
  refine ⟨r1, ?_, hval⟩
  rw [hread, hr1]

theorem active_next_ok (l : Log)
    (h : ∀ s ∈ l.activeSegment.bind (fun a => l.heap[a]?), s.nextOffset + 1 < 2 ^ 64) :
    ∀ a s, l.activeSegment = some a → l.heap[a]? = some s → s.nextOffset + 1 < 2 ^ 64 := by
  intro a s ha hs
  apply h
  rw [ha]
  exact hs

set_option maxRecDepth 100000 in
theorem truncatedLog_Reachable : truncatedLog.Reachable protoCodec testConfig :=
  Log.Reachable.truncate _ 1 3
    (Log.Reachable.append _ helloRecord
      (Log.Reachable.append _ helloRecord
        (Log.Reachable.append _ helloRecord
          (Log.Reachable.append _ helloRecord
            (Log.Reachable.fresh _ (NewLog_empty testConfig (by decide)))
            (active_next_ok _ (by decide)))
          (active_next_ok _ (by decide)))
        (active_next_ok _ (by decide)))
      (active_next_ok _ (by decide)))
    (by decide) (by decide)

set_option maxRecDepth 100000 in
theorem reopenedLog_Reachable : reopenedLog.Reachable protoCodec testConfig :=
  Log.Reachable.restart truncatedLog reopenedLog truncatedLog_Reachable
    (NewLog_restart_eq truncatedLog testConfig
      (Reachable_WF protoCodec testConfig truncatedLog (by decide) (by decide)
        truncatedLog_Reachable).1
      (Reachable_WF protoCodec testConfig truncatedLog (by decide) (by decide)
        truncatedLog_Reachable).2)

set_option maxRecDepth 100000 in
theorem Log_Append_then_Read_witness :
    ∃ r1, (((reopenedLog.Read protoCodec 2).2.Append protoCodec helloRecord).2.2.Read
        protoCodec 4).1 = .ok r1 ∧ r1.Value = helloRecord.Value :=
  Log_Append_then_Read protoCodec testConfig (reopenedLog.Read protoCodec 2).2 helloRecord 4
    (by decide) protoCodec_sliceSized
    (by intro p hp; cases hp; exact ⟨{ helloRecord with Offset := 4 }, by decide, rfl⟩)
    (by decide)
    (Log.Reachable.read _ 2 reopenedLog_Reachable)
    (by decide) (by decide)

/-! ## Reading outside the log, and reading after Truncate -/

/-- C2 (amended): in every log whose segments are in order (`Log.Ordered`: no segment ends
before it starts, every segment ends where a later one starts or before, and the active
segment is the last one), and so in every log reached without offset wrap from `NewLog`
on an empty directory by `Append`, `Read`, `Truncate` below `HighestOffset()` and
restarts (`Log.Reachable`, with relative offsets that fit in 32 bits), `Read(off)` returns
no record and `ErrOffsetOutOfRange`, and leaves the log as it is, for every `off` below
`LowestOffset()` and every `off` at or above the `nextOffset` of the active segment. -/
theorem Log_Read_out_of_range (cd : Codec) (c : Config) (l : Log) (off : Nat)
    (hl : l.Ordered ∨
      (c.isUint64 ∧ c.Segment.MaxIndexBytes ≤ 12 * 2 ^ 32 ∧ l.Reachable cd c))
    (hoff : (∃ lo, l.LowestOffset = .ok lo ∧ off < lo) ∨
      (∃ a s, l.activeSegment = some a ∧ l.heap[a]? = some s ∧ s.nextOffset ≤ off)) :
    l.Read cd off = (.error Error.OffsetOutOfRange, l) := by
  have hord : l.Ordered := by
    rcases hl with h | ⟨hu, hidx, h⟩
    · exact h
    · exact Reachable_Ordered cd c l hu hidx h
  simp only [Log.Read, Ordered_findSegment_none l off hord hoff]

set_option maxRecDepth 100000 in
theorem Log_Read_out_of_range_witness :
    (canonLog testConfig.withDefaults LogContent.fresh.all).Read protoCodec 1 =
        (.error Error.OffsetOutOfRange,
          canonLog testConfig.withDefaults LogContent.fresh.all) ∧
      reopenedLog.Read protoCodec 1 = (.error Error.OffsetOutOfRange, reopenedLog) ∧
      reopenedLog.Read protoCodec 4 = (.error Error.OffsetOutOfRange, reopenedLog) :=
  ⟨Log_Read_out_of_range protoCodec testConfig
      (canonLog testConfig.withDefaults LogContent.fresh.all) 1 (Or.inl (by decide))
      (Or.inr ⟨0, canonSeg testConfig.withDefaults 0 ⟨[], []⟩, rfl, rfl, by decide⟩),
    Log_Read_out_of_range protoCodec testConfig reopenedLog 1
      (Or.inr ⟨by decide, by decide, reopenedLog_Reachable⟩)
      (Or.inl ⟨2, by decide, by decide⟩),
    Log_Read_out_of_range protoCodec testConfig reopenedLog 4
      (Or.inr ⟨by decide, by decide, reopenedLog_Reachable⟩)
      (Or.inr ⟨1, (canonSeg testConfig.withDefaults 4 ⟨[], []⟩).reopen, by decide, by decide,
        by decide⟩)⟩

/-- C6 (amended): for every log and every `k`, `Truncate(k)` succeeds and afterwards
`Read(o)` fails with `ErrOffsetOutOfRange` for every offset `o` whose segments were all
removed, those with `nextOffset ≤ (k + 1) mod 2 ^ 64`; an offset whose segment is kept,
because the segment also holds an offset above `k`, is read as before the call; and in a
log whose segments are in order (`Log.Ordered`), so in every log reached without offset
wrap (`Log.Reachable`, with relative offsets that fit in 32 bits), when `k` is the last
offset of a segment, `Read(o)` fails with `ErrOffsetOutOfRange` for every `o ≤ k`. -/
theorem Log_Truncate_removes_older (cd : Codec) (c : Config) (l : Log) (k o : Nat) :
    (l.Truncate k).1 = .ok () ∧
      ((∀ s ∈ l.segs, s.baseOffset ≤ o → o < s.nextOffset →
          s.nextOffset ≤ (k + 1) % 2 ^ 64) →
        (l.Truncate k).2.Read cd o = (.error Error.OffsetOutOfRange, (l.Truncate k).2)) ∧
      (∀ p s, l.findSegment o = some (p, s) → (k + 1) % 2 ^ 64 < s.nextOffset →
        ((l.Truncate k).2.Read cd o).1 = (l.Read cd o).1) ∧
      (l.Ordered ∨
          (c.isUint64 ∧ c.Segment.MaxIndexBytes ≤ 12 * 2 ^ 32 ∧ l.Reachable cd c) →
        k + 1 < 2 ^ 64 → (∃ s ∈ l.segs, s.nextOffset = k + 1) → o ≤ k →
        (l.Truncate k).2.Read cd o = (.error Error.OffsetOutOfRange, (l.Truncate k).2)) := by
  refine ⟨rfl, ?_, ?_, ?_⟩
  · intro hcov
    exact Log_Truncate_Read_removed cd l k o
      (fun p s hp hs h1 h2 => hcov s (mem_segs l p s hp hs) h1 h2)
  · intro p s hf hkeep
    rw [Log_Read_fst, Log_Read_fst, Log_Truncate_findSegment_kept l k o p s hf hkeep, hf]
  · intro hl hk hb ho
    have hord : l.Ordered := by
      rcases hl with h | ⟨hu, hidx, h⟩
      · exact h
      · exact Reachable_Ordered cd c l hu hidx h
    obtain ⟨hbd, hp, _, _⟩ := hord
    obtain ⟨s0, hs0, hn0⟩ := hb
    apply Log_Truncate_Read_removed cd l k o
    intro p t hpm ht h1 h2
    rw [Nat.mod_eq_of_lt hk]
    have htm := mem_segs l p t hpm ht
    rcases pairwise_mem_cases hp htm hs0 with e | h | h
    · rw [e]; omega
    · have := hbd s0 hs0
      omega
    · omega

set_option maxRecDepth 100000 in
theorem Log_Truncate_removes_older_witness :
    (((canonLog testConfig.withDefaults LogContent.fresh.all).AppendAll protoCodec
        [helloRecord, helloRecord, helloRecord]).2.Truncate 1).2.Read protoCodec 0 =
        (.error Error.OffsetOutOfRange,
          (((canonLog testConfig.withDefaults LogContent.fresh.all).AppendAll protoCodec
            [helloRecord, helloRecord, helloRecord]).2.Truncate 1).2) ∧
      ((((canonLog defaultConfig.withDefaults LogContent.fresh.all).AppendAll protoCodec
        [helloRecord, helloRecord]).2.Truncate 0).2.Read protoCodec 0).1 =
        (((canonLog defaultConfig.withDefaults LogContent.fresh.all).AppendAll protoCodec
          [helloRecord, helloRecord]).2.Read protoCodec 0).1 ∧
      (((canonLog testConfig.withDefaults LogContent.fresh.all).AppendAll protoCodec
        [helloRecord, helloRecord, helloRecord]).2.Truncate 1).2.Read protoCodec 1 =
        (.error Error.OffsetOutOfRange,
          (((canonLog testConfig.withDefaults LogContent.fresh.all).AppendAll protoCodec
            [helloRecord, helloRecord, helloRecord]).2.Truncate 1).2) ∧
      (reopenedLog.Truncate 3).2.Read protoCodec 2 =
        (.error Error.OffsetOutOfRange, (reopenedLog.Truncate 3).2) :=
  ⟨(Log_Truncate_removes_older protoCodec testConfig
      ((canonLog testConfig.withDefaults LogContent.fresh.all).AppendAll protoCodec
        [helloRecord, helloRecord, helloRecord]).2 1 0).2.1 (by decide),
    (Log_Truncate_removes_older protoCodec defaultConfig
      ((canonLog defaultConfig.withDefaults LogContent.fresh.all).AppendAll protoCodec
        [helloRecord, helloRecord]).2 0 0).2.2.1 0
      (canonSeg defaultConfig.withDefaults 0
        ⟨[protoMarshal helloRecord, protoMarshal { helloRecord with Offset := 1 }], []⟩)
      (by decide) (by decide),
    (Log_Truncate_removes_older protoCodec testConfig
      ((canonLog testConfig.withDefaults LogContent.fresh.all).AppendAll protoCodec
        [helloRecord, helloRecord, helloRecord]).2 1 1).2.2.2 (Or.inl (by decide))
      (by decide) (by decide) (by decide),
    (Log_Truncate_removes_older protoCodec testConfig reopenedLog 3 2).2.2.2
      (Or.inr ⟨by decide, by decide, reopenedLog_Reachable⟩) (by decide) (by decide)
      (by decide)⟩

end Proglog
